import Mathlib

/-!
A verification development for the `mkjson` directive compiler.

The Rust sources are shallowly embedded: strings are lists of Unicode
scalar values (`Char`, matching Rust `char`), fallible or panicking code
returns `Option`, and the ordered maps (`BTreeMap`, `BTreeSet`) are
modelled as sorted association lists and `Finset`s.  Hash containers
(`HashMap`, `HashSet`) are used by the source only through keyed lookup
and insertion, so they are modelled as association lists (insertion
order); where the source iterates a `HashMap` (array-completeness pass)
the model fixes insertion order, which no theorem below depends on.
-/

namespace Mkjson

/-- One path component (`directive.rs`): an array index or an object key.
Keys hold the escaped spelling without the surrounding quotes, exactly as
stored by `From<SegmentAst> for Segment`.  Indices are `u32` in the
source; the parser rejects larger tokens, so `Nat` values agree with the
`u32` order wherever indices arise. -/
inductive Segment where
  | index (i : Nat)
  | key (s : List Char)
deriving DecidableEq

/-- Persistent path (`directive.rs`): `Root` or `Append parent segment`. -/
inductive Path where
  | root
  | append (parent : Path) (seg : Segment)
deriving DecidableEq

/-- A parsed directive (`directive.rs`): a path and the literal JSON text
of its value. -/
structure Directive where
  path : Path
  value : List Char
deriving DecidableEq

/-- `nibble_to_hex` from `directive.rs`: lowercase hex digit of a nibble. -/
def nibble_to_hex (n : Nat) : Char :=
  if n ≤ 9 then Char.ofNat (48 + n) else Char.ofNat (97 + (n - 10))

/-- The per-character action of `escape_string` in `directive.rs`,
with the match arms in source order. -/
def escapeChar (c : Char) : List Char :=
  if c = '\\' ∨ c = '"' then ['\\', c]
  else if c = '\n' then ['\\', 'n']
  else if c = '\r' then ['\\', 'r']
  else if c = '\t' then ['\\', 't']
  else if c = '\x0c' then ['\\', 'f']
  else if c = '\x08' then ['\\', 'b']
  else if c.toNat < 0x20 then
    ['\\', 'u', '0', '0', nibble_to_hex (c.toNat >>> 4), nibble_to_hex (c.toNat &&& 0x0f)]
  else [c]

/-- `escape_string` from `directive.rs` (`flat_map` over the characters). -/
def escape_string (s : List Char) : List Char := s.flatMap escapeChar

/-- The state of the escape decoder in `unescape_string` (`directive.rs`). -/
inductive UState where
  | normal
  | escaped
  | hex0
  | hex1
  | hex2
  | hex3
deriving DecidableEq

/-- Rust `char::to_digit(16)`. -/
def hexDigit? (c : Char) : Option Nat :=
  if '0' ≤ c ∧ c ≤ '9' then some (c.toNat - 48)
  else if 'a' ≤ c ∧ c ≤ 'f' then some (c.toNat - 87)
  else if 'A' ≤ c ∧ c ≤ 'F' then some (c.toNat - 55)
  else none

/-- The character loop of `unescape_string` in `directive.rs`, transcribed
arm by arm.  Note that the source's arms for the two-character escapes
`\b \f \n \r \t` do *not* return the state to `Normal` (they leave it at
`Escaped`), which is preserved here; the `unreachable!` arm and the
`expect` calls (panics) are modelled as `none`. -/
def unescapeRun : UState → Nat → List Char → Option (List Char)
  | _, _, [] => some []
  | .normal, acc, c :: rest =>
    if c = '\\' then unescapeRun .escaped acc rest
    else (unescapeRun .normal acc rest).map (c :: ·)
  | .escaped, acc, c :: rest =>
    if c = '"' ∨ c = '\\' ∨ c = '/' then (unescapeRun .normal acc rest).map (c :: ·)
    else if c = 'b' then (unescapeRun .escaped acc rest).map (Char.ofNat 0x08 :: ·)
    else if c = 'f' then (unescapeRun .escaped acc rest).map (Char.ofNat 0x0c :: ·)
    else if c = 'n' then (unescapeRun .escaped acc rest).map (Char.ofNat 0x0a :: ·)
    else if c = 'r' then (unescapeRun .escaped acc rest).map (Char.ofNat 0x0d :: ·)
    else if c = 't' then (unescapeRun .escaped acc rest).map (Char.ofNat 0x09 :: ·)
    else if c = 'u' then unescapeRun .hex0 acc rest
    else none
  | .hex0, acc, c :: rest =>
    (hexDigit? c).bind fun d => unescapeRun .hex1 (acc <<< 4 ||| d) rest
  | .hex1, acc, c :: rest =>
    (hexDigit? c).bind fun d => unescapeRun .hex2 (acc <<< 4 ||| d) rest
  | .hex2, acc, c :: rest =>
    (hexDigit? c).bind fun d => unescapeRun .hex3 (acc <<< 4 ||| d) rest
  | .hex3, acc, c :: rest =>
    (hexDigit? c).bind fun d =>
      let n := acc <<< 4 ||| d
      if h : n.isValidChar then (unescapeRun .normal 0 rest).map (Char.ofNatAux n h :: ·)
      else none

/-- `unescape_string` from `directive.rs`: run the decoder and wrap the
result in double quotes (the source chains `'"'` before and after the
decoded characters).  `none` models the panics described at
`unescapeRun`. -/
def unescape_string (s : List Char) : Option (List Char) :=
  (unescapeRun .normal 0 s).map fun l => '"' :: l ++ ['"']

/-- Modelled from the spec: the intended JSON string-escape decoding that
`unescape_string` is meant to implement ("group concrete key spellings by
their Unicode-normalized (unescaped) form", §4.2; the escapes of §4.1).
It differs from the source's `unescape_string` in that every
two-character escape returns the machine to the normal state and the
result is not wrapped in quotes.  Used only to state claims about what
spellings genuinely decode to. -/
def specUnescapeRun : UState → Nat → List Char → Option (List Char)
  | _, _, [] => some []
  | .normal, acc, c :: rest =>
    if c = '\\' then specUnescapeRun .escaped acc rest
    else (specUnescapeRun .normal acc rest).map (c :: ·)
  | .escaped, acc, c :: rest =>
    if c = '"' ∨ c = '\\' ∨ c = '/' then (specUnescapeRun .normal acc rest).map (c :: ·)
    else if c = 'b' then (specUnescapeRun .normal acc rest).map (Char.ofNat 0x08 :: ·)
    else if c = 'f' then (specUnescapeRun .normal acc rest).map (Char.ofNat 0x0c :: ·)
    else if c = 'n' then (specUnescapeRun .normal acc rest).map (Char.ofNat 0x0a :: ·)
    else if c = 'r' then (specUnescapeRun .normal acc rest).map (Char.ofNat 0x0d :: ·)
    else if c = 't' then (specUnescapeRun .normal acc rest).map (Char.ofNat 0x09 :: ·)
    else if c = 'u' then specUnescapeRun .hex0 acc rest
    else none
  | .hex0, acc, c :: rest =>
    (hexDigit? c).bind fun d => specUnescapeRun .hex1 (acc <<< 4 ||| d) rest
  | .hex1, acc, c :: rest =>
    (hexDigit? c).bind fun d => specUnescapeRun .hex2 (acc <<< 4 ||| d) rest
  | .hex2, acc, c :: rest =>
    (hexDigit? c).bind fun d => specUnescapeRun .hex3 (acc <<< 4 ||| d) rest
  | .hex3, acc, c :: rest =>
    (hexDigit? c).bind fun d =>
      let n := acc <<< 4 ||| d
      if h : n.isValidChar then (specUnescapeRun .normal 0 rest).map (Char.ofNatAux n h :: ·)
      else none

/-- Modelled from the spec: decode a key spelling to its code-point
sequence. -/
def specDecodeKey (s : List Char) : Option (List Char) :=
  specUnescapeRun .normal 0 s

/-- `Segment::unescape` from `directive.rs`. -/
def Segment.unescape : Segment → Option Segment
  | .key k => (unescape_string k).map .key
  | .index i => some (.index i)

/-- `Path::unescape` from `directive.rs`: unescape every segment,
keeping the spine. -/
def Path.unescape : Path → Option Path
  | .root => some .root
  | .append p s => do pure (.append (← p.unescape) (← s.unescape))

/-- `NodeKind` from `validator.rs`. -/
inductive NodeKind where
  | object
  | array
  | value
deriving DecidableEq

/-- `PathErrorVariant` from `validator.rs`. -/
inductive PathErrorVariant where
  | inconsistentKeyEncodings (encoding1 encoding2 : Segment)
  | conflictingDirectives
  | structuralConflict (kind1 kind2 : NodeKind)
  | incompleteArray (index_seen index_missing : Nat)
deriving DecidableEq

/-- `PathError` from `validator.rs`. -/
structure PathError where
  path : Path
  variant : PathErrorVariant
deriving DecidableEq

/-- Keyed lookup in an association list (the model of `HashMap` keyed
access). -/
def assocFind {α β : Type} [DecidableEq α] : List (α × β) → α → Option β
  | [], _ => none
  | (a, b) :: rest, a₀ => if a₀ = a then some b else assocFind rest a₀

/-- The inner `while let` loop of `check_key_consistency`
(`validator.rs`): walk the given path and its unescaped twin from the
last segment towards the root; for every key segment, look the
normalized path (including that segment) up in `keys`, record the
concrete spelling if vacant, and fail if the recorded spelling differs.
The `expect` on the normalized path's prefix is modelled as `none`
(it cannot fire, since unescaping preserves the spine). -/
def keyWalk (keys : List (Path × Segment)) :
    Path → Path → Option (Except PathError (List (Path × Segment)))
  | .root, .root => some (.ok keys)
  | .append gp gs, .append np ns =>
    match gs with
    | .key _ =>
      match assocFind keys (.append np ns) with
      | none => keyWalk (keys ++ [(.append np ns, gs)]) gp np
      | some occupied =>
        if gs ≠ occupied then
          some (.error ⟨gp, .inconsistentKeyEncodings occupied gs⟩)
        else keyWalk keys gp np
    | .index _ => keyWalk keys gp np
  | .root, .append _ _ => none
  | .append _ _, .root => none

/-- The directive loop of `check_key_consistency` (`validator.rs`). -/
def keyConsistencyGo (keys : List (Path × Segment)) :
    List Directive → Option (Except PathError Unit)
  | [] => some (.ok ())
  | d :: rest =>
    match d.path.unescape with
    | none => none
    | some n =>
      match keyWalk keys d.path n with
      | none => none
      | some (.error e) => some (.error e)
      | some (.ok keys) => keyConsistencyGo keys rest

/-- `check_key_consistency` from `validator.rs`.  `none` models a panic
inside `unescape_string`. -/
def check_key_consistency (directives : List Directive) :
    Option (Except PathError Unit) :=
  keyConsistencyGo [] directives

/-- The loop of `check_path_uniqueness` (`validator.rs`); the `HashSet`
is modelled as the list of paths seen so far. -/
def uniquenessGo (paths : List Path) : List Directive → Except PathError Unit
  | [] => .ok ()
  | d :: rest =>
    if d.path ∈ paths then .error ⟨d.path, .conflictingDirectives⟩
    else uniquenessGo (d.path :: paths) rest

/-- `check_path_uniqueness` from `validator.rs`. -/
def check_path_uniqueness (directives : List Directive) : Except PathError Unit :=
  uniquenessGo [] directives

/-- The kind a segment forces on its parent (`check_node_types`,
`validator.rs`): keys force objects, indices force arrays. -/
def segKind : Segment → NodeKind
  | .key _ => .object
  | .index _ => .array

/-- The `while let` loop of `check_node_types` (`validator.rs`): walk the
proper prefixes of a path from the longest down, recording the kind each
following segment forces, failing on a mismatch. -/
def typesWalk (types : List (Path × NodeKind)) :
    Path → Except PathError (List (Path × NodeKind))
  | .root => .ok types
  | .append gp gs =>
    let kind := segKind gs
    match assocFind types gp with
    | none => typesWalk (types ++ [(gp, kind)]) gp
    | some occupied =>
      if occupied = kind then typesWalk types gp
      else .error ⟨gp, .structuralConflict occupied kind⟩

/-- One directive of `check_node_types` (`validator.rs`): the full path is
recorded as `Value` (any occupied entry is a conflict), then the prefixes
are walked. -/
def typesOne (types : List (Path × NodeKind)) (d : Directive) :
    Except PathError (List (Path × NodeKind)) :=
  match assocFind types d.path with
  | none => typesWalk (types ++ [(d.path, .value)]) d.path
  | some occupied => .error ⟨d.path, .structuralConflict occupied .value⟩

/-- The directive loop of `check_node_types` (`validator.rs`). -/
def nodeTypesGo (types : List (Path × NodeKind)) :
    List Directive → Except PathError Unit
  | [] => .ok ()
  | d :: rest =>
    match typesOne types d with
    | .error e => .error e
    | .ok types => nodeTypesGo types rest

/-- `check_node_types` from `validator.rs`. -/
def check_node_types (directives : List Directive) : Except PathError Unit :=
  nodeTypesGo [] directives

/-- Ordered-set insertion: the model of `BTreeSet<u32>::insert`.  The
list is kept strictly ascending, which is also the set's iteration
order. -/
def setInsert (i : Nat) : List Nat → List Nat
  | [] => [i]
  | j :: tl =>
    if i = j then j :: tl
    else if i < j then i :: j :: tl
    else j :: setInsert i tl

/-- One step of the collection loop of `check_array_completeness`
(`validator.rs`): an index segment is inserted into the `BTreeSet` of
its prefix (`entry(prefix).or_default().insert(index)`), a key segment
is skipped.  The `HashMap` is an insertion-ordered association list. -/
def collectStep (arrays : List (Path × List Nat)) (gp : Path) : Segment → List (Path × List Nat)
  | .index i =>
    match assocFind arrays gp with
    | none => arrays ++ [(gp, [i])]
    | some _ => arrays.map fun e => if e.1 = gp then (e.1, setInsert i e.2) else e
  | .key _ => arrays

/-- The collection loop of `check_array_completeness` (`validator.rs`):
walk all prefixes of a directive path, applying `collectStep` to each
final segment. -/
def collectWalk (arrays : List (Path × List Nat)) : Path → List (Path × List Nat)
  | .root => arrays
  | .append gp gs => collectWalk (collectStep arrays gp gs) gp

/-- All array prefixes observed across a directive batch, with their
ascending lists of observed indices (`check_array_completeness`,
`validator.rs`). -/
def collectArrays (directives : List Directive) : List (Path × List Nat) :=
  directives.foldl (fun a d => collectWalk a d.path) []

/-- The `windows(2)` loop of `check_array_completeness` (`validator.rs`):
scan an ascending list for the first non-adjacent pair. -/
def windowsCheck (left : Nat) : List Nat → Option (Nat × Nat)
  | [] => none
  | right :: rest =>
    if left + 1 ≠ right then some (right, left + 1) else windowsCheck right rest

/-- The per-array body of `check_array_completeness` (`validator.rs`) on
the ascending list of observed indices: report `(index_seen,
index_missing)` if the first index is nonzero or a gap exists.  The
source `expect`s nonemptiness; entries are created nonempty, so the `[]`
case is unreachable in the pipeline. -/
def checkIndices : List Nat → Option (Nat × Nat)
  | [] => none
  | first :: rest =>
    if first ≠ 0 then some (first, 0) else windowsCheck first rest

/-- The reporting loop of `check_array_completeness` (`validator.rs`),
iterating the collected arrays in insertion order (the source iterates a
`HashMap` in unspecified order; no theorem below depends on which
incomplete array is reported first). -/
def arraysReport : List (Path × List Nat) → Except PathError Unit
  | [] => .ok ()
  | (p, s) :: rest =>
    match checkIndices s with
    | some (seen, missing) => .error ⟨p, .incompleteArray seen missing⟩
    | none => arraysReport rest

/-- `check_array_completeness` from `validator.rs`. -/
def check_array_completeness (directives : List Directive) : Except PathError Unit :=
  arraysReport (collectArrays directives)

/-- `validate` from `validator.rs`: the four passes in order, stopping at
the first failure.  `none` models a panic (possible only in the
key-consistency pass). -/
def validate (directives : List Directive) : Option (Except PathError Unit) :=
  match check_key_consistency directives with
  | none => none
  | some (.error e) => some (.error e)
  | some (.ok ()) =>
    match check_path_uniqueness directives with
    | .error e => some (.error e)
    | .ok () =>
      match check_node_types directives with
      | .error e => some (.error e)
      | .ok () =>
        match check_array_completeness directives with
        | .error e => some (.error e)
        | .ok () => some (.ok ())

/-- The segments of a path in root-first order (`Path::split_first` in
`directive.rs` builds exactly this sequence by pushing segments to the
front of a deque). -/
def Path.segs : Path → List Segment
  | .root => []
  | .append p s => p.segs ++ [s]

/-- The output tree (`node.rs`): a literal value, an array, or an object.
The `BTreeMap`s are modelled as association lists sorted by key; the
insertion functions below maintain that order exactly as a `BTreeMap`
does. -/
inductive Node where
  | value (s : List Char)
  | array (entries : List (Nat × Node))
  | object (entries : List (List Char × Node))

/-- Lexicographic order on key spellings by code point: Rust's `Ord` for
`String` (byte order on UTF-8, which coincides with code-point order). -/
def strLt : List Char → List Char → Bool
  | [], [] => false
  | [], _ :: _ => true
  | _ :: _, [] => false
  | a :: as, b :: bs => if a < b then true else if b < a then false else strLt as bs

/-- `Node::create` from `node.rs`, on the segment sequence of the path:
a fresh chain of nodes from the first segment down to the value. -/
def Node.createSegs : List Segment → List Char → Node
  | [], v => .value v
  | .index i :: rest, v => .array [(i, createSegs rest v)]
  | .key k :: rest, v => .object [(k, createSegs rest v)]

mutual

/-- `Node::insert` from `node.rs`, on the segment sequence of the path:
walk the existing nodes, creating a fresh chain at the first vacant
entry.  Returns the updated node and the source's boolean result; on
`false` (root path, or a node-kind mismatch) the node is unchanged. -/
def insertSegs : Node → List Segment → List Char → Node × Bool
  | t, [], _ => (t, false)
  | .value s, _ :: _, _ => (.value s, false)
  | .array es, .index i :: rest, v =>
    let r := arrInsert es i rest v
    (.array r.1, r.2)
  | .array es, .key _ :: _, _ => (.array es, false)
  | .object es, .key k :: rest, v =>
    let r := objInsert es k rest v
    (.object r.1, r.2)
  | .object es, .index _ :: _, _ => (.object es, false)

/-- The `entry` call on an array's `BTreeMap`: occupied entries recurse,
vacant entries get a fresh chain, keeping the entries sorted by index. -/
def arrInsert : List (Nat × Node) → Nat → List Segment → List Char → List (Nat × Node) × Bool
  | [], i, rest, v => ([(i, Node.createSegs rest v)], true)
  | (j, c) :: tl, i, rest, v =>
    if i = j then
      let r := insertSegs c rest v
      ((j, r.1) :: tl, r.2)
    else if i < j then ((i, Node.createSegs rest v) :: (j, c) :: tl, true)
    else
      let r := arrInsert tl i rest v
      ((j, c) :: r.1, r.2)

/-- The `entry` call on an object's `BTreeMap`, sorted by key spelling. -/
def objInsert : List (List Char × Node) → List Char → List Segment → List Char →
    List (List Char × Node) × Bool
  | [], k, rest, v => ([(k, Node.createSegs rest v)], true)
  | (j, c) :: tl, k, rest, v =>
    if k = j then
      let r := insertSegs c rest v
      ((j, r.1) :: tl, r.2)
    else if strLt k j then ((k, Node.createSegs rest v) :: (j, c) :: tl, true)
    else
      let r := objInsert tl k rest v
      ((j, c) :: r.1, r.2)

end

/-- `build_tree` from `node.rs`: create from the first directive, insert
the rest (the source discards `insert`'s boolean). -/
def build_tree : List Directive → Option Node
  | [] => none
  | first :: rest =>
    some (rest.foldl (fun t d => (insertSegs t d.path.segs d.value).1)
      (Node.createSegs first.path.segs first.value))

/-- `build_tree` instrumented with the conjunction of the booleans that
the source discards: the second component is `true` iff no insertion ever
took the failure branch. -/
def buildTreeChecked : List Directive → Option Node × Bool
  | [] => (none, true)
  | first :: rest =>
    let r := rest.foldl
      (fun (p : Node × Bool) d =>
        let q := insertSegs p.1 d.path.segs d.value
        (q.1, p.2 && q.2))
      (Node.createSegs first.path.segs first.value, true)
    (some r.1, r.2)

mutual

/-- `impl Display for Node` from `node.rs`: compact serialization; arrays
render their entries in order between brackets, objects render
`"key":value` pairs in order between braces. -/
def serialize : Node → List Char
  | .value s => s
  | .array es => '[' :: serializeArr es ++ [']']
  | .object es => '\x7b' :: serializeObj es ++ ['\x7d']

/-- Comma-separated rendering of array entries, in entry order. -/
def serializeArr : List (Nat × Node) → List Char
  | [] => []
  | [(_, c)] => serialize c
  | (_, c) :: e :: tl => serialize c ++ ',' :: serializeArr (e :: tl)

/-- Comma-separated rendering of object entries, in entry order; the
stored (escaped) key spelling is emitted between plain quotes. -/
def serializeObj : List (List Char × Node) → List Char
  | [] => []
  | [(k, c)] => '"' :: k ++ '"' :: ':' :: serialize c
  | (k, c) :: e :: tl => ('"' :: k ++ '"' :: ':' :: serialize c) ++ ',' :: serializeObj (e :: tl)

end

/-!
### Parser

The revision of `parser.rs` that `composer.rs` and `directive.rs` are
written against (`parse_directive` with a starting position, the
`SyntaxError` enum) is not among the sources; only an older revision is.
The definitions below are therefore modelled from the spec (§4.1),
following the older revision's scanning structure, the `compose` call
`parse_directive(1, text)` (positions are 1-based character offsets) and
the error expectations of the tests in `composer.rs`.
-/

/-- Modelled from the spec: the syntax error class of §4.1. -/
inductive SyntaxError where
  | unexpectedChar (pos : Nat) (ch : Char)
  | unexpectedEndOfString
  | invalidIndex (pos : Nat)
  | invalidKey (pos : Nat)
  | invalidJsonValue (pos : Nat)
deriving DecidableEq

/-- `SegmentAst`: a raw path segment as scanned.  Quoted keys keep their
surrounding quotes (stripped later by the `Segment` conversion). -/
inductive SegmentAst where
  | arrayIndex (i : Nat)
  | quotedKey (s : List Char)
  | bareKey (s : List Char)
deriving DecidableEq

/-- `OperatorAst` from `parser.rs`. -/
inductive OperatorAst where
  | colon
  | equalSign
deriving DecidableEq

/-- `DirectiveAst`: path, operator and the raw value text. -/
structure DirectiveAst where
  path : List SegmentAst
  operator : OperatorAst
  value : List Char
deriving DecidableEq

/-- Modelled from the spec: Unicode XID start ("one Unicode
identifier-start character", §4.1).  Exact on ASCII; code points at and
above U+0080 are approximated as identifier characters (no claim below
evaluates a non-ASCII bare key). -/
def isXidStart (c : Char) : Bool :=
  c.isAlpha || c.toNat ≥ 0x80

/-- Modelled from the spec: Unicode XID continue, with the same
approximation as `isXidStart`. -/
def isXidContinue (c : Char) : Bool :=
  c.isAlphanum || c = '_' || c.toNat ≥ 0x80

/-- JSON insignificant whitespace (RFC 8259): space, tab, line feed,
carriage return. -/
def isJsonWs (c : Char) : Bool :=
  c = ' ' || c = '\t' || c = '\n' || c = '\x0d'

/-- Modelled from the spec: syntactic check of one JSON string body after
the opening quote (escapes of §4.1, raw control characters rejected,
`\uXXXX` hex digits checked, surrogates only as high/low pairs).
Returns the rest after the closing quote. -/
def jsonStringRest : List Char → Option (List Char)
  | [] => none
  | c :: rest =>
    if c = '"' then some rest
    else if c = '\\' then
      match rest with
      | [] => none
      | e :: rest' =>
        if e = '"' ∨ e = '\\' ∨ e = '/' ∨ e = 'b' ∨ e = 'f' ∨ e = 'n' ∨ e = 'r' ∨ e = 't' then
          jsonStringRest rest'
        else if e = 'u' then
          match rest' with
          | h1 :: h2 :: h3 :: h4 :: rest'' =>
            match hexDigit? h1, hexDigit? h2, hexDigit? h3, hexDigit? h4 with
            | some d1, some d2, some d3, some d4 =>
              let n := ((d1 * 16 + d2) * 16 + d3) * 16 + d4
              if 0xd800 ≤ n ∧ n ≤ 0xdbff then
                match rest'' with
                | '\\' :: 'u' :: g1 :: g2 :: g3 :: g4 :: rest₃ =>
                  match hexDigit? g1, hexDigit? g2, hexDigit? g3, hexDigit? g4 with
                  | some e1, some e2, some e3, some e4 =>
                    let m := ((e1 * 16 + e2) * 16 + e3) * 16 + e4
                    if 0xdc00 ≤ m ∧ m ≤ 0xdfff then jsonStringRest rest₃ else none
                  | _, _, _, _ => none
                | _ => none
              else if 0xdc00 ≤ n ∧ n ≤ 0xdfff then none
              else jsonStringRest rest''
            | _, _, _, _ => none
          | _ => none
        else none
    else if c.toNat < 0x20 then none
    else jsonStringRest rest

/-- Digit run at the front of the input. -/
def takeDigits : List Char → List Char × List Char
  | [] => ([], [])
  | c :: rest =>
    if c.isDigit then
      let r := takeDigits rest
      (c :: r.1, r.2)
    else ([], c :: rest)

/-- Numeric value of a digit run. -/
def digitsToNat (acc : Nat) : List Char → Nat
  | [] => acc
  | c :: rest => digitsToNat (acc * 10 + (c.toNat - 48)) rest

/-- The integer part of a JSON number: `0` or a nonzero digit run. -/
def jsonIntRest : List Char → Option (List Char)
  | [] => none
  | c :: rest =>
    if c = '0' then some rest
    else if c.isDigit then some (takeDigits rest).2
    else none

/-- The optional fraction part of a JSON number. -/
def jsonFracRest (l : List Char) : Option (List Char) :=
  match l with
  | '.' :: d :: rest => if d.isDigit then some (takeDigits rest).2 else none
  | '.' :: [] => none
  | _ => some l

/-- The optional exponent part of a JSON number. -/
def jsonExpRest (l : List Char) : Option (List Char) :=
  match l with
  | e :: rest =>
    if e = 'e' ∨ e = 'E' then
      match rest with
      | s :: d :: rest' =>
        if (s = '+' ∨ s = '-') ∧ d.isDigit then some (takeDigits rest').2
        else if s.isDigit then some (takeDigits (d :: rest')).2
        else none
      | [d] => if d.isDigit then some [] else none
      | [] => none
    else some l
  | [] => some []

/-- Modelled from the spec: the rest after one JSON number, starting at
its first digit (an optional minus sign is consumed by the caller):
`int frac? exp?` per RFC 8259. -/
def jsonNumberRest (l : List Char) : Option (List Char) :=
  (jsonIntRest l).bind fun l₁ => (jsonFracRest l₁).bind jsonExpRest

mutual

/-- Modelled from the spec: the rest after one JSON value (no leading
whitespace).  The `fuel` only serves termination; every recursive call
consumes input, so `length + 1` fuel never runs out. -/
def jsonValueRest (fuel : Nat) (l : List Char) : Option (List Char) :=
  match fuel with
  | 0 => none
  | fuel + 1 =>
    match l with
    | [] => none
    | c :: rest =>
      if c = 'n' then
        match rest with
        | 'u' :: 'l' :: 'l' :: rest' => some rest'
        | _ => none
      else if c = 't' then
        match rest with
        | 'r' :: 'u' :: 'e' :: rest' => some rest'
        | _ => none
      else if c = 'f' then
        match rest with
        | 'a' :: 'l' :: 's' :: 'e' :: rest' => some rest'
        | _ => none
      else if c = '"' then jsonStringRest rest
      else if c = '-' then jsonNumberRest rest
      else if c.isDigit then jsonNumberRest (c :: rest)
      else if c = '[' then
        let rest := rest.dropWhile isJsonWs
        match rest with
        | ']' :: rest' => some rest'
        | _ => jsonElementsRest fuel rest
      else if c = '\x7b' then
        let rest := rest.dropWhile isJsonWs
        match rest with
        | '\x7d' :: rest' => some rest'
        | _ => jsonMembersRest fuel rest
      else none

/-- Modelled from the spec: the rest after `value (ws ',' ws value)* ws ']'`. -/
def jsonElementsRest (fuel : Nat) (l : List Char) : Option (List Char) :=
  match fuel with
  | 0 => none
  | fuel + 1 =>
    match jsonValueRest fuel l with
    | none => none
    | some rest =>
      match rest.dropWhile isJsonWs with
      | ']' :: rest' => some rest'
      | ',' :: rest' => jsonElementsRest fuel (rest'.dropWhile isJsonWs)
      | _ => none

/-- Modelled from the spec: the rest after
`string ws ':' ws value (ws ',' ws string ws ':' ws value)* ws '}'`. -/
def jsonMembersRest (fuel : Nat) (l : List Char) : Option (List Char) :=
  match fuel with
  | 0 => none
  | fuel + 1 =>
    match l with
    | '"' :: rest =>
      match jsonStringRest rest with
      | none => none
      | some rest =>
        match rest.dropWhile isJsonWs with
        | ':' :: rest' =>
          match jsonValueRest fuel (rest'.dropWhile isJsonWs) with
          | none => none
          | some rest'' =>
            match rest''.dropWhile isJsonWs with
            | '\x7d' :: rest₃ => some rest₃
            | ',' :: rest₃ =>
              match rest₃.dropWhile isJsonWs with
              | '"' :: _ => jsonMembersRest fuel (rest₃.dropWhile isJsonWs)
              | _ => none
            | _ => none
        | _ => none
    | _ => none

end

/-- Modelled from the spec: one JSON value with leading whitespace
(`serde_json`'s stream deserializer), returning the number of characters
consumed, or `none` when the text at hand is not a valid value.
`some none` means only whitespace was left (no value at all). -/
def jsonConsume (l : List Char) : Option (Option Nat) :=
  let ws := l.takeWhile isJsonWs
  let body := l.drop ws.length
  match body with
  | [] => some none
  | _ =>
    match jsonValueRest (body.length + 1) body with
    | none => none
    | some rest => some (some (l.length - rest.length))

/-- Modelled from the spec: scan a quoted key segment (`parse_segment`,
quoted branch): find the closing quote honouring backslash escapes,
rejecting raw control characters (composer tests, spec §4.1), then check
the whole segment against the JSON string grammar (`InvalidKey` on
failure).  Returns the segment text including both quotes, the position
after it, and the rest. -/
def scanQuoted (startPos pos : Nat) (acc : List Char) :
    List Char → Except SyntaxError (SegmentAst × Nat × List Char)
  | [] => .error .unexpectedEndOfString
  | c :: rest =>
    if c = '"' then
      let segment := '"' :: acc.reverse ++ ['"']
      match jsonStringRest (segment.drop 1) with
      | some [] => .ok (.quotedKey segment, pos + 1, rest)
      | _ => .error (.invalidKey startPos)
    else if c = '\\' then
      match rest with
      | [] => .error .unexpectedEndOfString
      | e :: rest' => scanQuoted startPos (pos + 2) (e :: c :: acc) rest'
    else if c.toNat < 0x20 then .error (.unexpectedChar pos c)
    else scanQuoted startPos (pos + 1) (c :: acc) rest

/-- Identifier-continue run at the front of the input. -/
def takeXid : List Char → List Char × List Char
  | [] => ([], [])
  | c :: rest =>
    if isXidContinue c then
      let r := takeXid rest
      (c :: r.1, r.2)
    else ([], c :: rest)

/-- Modelled from the spec: `parse_segment` at absolute position `pos`
(1-based): a quoted key, a bare key, `0`, or a nonzero digit run small
enough for `u32` (`InvalidIndex` otherwise, §4.1). -/
def parse_segment (pos : Nat) :
    List Char → Except SyntaxError (SegmentAst × Nat × List Char)
  | [] => .error .unexpectedEndOfString
  | c :: rest =>
    if c = '"' then scanQuoted pos (pos + 1) [] rest
    else if isXidStart c then
      let r := takeXid rest
      .ok (.bareKey (c :: r.1), pos + 1 + r.1.length, r.2)
    else if c = '0' then .ok (.arrayIndex 0, pos + 1, rest)
    else if c.isDigit then
      let r := takeDigits (c :: rest)
      let n := digitsToNat 0 r.1
      if n < 2 ^ 32 then .ok (.arrayIndex n, pos + r.1.length, r.2)
      else .error (.invalidIndex pos)
    else .error (.unexpectedChar pos c)

/-- The `while input.starts_with('.')` loop of `parse_path`. -/
def parsePathLoop (fuel : Nat) (acc : List SegmentAst) (pos : Nat) (input : List Char) :
    Except SyntaxError (List SegmentAst × Nat × List Char) :=
  match fuel with
  | 0 => .error .unexpectedEndOfString
  | fuel + 1 =>
    match input with
    | '.' :: rest =>
      match parse_segment (pos + 1) rest with
      | .error e => .error e
      | .ok (seg, pos', rest') => parsePathLoop fuel (acc ++ [seg]) pos' rest'
    | _ => .ok (acc, pos, input)

/-- Modelled from the spec: `parse_path` at absolute position `pos`: a
lone `.` is the root path, otherwise segments separated by dots.  The
fuel only serves termination of the loop (each iteration consumes at
least the dot). -/
def parse_path (pos : Nat) (input : List Char) :
    Except SyntaxError (List SegmentAst × Nat × List Char) :=
  match input with
  | '.' :: rest => .ok ([], pos + 1, rest)
  | _ =>
    match parse_segment pos input with
    | .error e => .error e
    | .ok (first, pos', rest) => parsePathLoop (input.length + 1) [first] pos' rest

/-- `parse_operator` at absolute position `pos`: `:` or `=`. -/
def parse_operator (pos : Nat) :
    List Char → Except SyntaxError (OperatorAst × Nat × List Char)
  | [] => .error .unexpectedEndOfString
  | c :: rest =>
    if c = ':' then .ok (.colon, pos + 1, rest)
    else if c = '=' then .ok (.equalSign, pos + 1, rest)
    else .error (.unexpectedChar pos c)

/-- Modelled from the spec: `parse_directive` starting at position `pos`
(called as `parse_directive(1, text)` by `compose`): path, operator, and
for `:` one complete JSON value followed only by whitespace
(`UnexpectedChar` at the first non-whitespace garbage character,
`InvalidJsonValue` at the value's start otherwise); the captured value is
the whole remainder after the operator. -/
def parse_directive (pos : Nat) (input : List Char) :
    Except SyntaxError (DirectiveAst × Nat × List Char) := do
  let (path, pos₁, rest₁) ← parse_path pos input
  let (operator, pos₂, rest₂) ← parse_operator pos₁ rest₁
  if operator = .colon then
    match jsonConsume rest₂ with
    | none => .error (.invalidJsonValue pos₂)
    | some none => .error .unexpectedEndOfString
    | some (some offset) =>
      let after := rest₂.drop offset
      match after.dropWhile (·.isWhitespace) with
      | ch :: _ =>
        .error (.unexpectedChar
          (pos₂ + offset + (after.takeWhile (·.isWhitespace)).length) ch)
      | [] => .ok (⟨path, operator, rest₂⟩, 0, [])
  else
    .ok (⟨path, operator, rest₂⟩, 0, [])

/-- `From<SegmentAst> for Segment` from `directive.rs`: quoted keys are
stripped of their quotes, bare keys are escaped. -/
def segOfAst : SegmentAst → Segment
  | .arrayIndex i => .index i
  | .quotedKey q => .key (q.drop 1).dropLast
  | .bareKey b => .key (escape_string b)

/-- `From<DirectiveAst> for Directive` from `directive.rs`: the path is
collected by appending segments to the root; `:` values are kept raw,
`=` values are escaped and wrapped in quotes. -/
def Directive.ofAst (ast : DirectiveAst) : Directive where
  path := ast.path.foldl (fun p s => p.append (segOfAst s)) .root
  value :=
    if ast.operator = .colon then ast.value
    else '"' :: escape_string ast.value ++ ['"']

/-- `BuildError` from `composer.rs`.  The `directive` field holds the raw
directive text (the source applies a display-only escaping to it, which
is presentation and not modelled). -/
inductive BuildError where
  | syntaxError (e : SyntaxError) (directive : List Char)
  | path (e : PathError)
deriving DecidableEq

/-- The parsing loop of `compose` (`composer.rs`): parse every directive,
stopping at the first syntax error. -/
def composeParse : List (List Char) → Except BuildError (List Directive)
  | [] => .ok []
  | text :: rest =>
    match parse_directive 1 text with
    | .error e => .error (.syntaxError e text)
    | .ok (ast, _, _) =>
      match composeParse rest with
      | .error e => .error e
      | .ok ds => .ok (Directive.ofAst ast :: ds)

/-- `compose` from `composer.rs` (UTF-8 decoding of the argument bytes is
the collaborator's concern and inputs are modelled as already decoded):
parse all directives, validate, build.  `none` models a panic in the
validator. -/
def compose (inputs : List (List Char)) : Option (Except BuildError (Option Node)) :=
  match composeParse inputs with
  | .error e => some (.error e)
  | .ok ds =>
    match validate ds with
    | none => none
    | some (.error e) => some (.error (.path e))
    | some (.ok ()) => some (.ok (build_tree ds))

/-- The serialized output of `compose`, empty on error or no document
(used to state concrete end-to-end evaluations). -/
def composeOut (inputs : List (List Char)) : List Char :=
  match compose inputs with
  | some (.ok (some t)) => serialize t
  | _ => []

instance instDecEqExcept {ε α : Type} [DecidableEq ε] [DecidableEq α] :
    DecidableEq (Except ε α) := fun a b =>
  match a, b with
  | .error e, .error f => if h : e = f then .isTrue (by rw [h]) else .isFalse (by simp [h])
  | .ok x, .ok y => if h : x = y then .isTrue (by rw [h]) else .isFalse (by simp [h])
  | .error _, .ok _ => .isFalse (by simp)
  | .ok _, .error _ => .isFalse (by simp)

/-- Modelled from the claim's and spec's words (§4.3): the per-character
escaping that `=` values are required to undergo: quote and backslash get
a backslash; backspace, form-feed, newline, carriage-return and tab use
their two-character escapes; every other C0 control character becomes
`\u00XX`; DEL and all non-control characters pass through. -/
def specEscapeChar (c : Char) : List Char :=
  if c = '"' ∨ c = '\\' then ['\\', c]
  else if c = '\x08' then ['\\', 'b']
  else if c = '\x0c' then ['\\', 'f']
  else if c = '\n' then ['\\', 'n']
  else if c = '\x0d' then ['\\', 'r']
  else if c = '\t' then ['\\', 't']
  else if c.toNat < 0x20 then
    ['\\', 'u', '0', '0', Nat.digitChar (c.toNat / 16), Nat.digitChar (c.toNat % 16)]
  else [c]

/-!
### Auxiliary predicates for the structural theorems
-/

mutual

/-- Entries of every array are strictly ascending by index and entries of
every object strictly ascending by stored key spelling (the `BTreeMap`
invariant, which the serializer renders in entry order). -/
def nodeSorted : Node → Bool
  | .value _ => true
  | .array es => sortedArr es
  | .object es => sortedObj es

/-- Strict ascent of array entries, children sorted recursively. -/
def sortedArr : List (Nat × Node) → Bool
  | [] => true
  | [(_, c)] => nodeSorted c
  | (i, c) :: (j, c') :: tl => decide (i < j) && nodeSorted c && sortedArr ((j, c') :: tl)

/-- Strict ascent of object entries, children sorted recursively. -/
def sortedObj : List (List Char × Node) → Bool
  | [] => true
  | [(_, c)] => nodeSorted c
  | (k, c) :: (k', c') :: tl => strLt k k' && nodeSorted c && sortedObj ((k', c') :: tl)

end

mutual

/-- All strings stored in a tree: value texts and key spellings. -/
def nodeStrings : Node → List (List Char)
  | .value s => [s]
  | .array es => stringsArr es
  | .object es => stringsObj es

/-- Strings of array entries. -/
def stringsArr : List (Nat × Node) → List (List Char)
  | [] => []
  | (_, c) :: tl => nodeStrings c ++ stringsArr tl

/-- Strings of object entries (the key spelling and the child's strings). -/
def stringsObj : List (List Char × Node) → List (List Char)
  | [] => []
  | (k, c) :: tl => k :: nodeStrings c ++ stringsObj tl

end

/-- The punctuation the serializer inserts between stored strings;
none of it is whitespace. -/
def punctChars : List Char := ['[', ']', '\x7b', '\x7d', ',', ':', '"']

mutual

/-- The tree holds value `v` at the full path `p` (segment sequence). -/
def hasVal : Node → List Segment → List Char → Bool
  | .value s, [], v => decide (s = v)
  | .value _, _ :: _, _ => false
  | .array _, [], _ => false
  | .array es, .index i :: r, v => hasValArr es i r v
  | .array _, .key _ :: _, _ => false
  | .object _, [], _ => false
  | .object es, .key k :: r, v => hasValObj es k r v
  | .object _, .index _ :: _, _ => false

/-- Lookup of `hasVal` through array entries. -/
def hasValArr : List (Nat × Node) → Nat → List Segment → List Char → Bool
  | [], _, _, _ => false
  | (j, c) :: tl, i, r, v => if i = j then hasVal c r v else hasValArr tl i r v

/-- Lookup of `hasVal` through object entries. -/
def hasValObj : List (List Char × Node) → List Char → List Segment → List Char → Bool
  | [], _, _, _ => false
  | (j, c) :: tl, k, r, v => if k = j then hasVal c r v else hasValObj tl k r v

end

mutual

/-- Every node of the tree holds at least one value (true of every tree
the builder constructs: maps are created with one entry). -/
def inhab : Node → Bool
  | .value _ => true
  | .array es => !es.isEmpty && inhabArr es
  | .object es => !es.isEmpty && inhabObj es

/-- All children of array entries are inhabited. -/
def inhabArr : List (Nat × Node) → Bool
  | [] => true
  | (_, c) :: tl => inhab c && inhabArr tl

/-- All children of object entries are inhabited. -/
def inhabObj : List (List Char × Node) → Bool
  | [] => true
  | (_, c) :: tl => inhab c && inhabObj tl

end

/-- Two full directive paths can coexist in one tree: at every shared
position the next segments force the same node kind, and neither path
ends strictly inside the other. -/
def compat : List Segment → List Segment → Bool
  | [], [] => true
  | [], _ :: _ => false
  | _ :: _, [] => false
  | a :: as, b :: bs =>
    decide (segKind a = segKind b) && (if a = b then compat as bs else true)

/-- The node kind a directive path `p` forces at position `q` (`none`
when `q` is not a prefix of `p`): `Value` at `p` itself, otherwise the
kind of the following segment. -/
def obsP (p : Path) (q : Path) : Option NodeKind :=
  if p = q then some .value
  else
    match p with
    | .root => none
    | .append pp ps => if pp = q then some (segKind ps) else obsP pp q

/-- The kind a directive path `p` (as a segment list, front first) forces
at position `q`: `Value` at `p` itself, the kind of the next segment at a
proper prefix, nothing elsewhere.  The front-first counterpart of
`obsP`. -/
def obsL : List Segment → List Segment → Option NodeKind
  | [], [] => some .value
  | [], _ :: _ => none
  | s :: _, [] => some (segKind s)
  | s :: p, r :: q => if r = s then obsL p q else none

/-- The kind a directive path forces at a proper prefix (the entries the
prefix loop of `check_node_types` records). -/
def obsStrictP : Path → Path → Option NodeKind
  | .root, _ => none
  | .append pp ps, q => if pp = q then some (segKind ps) else obsStrictP pp q

/-- Rebuild a path from its segment sequence. -/
def Path.ofSegs (l : List Segment) : Path :=
  l.foldl .append .root

/-- The single build step of `build_tree` as a fold function: the first
directive creates the tree, later ones are inserted. -/
def buildStep (t : Option Node) (d : Directive) : Option Node :=
  match t with
  | none => some (Node.createSegs d.path.segs d.value)
  | some t => some ((insertSegs t d.path.segs d.value).1)

/-- Ordered insertion of a key spelling into an ascending list of keys
(the key action of `objInsert` on its key column). -/
def strSetInsert (k : List Char) : List (List Char) → List (List Char)
  | [] => [k]
  | j :: tl =>
    if k = j then j :: tl
    else if strLt k j then k :: j :: tl
    else j :: strSetInsert k tl

/-- Sortedness of array entries as a proposition: keys strictly ascend
and every child is sorted. -/
def SA (es : List (Nat × Node)) : Prop :=
  List.Pairwise (· < ·) (es.map Prod.fst) ∧ ∀ e ∈ es, nodeSorted e.2 = true

/-- Sortedness of object entries as a proposition. -/
def SO (es : List (List Char × Node)) : Prop :=
  List.Pairwise (fun a b => strLt a b = true) (es.map Prod.fst) ∧
    ∀ e ∈ es, nodeSorted e.2 = true

mutual

/-- The kind of the node a tree holds at a position (`none` when the
position is absent): the tree-side counterpart of `obsL`. -/
def obsT : Node → List Segment → Option NodeKind
  | .value _, [] => some .value
  | .value _, _ :: _ => none
  | .array _, [] => some .array
  | .array es, .index i :: r => obsTArr es i r
  | .array _, .key _ :: _ => none
  | .object _, [] => some .object
  | .object es, .key k :: r => obsTObj es k r
  | .object _, .index _ :: _ => none

/-- Position lookup through array entries. -/
def obsTArr : List (Nat × Node) → Nat → List Segment → Option NodeKind
  | [], _, _ => none
  | (j, c) :: tl, i, r => if i = j then obsT c r else obsTArr tl i r

/-- Position lookup through object entries. -/
def obsTObj : List (List Char × Node) → List Char → List Segment → Option NodeKind
  | [], _, _ => none
  | (j, c) :: tl, k, r => if k = j then obsT c r else obsTObj tl k r

end

/-!
### Theorems
-/

/-- C8: an index token with leading zeros is a syntax error, not a
magnitude error: parsing the single directive `00=x` fails with an
unexpected-character error at position 2 reporting the character `0`
(the scanner accepts the index `0` and then finds another digit where
the operator must stand). -/
theorem c8_leading_zero_index :
    parse_directive 1 ("00=x".toList) = .error (.unexpectedChar 2 '0') := by
  decide

/-- C6: the round-trip `unescape_string (escape_string s) = s` fails.
`escape_string ['\t','\t']` is `\t\t`, but the decoder does not return to
the normal state after a two-character escape and wraps its result in
quotes, yielding `"<TAB>\t"`; on `\ta` (from `['\t','a']`) it panics
(`none`); even for a plain `a` the quote wrapping alone breaks the
identity. -/
theorem c6_roundtrip_bug :
    unescape_string (escape_string ['\t', '\t']) ≠ some ['\t', '\t'] ∧
    unescape_string (escape_string ['\t', '\t']) = some ['"', '\t', '\\', 't', '"'] ∧
    unescape_string (escape_string ['\t', 'a']) = none ∧
    unescape_string (escape_string ['a']) = some ['"', 'a', '"'] := by
  decide

/-- C3: the key spellings `\t\t` and `\u0009\u0009` both decode to two
tab characters, so the claim requires an `InconsistentKeyEncodings`
failure; but the batch assigning both keys at the root validates
successfully (the state-machine slip of `unescape_string` normalizes the
two spellings differently), and the built document carries both
spellings of the same decoded key. -/
theorem c3_key_encoding_bug :
    validate [⟨.append .root (.key ("\\t\\t".toList)), "\"x\"".toList⟩,
        ⟨.append .root (.key ("\\u0009\\u0009".toList)), "\"y\"".toList⟩] =
      some (.ok ()) ∧
    ("\\t\\t".toList) ≠ ("\\u0009\\u0009".toList) ∧
    specDecodeKey ("\\t\\t".toList) = some ['\t', '\t'] ∧
    specDecodeKey ("\\u0009\\u0009".toList) = some ['\t', '\t'] ∧
    composeOut ["\"\\t\\t\"=x".toList, "\"\\u0009\\u0009\"=y".toList] =
      ("\x7b\"\\t\\t\":\"x\",\"\\u0009\\u0009\":\"y\"\x7d".toList) := by
  decide

/-- C2, counterexample: the serializer orders object entries by the
stored (escaped) key spelling, not by the decoded key.  The validated
batch `"\u007a":1, b:2` renders the key spelled `\u007a` (which decodes
to `z`) before the key `b`, although `b` precedes `z` in code-point
order. -/
theorem c2_decoded_order_counterexample :
    composeOut ["\"\\u007a\":1".toList, "b:2".toList] =
      ("\x7b\"\\u007a\":1,\"b\":2\x7d".toList) ∧
    specDecodeKey ("\\u007a".toList) = some ['z'] ∧
    specDecodeKey ("b".toList) = some ['b'] ∧
    strLt ['b'] ['z'] = true := by
  decide

theorem nibble_eq_digitChar {n : Nat} (h : n < 32) :
    nibble_to_hex (n >>> 4) = Nat.digitChar (n / 16) ∧
      nibble_to_hex (n &&& 15) = Nat.digitChar (n % 16) := by
  interval_cases n <;> exact ⟨rfl, rfl⟩

theorem escapeChar_eq_spec (c : Char) : escapeChar c = specEscapeChar c := by
  by_cases h1 : c = '\\'
  · subst h1; decide
  by_cases h2 : c = '"'
  · subst h2; decide
  by_cases h3 : c = '\n'
  · subst h3; decide
  by_cases h4 : c = '\x0d'
  · subst h4; decide
  by_cases h5 : c = '\t'
  · subst h5; decide
  by_cases h6 : c = '\x0c'
  · subst h6; decide
  by_cases h7 : c = '\x08'
  · subst h7; decide
  by_cases h8 : c.toNat < 0x20
  · have hn := nibble_eq_digitChar h8
    simp only [escapeChar, specEscapeChar, h1, h2, h3, h4, h5, h6, h7, h8, or_self,
      or_false, false_or, if_false, if_true, ite_false, ite_true, hn.1, hn.2]
  · simp only [escapeChar, specEscapeChar, h1, h2, h3, h4, h5, h6, h7, h8, or_self,
      or_false, false_or, if_false, ite_false]

/-- C5: a directive built with the `=` operator carries exactly the
quote-wrapped, per-character escaping described by the spec: quote and
backslash get a backslash, the five named control characters their
two-character escapes, every other C0 control character `\u00XX`
(lowercase hex), and everything else — including DEL — passes through
unchanged. -/
theorem c5_string_escaping (ast : DirectiveAst) (h : ast.operator = .equalSign) :
    (Directive.ofAst ast).value = '"' :: ast.value.flatMap specEscapeChar ++ ['"'] := by
  have hop : ¬ ast.operator = .colon := by rw [h]; intro hc; cases hc
  have hfun : escapeChar = specEscapeChar := funext escapeChar_eq_spec
  simp only [Directive.ofAst, escape_string, hop, if_false, ite_false, hfun]

/-- Witness for C5 at the one-character value `a` (which passes through
unescaped). -/
theorem c5_string_escaping_witness :
    (Directive.ofAst ⟨[], .equalSign, ['a']⟩).value =
      '"' :: (['a'].flatMap specEscapeChar) ++ ['"'] :=
  c5_string_escaping ⟨[], .equalSign, ['a']⟩ rfl

theorem windowsCheck_none_iff (rest : List Nat) (left : Nat) :
    windowsCheck left rest = none ↔ left :: rest = List.range' left (rest.length + 1) := by
  induction rest generalizing left with
  | nil => simp [windowsCheck, List.range']
  | cons r tl ih =>
    rw [windowsCheck, List.length_cons, List.range'_succ]
    by_cases hgap : left + 1 = r
    · rw [if_neg (by omega : ¬ left + 1 ≠ r), ih, ← hgap]
      constructor
      · intro h; rw [h]
      · intro h
        injection h with h1 h2
    · rw [if_pos hgap]
      constructor
      · intro h; cases h
      · intro h
        rw [List.range'_succ] at h
        injection h with h1 h2
        injection h2 with h3 h4
        exact absurd h3.symm hgap

theorem windowsCheck_some (rest : List Nat) (left seen missing : Nat)
    (hch : List.Pairwise (· < ·) (left :: rest))
    (h : windowsCheck left rest = some (seen, missing)) :
    missing ∉ left :: rest ∧ left < missing ∧
      (∀ j, left ≤ j → j < missing → j ∈ left :: rest) ∧
      seen ∈ rest ∧ missing < seen ∧
      ∀ k ∈ left :: rest, missing < k → seen ≤ k := by
  induction rest generalizing left with
  | nil => rw [windowsCheck] at h; cases h
  | cons r tl ih =>
    have hlr : left < r := (List.pairwise_cons.1 hch).1 r (by simp)
    have htl : ∀ b ∈ tl, r < b :=
      (List.pairwise_cons.1 (List.pairwise_cons.1 hch).2).1
    rw [windowsCheck] at h
    by_cases hgap : left + 1 ≠ r
    · rw [if_pos hgap] at h
      injection h with h'
      injection h' with hseen hmiss
      subst hseen; subst hmiss
      have hltr : left + 1 < r := by omega
      refine ⟨?_, by omega, ?_, by simp, hltr, ?_⟩
      · intro hmem
        rcases List.mem_cons.1 hmem with h1 | hmem
        · omega
        rcases List.mem_cons.1 hmem with h1 | hmem
        · omega
        · exact absurd (htl _ hmem) (by omega)
      · intro j hj1 hj2
        have : j = left := by omega
        simp [this]
      · intro k hk hk2
        rcases List.mem_cons.1 hk with h1 | hk
        · omega
        rcases List.mem_cons.1 hk with h1 | hk
        · omega
        · exact le_of_lt (htl _ hk)
    · rw [if_neg hgap] at h
      have heq : left + 1 = r := by omega
      obtain ⟨hnot, hrm, hall, hseen, hms, hmin⟩ :=
        ih r (List.pairwise_cons.1 hch).2 h
      refine ⟨?_, by omega, ?_, List.mem_cons_of_mem r hseen, hms, ?_⟩
      · intro hmem
        rcases List.mem_cons.1 hmem with h1 | hmem
        · omega
        · exact hnot hmem
      · intro j hj1 hj2
        by_cases hjl : j = left
        · simp [hjl]
        · exact List.mem_cons_of_mem left (hall j (by omega) hj2)
      · intro k hk hk2
        rcases List.mem_cons.1 hk with h1 | hk
        · omega
        · exact hmin k hk hk2

theorem checkIndices_none_iff {l : List Nat} (hne : l ≠ []) :
    checkIndices l = none ↔ l = List.range l.length := by
  cases l with
  | nil => cases hne rfl
  | cons first rest =>
    rw [checkIndices, List.length_cons, List.range_eq_range']
    by_cases h0 : first ≠ 0
    · rw [if_pos h0]
      constructor
      · intro h; cases h
      · intro h
        rw [List.range'_succ] at h
        injection h with h1 h2
        exact absurd h1 h0
    · rw [if_neg h0]
      have hz : first = 0 := by omega
      subst hz
      exact windowsCheck_none_iff rest 0

theorem checkIndices_some {l : List Nat} (hs : List.Pairwise (· < ·) l)
    {seen missing : Nat} (h : checkIndices l = some (seen, missing)) :
    missing ∉ l ∧ (∀ j < missing, j ∈ l) ∧ seen ∈ l ∧ missing < seen ∧
      ∀ k ∈ l, missing < k → seen ≤ k := by
  cases l with
  | nil => rw [checkIndices] at h; cases h
  | cons first rest =>
    rw [checkIndices] at h
    by_cases h0 : first ≠ 0
    · rw [if_pos h0] at h
      simp only [Option.some.injEq, Prod.mk.injEq] at h
      obtain ⟨h1, h2⟩ := h
      have hrest : ∀ b ∈ rest, first < b := (List.pairwise_cons.1 hs).1
      rw [← h1, ← h2]
      refine ⟨?_, ?_, List.mem_cons_self first rest, by omega, ?_⟩
      · intro hmem
        rcases List.mem_cons.1 hmem with hx | hmem
        · omega
        · exact absurd (hrest _ hmem) (by omega)
      · intro j hj
        exact absurd hj (by omega)
      · intro k hk _
        rcases List.mem_cons.1 hk with hx | hk
        · omega
        · exact le_of_lt (hrest _ hk)
    · rw [if_neg h0] at h
      have hz : first = 0 := by omega
      subst hz
      obtain ⟨hnot, _, hall, hseen, hms, hmin⟩ := windowsCheck_some rest 0 seen missing hs h
      exact ⟨hnot, fun j hj => hall j (Nat.zero_le j) hj,
        List.mem_cons_of_mem 0 hseen, hms, hmin⟩

theorem arraysReport_ok_iff (xs : List (Path × List Nat)) :
    arraysReport xs = .ok () ↔ ∀ p t, (p, t) ∈ xs → checkIndices t = none := by
  induction xs with
  | nil => simp [arraysReport]
  | cons e tl ih =>
    obtain ⟨p, s⟩ := e
    rw [arraysReport]
    cases hc : checkIndices s with
    | none =>
      rw [ih]
      constructor
      · intro h p' t' hmem
        rcases List.mem_cons.1 hmem with h1 | hmem
        · cases h1; exact hc
        · exact h p' t' hmem
      · intro h p' t' hmem
        exact h p' t' (List.mem_cons_of_mem _ hmem)
    | some pr =>
      obtain ⟨seen, missing⟩ := pr
      constructor
      · intro h; cases h
      · intro h
        rw [h p s (by simp)] at hc
        cases hc

theorem mem_setInsert {l : List Nat} {i b : Nat} :
    b ∈ setInsert i l ↔ b = i ∨ b ∈ l := by
  induction l with
  | nil => simp [setInsert]
  | cons j tl ih =>
    rw [setInsert]
    by_cases h1 : i = j
    · subst h1
      rw [if_pos rfl]
      constructor
      · intro h; right; exact h
      · intro h
        rcases h with h | h
        · simp [h]
        · exact h
    · rw [if_neg h1]
      by_cases h2 : i < j
      · rw [if_pos h2]
        simp only [List.mem_cons]
      · rw [if_neg h2]
        simp only [List.mem_cons, ih]
        tauto

theorem setInsert_sorted {l : List Nat} (hs : List.Pairwise (· < ·) l) (i : Nat) :
    List.Pairwise (· < ·) (setInsert i l) := by
  induction l with
  | nil => simp [setInsert]
  | cons j tl ih =>
    have hj : ∀ b ∈ tl, j < b := (List.pairwise_cons.1 hs).1
    rw [setInsert]
    by_cases h1 : i = j
    · rw [if_pos h1]; exact hs
    · rw [if_neg h1]
      by_cases h2 : i < j
      · rw [if_pos h2]
        refine List.pairwise_cons.2 ⟨?_, hs⟩
        intro b hb
        rcases List.mem_cons.1 hb with h3 | hb
        · omega
        · exact lt_trans h2 (hj b hb)
      · rw [if_neg h2]
        refine List.pairwise_cons.2 ⟨?_, ih (List.pairwise_cons.1 hs).2⟩
        intro b hb
        rcases mem_setInsert.1 hb with h3 | hb
        · omega
        · exact hj b hb

theorem setInsert_ne_nil (i : Nat) (l : List Nat) : setInsert i l ≠ [] := by
  cases l with
  | nil => simp [setInsert]
  | cons j tl =>
    rw [setInsert]
    by_cases h1 : i = j
    · rw [if_pos h1]; simp
    · rw [if_neg h1]
      by_cases h2 : i < j
      · rw [if_pos h2]; simp
      · rw [if_neg h2]; simp

/-- One collection step keeps every entry strictly ascending and
nonempty. -/
theorem collectStep_entries_sorted (arrays : List (Path × List Nat)) (gp : Path)
    (gs : Segment) (hinv : ∀ e ∈ arrays, List.Pairwise (· < ·) e.2 ∧ e.2 ≠ []) :
    ∀ e ∈ collectStep arrays gp gs, List.Pairwise (· < ·) e.2 ∧ e.2 ≠ [] := by
  cases gs with
  | key k => exact hinv
  | index i =>
    rw [collectStep]
    cases hf : assocFind arrays gp with
    | none =>
      intro e he
      rcases List.mem_append.1 he with he | he
      · exact hinv e he
      · rcases List.mem_singleton.1 he with rfl
        exact ⟨by simp, by simp⟩
    | some s =>
      intro e he
      rcases List.mem_map.1 he with ⟨e', he', heq⟩
      by_cases hgp : e'.1 = gp
      · rw [if_pos hgp] at heq
        subst heq
        exact ⟨setInsert_sorted (hinv e' he').1 i, setInsert_ne_nil i e'.2⟩
      · rw [if_neg hgp] at heq
        subst heq
        exact hinv e' he'

/-- Every entry the collection loop produces is strictly ascending and
nonempty. -/
theorem collectWalk_entries_sorted (p : Path) (arrays : List (Path × List Nat))
    (hinv : ∀ e ∈ arrays, List.Pairwise (· < ·) e.2 ∧ e.2 ≠ []) :
    ∀ e ∈ collectWalk arrays p, List.Pairwise (· < ·) e.2 ∧ e.2 ≠ [] := by
  induction p generalizing arrays with
  | root => exact fun e he => hinv e he
  | append gp gs ih =>
    rw [collectWalk]
    exact ih _ (collectStep_entries_sorted arrays gp gs hinv)

theorem collectArrays_entries_sorted (ds : List Directive) :
    ∀ e ∈ collectArrays ds, List.Pairwise (· < ·) e.2 ∧ e.2 ≠ [] := by
  rw [collectArrays]
  generalize hstart : ([] : List (Path × List Nat)) = start
  have hinv : ∀ e ∈ start, List.Pairwise (· < ·) e.2 ∧ e.2 ≠ [] := by
    rw [← hstart]; intro e he; cases he
  clear hstart
  induction ds generalizing start with
  | nil => exact hinv
  | cons d tl ih =>
    rw [List.foldl_cons]
    exact ih _ (collectWalk_entries_sorted d.path start hinv)

theorem assocFind_mem {α β : Type} [DecidableEq α] {m : List (α × β)} {a : α} {b : β}
    (h : assocFind m a = some b) : (a, b) ∈ m := by
  induction m with
  | nil => cases h
  | cons e tl ih =>
    obtain ⟨x, y⟩ := e
    rw [assocFind] at h
    by_cases ha : a = x
    · rw [if_pos ha] at h
      injection h with h
      subst ha; subst h
      exact List.mem_cons_self _ _
    · rw [if_neg ha] at h
      exact List.mem_cons_of_mem _ (ih h)

/-- C1: for the ascending index list observed at an array path (as a
set), the array-completeness pass accepts exactly the sets
`{0, ..., max}`; when it rejects, `index_missing` is the smallest absent
index and `index_seen` the smallest present index above it (which is the
smallest present index whenever `index_missing` is `0`); and the pass as
a whole succeeds exactly when every observed array path is accepted. -/
theorem c1_array_completeness (ds : List Directive) (q : Path) (l : List Nat)
    (hl : assocFind (collectArrays ds) q = some l) (hne : l.toFinset.Nonempty) :
    (checkIndices l = none ↔
      l.toFinset = Finset.range (l.toFinset.max' hne + 1)) ∧
    (∀ seen missing, checkIndices l = some (seen, missing) →
      missing ∉ l.toFinset ∧ (∀ j < missing, j ∈ l.toFinset) ∧ seen ∈ l.toFinset ∧
        missing < seen ∧ ∀ k ∈ l.toFinset, missing < k → seen ≤ k) ∧
    (check_array_completeness ds = .ok () ↔
      ∀ p t, (p, t) ∈ collectArrays ds → checkIndices t = none) := by
  have hmeml := collectArrays_entries_sorted ds (q, l) (assocFind_mem hl)
  have hsorted : List.Pairwise (· < ·) l := hmeml.1
  have hlne : l ≠ [] := hmeml.2
  refine ⟨?_, ?_, arraysReport_ok_iff (collectArrays ds)⟩
  · rw [checkIndices_none_iff hlne]
    constructor
    · intro h
      have hiff : ∀ i, i ∈ l.toFinset ↔ i < l.length := by
        intro i
        rw [List.mem_toFinset]
        constructor
        · intro hi
          rw [h] at hi
          exact List.mem_range.1 hi
        · intro hi
          rw [h]
          exact List.mem_range.2 hi
      have h1 : l.toFinset.max' hne < l.length := (hiff _).1 (Finset.max'_mem _ hne)
      have h2 : 0 < l.length := by
        obtain ⟨a, ha⟩ := hne
        have := (hiff a).1 ha
        omega
      have h3 : l.length - 1 ≤ l.toFinset.max' hne :=
        Finset.le_max' _ _ ((hiff _).2 (by omega))
      have h4 : l.toFinset.max' hne + 1 = l.length := by omega
      rw [h4]
      exact Finset.ext fun i => by rw [hiff i, Finset.mem_range]
    · intro h
      have hmem : ∀ i, i ∈ l ↔ i < l.toFinset.max' hne + 1 := by
        intro i
        constructor
        · intro hi
          have hi' : i ∈ l.toFinset := List.mem_toFinset.2 hi
          rw [h] at hi'
          exact Finset.mem_range.1 hi'
        · intro hi
          have hi' : i ∈ Finset.range (l.toFinset.max' hne + 1) := Finset.mem_range.2 hi
          rw [← h] at hi'
          exact List.mem_toFinset.1 hi'
      have hperm : List.Perm l (List.range (l.toFinset.max' hne + 1)) := by
        refine List.perm_of_nodup_nodup_toFinset_eq
          (List.Pairwise.nodup hsorted) (List.nodup_range _) ?_
        ext i
        simp only [List.mem_toFinset, List.mem_range]
        exact hmem i
      have heq : l = List.range (l.toFinset.max' hne + 1) :=
        List.eq_of_perm_of_sorted hperm hsorted (List.sorted_lt_range _)
      rw [heq, List.length_range]
  · intro seen missing h
    obtain ⟨h1, h2, h3, h4, h5⟩ := checkIndices_some hsorted h
    refine ⟨fun hm => h1 (List.mem_toFinset.1 hm),
      fun j hj => List.mem_toFinset.2 (h2 j hj), List.mem_toFinset.2 h3, h4,
      fun k hk hk2 => h5 k (List.mem_toFinset.1 hk) hk2⟩

/-- Witness for C1 at the batch `{0.x, 2.x}` at the root: the pass
rejects with `index_seen = 2`, `index_missing = 1`, and the reported
pair has the stated extremal properties. -/
theorem c1_array_completeness_witness :
    1 ∉ ([0, 2] : List Nat).toFinset ∧
      (∀ j < 1, j ∈ ([0, 2] : List Nat).toFinset) ∧
      2 ∈ ([0, 2] : List Nat).toFinset ∧ 1 < 2 ∧
      ∀ k ∈ ([0, 2] : List Nat).toFinset, 1 < k → 2 ≤ k :=
  (c1_array_completeness
      [⟨.append .root (.index 0), ['a']⟩, ⟨.append .root (.index 2), ['b']⟩]
      .root [0, 2] (by decide) ⟨0, by decide⟩).2.1 2 1 (by decide)

theorem strLt_asymm : ∀ {a b : List Char}, strLt a b = true → strLt b a = false := by
  intro a
  induction a with
  | nil => intro b h; cases b with
    | nil => cases h
    | cons y ys => rfl
  | cons x xs ih =>
    intro b h
    cases b with
    | nil => cases h
    | cons y ys =>
      rw [strLt] at h ⊢
      by_cases hxy : x < y
      · rw [if_neg (lt_asymm hxy), if_pos hxy]
      · rw [if_neg hxy] at h
        by_cases hyx : y < x
        · rw [if_pos hyx] at h; cases h
        · rw [if_neg hyx] at h
          rw [if_neg hyx, if_neg hxy]
          exact ih h

theorem strLt_total : ∀ {a b : List Char}, a ≠ b → strLt a b = true ∨ strLt b a = true := by
  intro a
  induction a with
  | nil => intro b hne; cases b with
    | nil => cases hne rfl
    | cons y ys => left; rfl
  | cons x xs ih =>
    intro b hne
    cases b with
    | nil => right; rfl
    | cons y ys =>
      rw [strLt, strLt]
      rcases lt_trichotomy x y with hxy | hxy | hxy
      · left; rw [if_pos hxy]
      · subst hxy
        have hne' : xs ≠ ys := fun h => hne (by rw [h])
        rcases ih hne' with h | h
        · left
          rw [if_neg (lt_irrefl x), if_neg (lt_irrefl x)]
          exact h
        · right
          rw [if_neg (lt_irrefl x), if_neg (lt_irrefl x)]
          exact h
      · right; rw [if_pos hxy]

theorem strLt_trans : ∀ {a b c : List Char},
    strLt a b = true → strLt b c = true → strLt a c = true := by
  intro a
  induction a with
  | nil =>
    intro b c hab hbc
    cases b with
    | nil => cases hab
    | cons y ys =>
      cases c with
      | nil => cases hbc
      | cons z zs => rfl
  | cons x xs ih =>
    intro b c hab hbc
    cases b with
    | nil => cases hab
    | cons y ys =>
      cases c with
      | nil => cases hbc
      | cons z zs =>
        rw [strLt] at hab hbc ⊢
        by_cases hxy : x < y
        · by_cases hyz : y < z
          · rw [if_pos (lt_trans hxy hyz)]
          · rw [if_neg hyz] at hbc
            by_cases hzy : z < y
            · rw [if_pos hzy] at hbc; cases hbc
            · have : y = z := le_antisymm (le_of_not_lt hzy) (le_of_not_lt hyz)
              rw [if_pos (this ▸ hxy)]
        · rw [if_neg hxy] at hab
          by_cases hyx : y < x
          · rw [if_pos hyx] at hab; cases hab
          · have hxye : x = y := le_antisymm (le_of_not_lt hyx) (le_of_not_lt hxy)
            subst hxye
            rw [if_neg (lt_irrefl x)] at hab
            by_cases hyz : x < z
            · rw [if_pos hyz]
            · rw [if_neg hyz] at hbc ⊢
              by_cases hzy : z < x
              · rw [if_pos hzy] at hbc; cases hbc
              · rw [if_neg hzy] at hbc ⊢
                exact ih hab hbc

theorem sortedArr_iff : ∀ {es : List (Nat × Node)}, sortedArr es = true ↔ SA es := by
  intro es
  induction es with
  | nil => simp [sortedArr, SA]
  | cons e tl ih =>
    obtain ⟨j, c⟩ := e
    cases tl with
    | nil =>
      rw [sortedArr, SA]
      constructor
      · intro h
        refine ⟨by simp, ?_⟩
        intro e he
        rcases List.mem_singleton.1 he with rfl
        exact h
      · intro ⟨_, h⟩
        exact h (j, c) (List.mem_singleton.2 rfl)
    | cons e' tl' =>
      obtain ⟨k, c'⟩ := e'
      rw [sortedArr, SA]
      simp only [Bool.and_eq_true, ih, SA]
      constructor
      · intro ⟨⟨hjk, hc⟩, hpw, hch⟩
        refine ⟨?_, ?_⟩
        · rw [List.map_cons, List.pairwise_cons]
          refine ⟨?_, hpw⟩
          intro b hb
          rcases List.mem_cons.1 hb with hb | hb
          · rw [hb]; exact of_decide_eq_true hjk
          · have := (List.pairwise_cons.1 hpw).1 b hb
            exact lt_trans (of_decide_eq_true hjk) this
        · intro e he
          rcases List.mem_cons.1 he with he | he
          · rw [he]; exact hc
          · exact hch e he
      · intro ⟨hpw, hch⟩
        have hjk : j < k :=
          (List.pairwise_cons.1 hpw).1 k (by rw [List.map_cons]; exact List.mem_cons_self _ _)
        refine ⟨⟨decide_eq_true hjk, hch (j, c) (by simp)⟩,
          (List.pairwise_cons.1 hpw).2, ?_⟩
        intro e he
        exact hch e (List.mem_cons_of_mem _ he)

theorem sortedObj_iff : ∀ {es : List (List Char × Node)}, sortedObj es = true ↔ SO es := by
  intro es
  induction es with
  | nil => simp [sortedObj, SO]
  | cons e tl ih =>
    obtain ⟨j, c⟩ := e
    cases tl with
    | nil =>
      rw [sortedObj, SO]
      constructor
      · intro h
        refine ⟨by simp, ?_⟩
        intro e he
        rcases List.mem_singleton.1 he with rfl
        exact h
      · intro ⟨_, h⟩
        exact h (j, c) (List.mem_singleton.2 rfl)
    | cons e' tl' =>
      obtain ⟨k, c'⟩ := e'
      rw [sortedObj, SO]
      simp only [Bool.and_eq_true, ih, SO]
      constructor
      · intro ⟨⟨hjk, hc⟩, hpw, hch⟩
        refine ⟨?_, ?_⟩
        · rw [List.map_cons, List.pairwise_cons]
          refine ⟨?_, hpw⟩
          intro b hb
          rcases List.mem_cons.1 hb with hb | hb
          · rw [hb]; exact hjk
          · have := (List.pairwise_cons.1 hpw).1 b hb
            exact strLt_trans hjk this
        · intro e he
          rcases List.mem_cons.1 he with he | he
          · rw [he]; exact hc
          · exact hch e he
      · intro ⟨hpw, hch⟩
        have hjk : strLt j k = true :=
          (List.pairwise_cons.1 hpw).1 k (by rw [List.map_cons]; exact List.mem_cons_self _ _)
        refine ⟨⟨hjk, hch (j, c) (by simp)⟩, (List.pairwise_cons.1 hpw).2, ?_⟩
        intro e he
        exact hch e (List.mem_cons_of_mem _ he)

theorem mem_strSetInsert {l : List (List Char)} {k b : List Char} :
    b ∈ strSetInsert k l ↔ b = k ∨ b ∈ l := by
  induction l with
  | nil => simp [strSetInsert]
  | cons j tl ih =>
    rw [strSetInsert]
    by_cases h1 : k = j
    · subst h1
      rw [if_pos rfl]
      constructor
      · intro h; right; exact h
      · intro h
        rcases h with h | h
        · simp [h]
        · exact h
    · rw [if_neg h1]
      by_cases h2 : strLt k j
      · rw [if_pos h2]
        simp only [List.mem_cons]
      · rw [if_neg h2]
        simp only [List.mem_cons, ih]
        tauto

theorem strSetInsert_pairwise {l : List (List Char)}
    (hs : List.Pairwise (fun a b => strLt a b = true) l) (k : List Char) :
    List.Pairwise (fun a b => strLt a b = true) (strSetInsert k l) := by
  induction l with
  | nil => simp [strSetInsert]
  | cons j tl ih =>
    have hj : ∀ b ∈ tl, strLt j b = true := (List.pairwise_cons.1 hs).1
    rw [strSetInsert]
    by_cases h1 : k = j
    · rw [if_pos h1]; exact hs
    · rw [if_neg h1]
      by_cases h2 : strLt k j
      · rw [if_pos h2]
        refine List.pairwise_cons.2 ⟨?_, hs⟩
        intro b hb
        rcases List.mem_cons.1 hb with h3 | hb
        · rw [h3]; exact h2
        · exact strLt_trans h2 (hj b hb)
      · rw [if_neg h2]
        refine List.pairwise_cons.2 ⟨?_, ih (List.pairwise_cons.1 hs).2⟩
        intro b hb
        rcases mem_strSetInsert.1 hb with h3 | hb
        · rw [h3]
          rcases strLt_total h1 with h4 | h4
          · exact absurd h4 h2
          · exact h4
        · exact hj b hb

theorem arrInsert_keys (es : List (Nat × Node)) (i : Nat) (rest : List Segment)
    (v : List Char) :
    ((arrInsert es i rest v).1).map Prod.fst = setInsert i (es.map Prod.fst) := by
  induction es with
  | nil => simp [arrInsert, setInsert]
  | cons e tl ih =>
    obtain ⟨j, c⟩ := e
    rw [arrInsert, List.map_cons, setInsert]
    by_cases h1 : i = j
    · rw [if_pos h1, if_pos h1]
      simp
    · rw [if_neg h1, if_neg h1]
      by_cases h2 : i < j
      · rw [if_pos h2, if_pos h2]
        simp
      · rw [if_neg h2, if_neg h2]
        simp only [List.map_cons, List.cons.injEq, true_and]
        exact ih

theorem objInsert_keys (es : List (List Char × Node)) (k : List Char)
    (rest : List Segment) (v : List Char) :
    ((objInsert es k rest v).1).map Prod.fst = strSetInsert k (es.map Prod.fst) := by
  induction es with
  | nil => simp [objInsert, strSetInsert]
  | cons e tl ih =>
    obtain ⟨j, c⟩ := e
    rw [objInsert, List.map_cons, strSetInsert]
    by_cases h1 : k = j
    · rw [if_pos h1, if_pos h1]
      simp
    · rw [if_neg h1, if_neg h1]
      by_cases h2 : strLt k j
      · rw [if_pos h2, if_pos h2]
        simp
      · rw [if_neg h2, if_neg h2]
        simp only [List.map_cons, List.cons.injEq, true_and]
        exact ih

theorem arrInsert_mem (es : List (Nat × Node)) (i : Nat) (rest : List Segment)
    (v : List Char) :
    ∀ e ∈ (arrInsert es i rest v).1,
      e ∈ es ∨ e = (i, Node.createSegs rest v) ∨
        ∃ c, (i, c) ∈ es ∧ e = (i, (insertSegs c rest v).1) := by
  induction es with
  | nil =>
    intro e he
    rw [arrInsert] at he
    rcases List.mem_singleton.1 he with rfl
    right; left; rfl
  | cons hd tl ih =>
    obtain ⟨j, c⟩ := hd
    intro e he
    rw [arrInsert] at he
    by_cases h1 : i = j
    · rw [if_pos h1] at he
      rcases List.mem_cons.1 he with he | he
      · subst h1
        right; right
        exact ⟨c, List.mem_cons_self _ _, he⟩
      · left; exact List.mem_cons_of_mem _ he
    · rw [if_neg h1] at he
      by_cases h2 : i < j
      · rw [if_pos h2] at he
        rcases List.mem_cons.1 he with he | he
        · right; left; exact he
        · left; exact he
      · rw [if_neg h2] at he
        rcases List.mem_cons.1 he with he | he
        · left; rw [he]; exact List.mem_cons_self _ _
        · rcases ih e he with h | h | ⟨c', hc', he'⟩
          · left; exact List.mem_cons_of_mem _ h
          · right; left; exact h
          · right; right
            exact ⟨c', List.mem_cons_of_mem _ hc', he'⟩

theorem objInsert_mem (es : List (List Char × Node)) (k : List Char)
    (rest : List Segment) (v : List Char) :
    ∀ e ∈ (objInsert es k rest v).1,
      e ∈ es ∨ e = (k, Node.createSegs rest v) ∨
        ∃ c, (k, c) ∈ es ∧ e = (k, (insertSegs c rest v).1) := by
  induction es with
  | nil =>
    intro e he
    rw [objInsert] at he
    rcases List.mem_singleton.1 he with rfl
    right; left; rfl
  | cons hd tl ih =>
    obtain ⟨j, c⟩ := hd
    intro e he
    rw [objInsert] at he
    by_cases h1 : k = j
    · rw [if_pos h1] at he
      rcases List.mem_cons.1 he with he | he
      · subst h1
        right; right
        exact ⟨c, List.mem_cons_self _ _, he⟩
      · left; exact List.mem_cons_of_mem _ he
    · rw [if_neg h1] at he
      by_cases h2 : strLt k j
      · rw [if_pos h2] at he
        rcases List.mem_cons.1 he with he | he
        · right; left; exact he
        · left; exact he
      · rw [if_neg h2] at he
        rcases List.mem_cons.1 he with he | he
        · left; rw [he]; exact List.mem_cons_self _ _
        · rcases ih e he with h | h | ⟨c', hc', he'⟩
          · left; exact List.mem_cons_of_mem _ h
          · right; left; exact h
          · right; right
            exact ⟨c', List.mem_cons_of_mem _ hc', he'⟩

theorem createSegs_sorted (p : List Segment) (v : List Char) :
    nodeSorted (Node.createSegs p v) = true := by
  induction p with
  | nil => rw [Node.createSegs, nodeSorted]
  | cons s rest ih =>
    cases s with
    | index i =>
      rw [Node.createSegs, nodeSorted, sortedArr]
      exact ih
    | key k =>
      rw [Node.createSegs, nodeSorted, sortedObj]
      exact ih

theorem insertSegs_sorted_n : ∀ n t, sizeOf t ≤ n → ∀ p v,
    nodeSorted t = true → nodeSorted (insertSegs t p v).1 = true := by
  intro n
  induction n with
  | zero =>
    intro t ht
    cases t <;> simp at ht
  | succ n ih =>
    intro t ht p v hs
    cases t with
    | value s =>
      cases p with
      | nil => rw [insertSegs]; exact hs
      | cons s0 r => rw [insertSegs]; exact hs
    | array es =>
      cases p with
      | nil => rw [insertSegs]; exact hs
      | cons s0 r =>
        cases s0 with
        | key k => rw [insertSegs]; exact hs
        | index i =>
          rw [insertSegs, nodeSorted, sortedArr_iff]
          rw [nodeSorted, sortedArr_iff] at hs
          refine ⟨?_, ?_⟩
          · rw [arrInsert_keys]
            exact setInsert_sorted hs.1 i
          · intro e he
            rcases arrInsert_mem es i r v e he with h | h | ⟨c, hc, he'⟩
            · exact hs.2 e h
            · rw [h]
              exact createSegs_sorted r v
            · rw [he']
              have hcsz : sizeOf c ≤ n := by
                have h1 : sizeOf (i, c) < sizeOf es := List.sizeOf_lt_of_mem hc
                have h2 : sizeOf (Node.array es) ≤ n + 1 := ht
                have h3 : sizeOf es < sizeOf (Node.array es) := by
                  rw [Node.array.sizeOf_spec]; omega
                have h4 : sizeOf c < sizeOf (i, c) := by
                  rw [Prod.mk.sizeOf_spec]; omega
                omega
              exact ih c hcsz r v (hs.2 (i, c) hc)
    | object es =>
      cases p with
      | nil => rw [insertSegs]; exact hs
      | cons s0 r =>
        cases s0 with
        | index i => rw [insertSegs]; exact hs
        | key k =>
          rw [insertSegs, nodeSorted, sortedObj_iff]
          rw [nodeSorted, sortedObj_iff] at hs
          refine ⟨?_, ?_⟩
          · rw [objInsert_keys]
            exact strSetInsert_pairwise hs.1 k
          · intro e he
            rcases objInsert_mem es k r v e he with h | h | ⟨c, hc, he'⟩
            · exact hs.2 e h
            · rw [h]
              exact createSegs_sorted r v
            · rw [he']
              have hcsz : sizeOf c ≤ n := by
                have h1 : sizeOf (k, c) < sizeOf es := List.sizeOf_lt_of_mem hc
                have h2 : sizeOf (Node.object es) ≤ n + 1 := ht
                have h3 : sizeOf es < sizeOf (Node.object es) := by
                  rw [Node.object.sizeOf_spec]; omega
                have h4 : sizeOf c < sizeOf (k, c) := by
                  rw [Prod.mk.sizeOf_spec]; omega
                omega
              exact ih c hcsz r v (hs.2 (k, c) hc)

theorem insertSegs_sorted (t : Node) (p : List Segment) (v : List Char)
    (hs : nodeSorted t = true) : nodeSorted (insertSegs t p v).1 = true :=
  insertSegs_sorted_n (sizeOf t) t (le_refl _) p v hs

theorem serialize_chars_n : ∀ n t, sizeOf t ≤ n → ∀ c, c ∈ serialize t →
    c ∈ punctChars ∨ ∃ s ∈ nodeStrings t, c ∈ s := by
  intro n
  induction n with
  | zero =>
    intro t ht
    cases t <;> simp at ht
  | succ n ih =>
    intro t ht c hc
    cases t with
    | value s =>
      rw [serialize] at hc
      right
      refine ⟨s, ?_, hc⟩
      rw [nodeStrings]
      exact List.mem_singleton.2 rfl
    | array es =>
      rw [serialize] at hc
      rw [nodeStrings]
      have hsz : ∀ e ∈ es, sizeOf e.2 ≤ n := by
        intro e he
        have h1 : sizeOf e < sizeOf es := List.sizeOf_lt_of_mem he
        have h3 : sizeOf es < sizeOf (Node.array es) := by
          rw [Node.array.sizeOf_spec]; omega
        have h4 : sizeOf e.2 < sizeOf e := by
          obtain ⟨a, b⟩ := e
          rw [Prod.mk.sizeOf_spec]
          simp only
          omega
        have h2 : sizeOf (Node.array es) ≤ n + 1 := ht
        omega
      have aux : ∀ es2 : List (Nat × Node), (∀ e ∈ es2, sizeOf e.2 ≤ n) →
          ∀ c2 ∈ serializeArr es2, c2 ∈ punctChars ∨ ∃ s ∈ stringsArr es2, c2 ∈ s := by
        intro es2
        induction es2 with
        | nil =>
          intro _ c2 hc2
          rw [serializeArr] at hc2
          cases hc2
        | cons hd tl ihl =>
          obtain ⟨j, c0⟩ := hd
          intro hsz2 c2 hc2
          have hc0 : sizeOf c0 ≤ n := hsz2 (j, c0) (List.mem_cons_self _ _)
          cases tl with
          | nil =>
            rw [serializeArr] at hc2
            rcases ih c0 hc0 c2 hc2 with h | ⟨s, hsmem, hcs⟩
            · left; exact h
            · right
              refine ⟨s, ?_, hcs⟩
              rw [stringsArr, stringsArr]
              exact List.mem_append.2 (Or.inl hsmem)
          | cons e2 tl2 =>
            rw [serializeArr] at hc2
            rcases List.mem_append.1 hc2 with hc2 | hc2
            · rcases ih c0 hc0 c2 hc2 with h | ⟨s, hsmem, hcs⟩
              · left; exact h
              · right
                refine ⟨s, ?_, hcs⟩
                rw [stringsArr]
                exact List.mem_append.2 (Or.inl hsmem)
            · rcases List.mem_cons.1 hc2 with hc2 | hc2
              · left; rw [hc2]; rw [punctChars]; simp
              · have := ihl (fun e he => hsz2 e (List.mem_cons_of_mem _ he)) c2 hc2
                rcases this with h | ⟨s, hsmem, hcs⟩
                · left; exact h
                · right
                  refine ⟨s, ?_, hcs⟩
                  rw [stringsArr]
                  exact List.mem_append.2 (Or.inr hsmem)
      rcases List.mem_cons.1 hc with hc | hc
      · left; rw [hc]; rw [punctChars]; simp
      · rcases List.mem_append.1 hc with hc | hc
        · exact aux es hsz c hc
        · left
          rcases List.mem_singleton.1 hc with rfl
          rw [punctChars]; simp
    | object es =>
      rw [serialize] at hc
      rw [nodeStrings]
      have hsz : ∀ e ∈ es, sizeOf e.2 ≤ n := by
        intro e he
        have h1 : sizeOf e < sizeOf es := List.sizeOf_lt_of_mem he
        have h3 : sizeOf es < sizeOf (Node.object es) := by
          rw [Node.object.sizeOf_spec]; omega
        have h4 : sizeOf e.2 < sizeOf e := by
          obtain ⟨a, b⟩ := e
          rw [Prod.mk.sizeOf_spec]
          simp only
          omega
        have h2 : sizeOf (Node.object es) ≤ n + 1 := ht
        omega
      have aux : ∀ es2 : List (List Char × Node), (∀ e ∈ es2, sizeOf e.2 ≤ n) →
          ∀ c2 ∈ serializeObj es2, c2 ∈ punctChars ∨ ∃ s ∈ stringsObj es2, c2 ∈ s := by
        intro es2
        induction es2 with
        | nil =>
          intro _ c2 hc2
          rw [serializeObj] at hc2
          cases hc2
        | cons hd tl ihl =>
          obtain ⟨k, c0⟩ := hd
          intro hsz2 c2 hc2
          have hc0 : sizeOf c0 ≤ n := hsz2 (k, c0) (List.mem_cons_self _ _)
          have hone : ∀ c2, c2 ∈ '"' :: k ++ '"' :: ':' :: serialize c0 →
              c2 ∈ punctChars ∨ c2 ∈ k ∨ ∃ s ∈ nodeStrings c0, c2 ∈ s := by
            intro c2 hc2
            rcases List.mem_cons.1 hc2 with hc2 | hc2
            · left; rw [hc2]; rw [punctChars]; simp
            rcases List.mem_append.1 hc2 with hc2 | hc2
            · right; left; exact hc2
            rcases List.mem_cons.1 hc2 with hc2 | hc2
            · left; rw [hc2]; rw [punctChars]; simp
            rcases List.mem_cons.1 hc2 with hc2 | hc2
            · left; rw [hc2]; rw [punctChars]; simp
            rcases ih c0 hc0 c2 hc2 with h | h
            · left; exact h
            · right; right; exact h
          cases tl with
          | nil =>
            rw [serializeObj] at hc2
            rcases hone c2 hc2 with h | h | ⟨s, hsmem, hcs⟩
            · left; exact h
            · right
              refine ⟨k, ?_, h⟩
              rw [stringsObj]
              exact List.mem_cons_self _ _
            · right
              refine ⟨s, ?_, hcs⟩
              rw [stringsObj]
              exact List.mem_cons_of_mem _ (List.mem_append.2 (Or.inl hsmem))
          | cons e2 tl2 =>
            rw [serializeObj] at hc2
            rcases List.mem_append.1 hc2 with hc2 | hc2
            · rcases hone c2 hc2 with h | h | ⟨s, hsmem, hcs⟩
              · left; exact h
              · right
                refine ⟨k, ?_, h⟩
                rw [stringsObj]
                exact List.mem_cons_self _ _
              · right
                refine ⟨s, ?_, hcs⟩
                rw [stringsObj]
                exact List.mem_cons_of_mem _ (List.mem_append.2 (Or.inl hsmem))
            · rcases List.mem_cons.1 hc2 with hc2 | hc2
              · left; rw [hc2]; rw [punctChars]; simp
              · have := ihl (fun e he => hsz2 e (List.mem_cons_of_mem _ he)) c2 hc2
                rcases this with h | ⟨s, hsmem, hcs⟩
                · left; exact h
                · right
                  refine ⟨s, ?_, hcs⟩
                  rw [stringsObj]
                  exact List.mem_cons_of_mem _ (List.mem_append.2 (Or.inr hsmem))
      rcases List.mem_cons.1 hc with hc | hc
      · left; rw [hc]; rw [punctChars]; simp
      · rcases List.mem_append.1 hc with hc | hc
        · exact aux es hsz c hc
        · left
          rcases List.mem_singleton.1 hc with rfl
          rw [punctChars]; simp

theorem serialize_chars (t : Node) :
    ∀ c ∈ serialize t, c ∈ punctChars ∨ ∃ s ∈ nodeStrings t, c ∈ s :=
  fun c => serialize_chars_n (sizeOf t) t (le_refl _) c

theorem foldl_insert_sorted (rest : List Directive) (t0 : Node)
    (h : nodeSorted t0 = true) :
    nodeSorted (rest.foldl (fun t d => (insertSegs t d.path.segs d.value).1) t0) = true := by
  induction rest generalizing t0 with
  | nil => exact h
  | cons d tl ihl =>
    rw [List.foldl_cons]
    exact ihl _ (insertSegs_sorted t0 d.path.segs d.value h)

/-- C2 (amended): every tree the builder produces keeps its array entries
in strictly ascending index order and its object entries in strictly
ascending order of the stored (escaped) key spelling - the order the
serializer renders them in - and every character of the serialization is
either one of the non-whitespace punctuation characters the serializer
inserts or a character of a stored value text or key spelling, so no
whitespace is ever inserted. -/
theorem c2_serialization_order_amended (ds : List Directive) (t : Node)
    (h : build_tree ds = some t) :
    nodeSorted t = true ∧
      (∀ c ∈ serialize t, c ∈ punctChars ∨ ∃ s ∈ nodeStrings t, c ∈ s) ∧
      punctChars.all (fun c => !c.isWhitespace) = true := by
  refine ⟨?_, serialize_chars t, by decide⟩
  cases ds with
  | nil => cases h
  | cons d rest =>
    rw [build_tree] at h
    injection h with h
    rw [← h]
    exact foldl_insert_sorted rest _ (createSegs_sorted d.path.segs d.value)

/-- Witness for C2 (amended) at the two-directive batch building
`[{"b":2},{"a":1}]`-style content: `0.b=2`, `0.a=1`. -/
theorem c2_serialization_order_amended_witness :
    nodeSorted (Node.object [(['a'], Node.value ['1']), (['b'], Node.value ['2'])]) = true ∧
      (∀ c ∈ serialize (Node.object [(['a'], Node.value ['1']), (['b'], Node.value ['2'])]),
        c ∈ punctChars ∨
          ∃ s ∈ nodeStrings (Node.object [(['a'], Node.value ['1']), (['b'], Node.value ['2'])]),
            c ∈ s) ∧
      punctChars.all (fun c => !c.isWhitespace) = true :=
  c2_serialization_order_amended
    [⟨.append .root (.key ['b']), ['2']⟩, ⟨.append .root (.key ['a']), ['1']⟩]
    (Node.object [(['a'], Node.value ['1']), (['b'], Node.value ['2'])]) rfl

theorem composeParse_first_error (pre : List (List Char)) (x : List Char)
    (post : List (List Char)) (e : SyntaxError)
    (hpre : ∀ y ∈ pre, ∃ r, parse_directive 1 y = .ok r)
    (hx : parse_directive 1 x = .error e) :
    composeParse (pre ++ x :: post) = .error (.syntaxError e x) := by
  induction pre with
  | nil =>
    rw [List.nil_append, composeParse, hx]
  | cons y tl ih =>
    obtain ⟨r, hr⟩ := hpre y (List.mem_cons_self _ _)
    rw [List.cons_append, composeParse, hr]
    obtain ⟨ast, p2, r2⟩ := r
    rw [ih (fun z hz => hpre z (List.mem_cons_of_mem _ hz))]

/-- C4: a syntax error in any directive aborts the whole batch at its
first occurrence in input order, whatever follows (no semantic pass
runs); when every directive parses, `compose` defers to `validate`,
which runs the four passes in the fixed order key-consistency,
path-uniqueness, node-kind consistency, array completeness and reports
the error of the first failing pass - in particular a batch violating an
earlier and a later pass reports the earlier pass's error. -/
theorem c4_error_precedence :
    (∀ pre x post e, (∀ y ∈ pre, ∃ r, parse_directive 1 y = .ok r) →
      parse_directive 1 x = .error e →
      compose (pre ++ x :: post) = some (.error (.syntaxError e x))) ∧
    (∀ ds e, validate ds = some (.error e) ↔
      (check_key_consistency ds = some (.error e) ∨
       (check_key_consistency ds = some (.ok ()) ∧
         check_path_uniqueness ds = .error e) ∨
       (check_key_consistency ds = some (.ok ()) ∧
         check_path_uniqueness ds = .ok () ∧ check_node_types ds = .error e) ∨
       (check_key_consistency ds = some (.ok ()) ∧
         check_path_uniqueness ds = .ok () ∧ check_node_types ds = .ok () ∧
         check_array_completeness ds = .error e))) ∧
    (∀ inputs ds, composeParse inputs = .ok ds →
      compose inputs =
        match validate ds with
        | none => none
        | some (.error e) => some (.error (.path e))
        | some (.ok ()) => some (.ok (build_tree ds))) := by
  refine ⟨?_, ?_, ?_⟩
  · intro pre x post e hpre hx
    unfold compose
    rw [composeParse_first_error pre x post e hpre hx]
  · intro ds e
    unfold validate
    cases hk : check_key_consistency ds with
    | none => simp
    | some rk =>
      cases rk with
      | error ek => simp
      | ok u =>
        cases u
        cases hu : check_path_uniqueness ds with
        | error eu => simp
        | ok u2 =>
          cases u2
          cases ht : check_node_types ds with
          | error et => simp
          | ok u3 =>
            cases u3
            cases ha : check_array_completeness ds with
            | error ea => simp
            | ok u4 =>
              cases u4
              simp
  · intro inputs ds h
    unfold compose
    rw [h]

/-- Witness for C4: the batch `[".:42", "00=x", ".:43"]` (whose first and
last directives also conflict semantically) aborts with the syntax error
of `00=x`; a batch that violates both path-uniqueness and
array-completeness reports the uniqueness conflict; and a fully parsed
batch defers to `validate`. -/
theorem c4_error_precedence_witness :
    compose ([".:42".toList] ++ ("00=x".toList) :: [".:43".toList]) =
      some (.error (.syntaxError (.unexpectedChar 2 '0') ("00=x".toList))) ∧
    validate [⟨.append .root (.index 1), ['4']⟩, ⟨.append .root (.index 1), ['5']⟩] =
      some (.error ⟨.append .root (.index 1), .conflictingDirectives⟩) ∧
    compose (["0:1".toList]) =
      (match validate [⟨.append .root (.index 0), ['1']⟩] with
        | none => none
        | some (.error e) => some (.error (.path e))
        | some (.ok ()) => some (.ok (build_tree [⟨.append .root (.index 0), ['1']⟩]))) :=
  ⟨c4_error_precedence.1 [".:42".toList] ("00=x".toList) [".:43".toList]
      (.unexpectedChar 2 '0')
      (fun y hy => by
        rcases List.mem_singleton.1 hy with rfl
        exact ⟨_, rfl⟩)
      (by decide),
   (c4_error_precedence.2.1
      [⟨.append .root (.index 1), ['4']⟩, ⟨.append .root (.index 1), ['5']⟩]
      ⟨.append .root (.index 1), .conflictingDirectives⟩).mpr
      (Or.inr (Or.inl ⟨by decide, by decide⟩)),
   c4_error_precedence.2.2 ["0:1".toList] [⟨.append .root (.index 0), ['1']⟩]
      (by decide)⟩

theorem uniquenessGo_pairwise : ∀ (ds : List Directive) (seen : List Path),
    uniquenessGo seen ds = .ok () →
    List.Pairwise (fun d₁ d₂ : Directive => d₁.path ≠ d₂.path) ds ∧
      ∀ d ∈ ds, d.path ∉ seen := by
  intro ds
  induction ds with
  | nil => intro seen _; exact ⟨List.Pairwise.nil, by intro d hd; cases hd⟩
  | cons d tl ih =>
    intro seen h
    rw [uniquenessGo] at h
    by_cases hmem : d.path ∈ seen
    · rw [if_pos hmem] at h; cases h
    · rw [if_neg hmem] at h
      obtain ⟨hpw, hseen⟩ := ih (d.path :: seen) h
      refine ⟨List.pairwise_cons.2 ⟨?_, hpw⟩, ?_⟩
      · intro d' hd' heq
        exact hseen d' hd' (heq ▸ List.mem_cons_self _ _)
      · intro d' hd'
        rcases List.mem_cons.1 hd' with rfl | hd'
        · exact hmem
        · intro hc
          exact hseen d' hd' (List.mem_cons_of_mem _ hc)

theorem ofSegs_append (l : List Segment) (s : Segment) :
    Path.ofSegs (l ++ [s]) = .append (Path.ofSegs l) s := by
  rw [Path.ofSegs, Path.ofSegs, List.foldl_append, List.foldl_cons, List.foldl_nil]

theorem ofSegs_segs (p : Path) : Path.ofSegs p.segs = p := by
  induction p with
  | root => rfl
  | append pp ps ih =>
    rw [Path.segs, ofSegs_append, ih]

theorem segs_injective {p q : Path} (h : p.segs = q.segs) : p = q := by
  rw [← ofSegs_segs p, ← ofSegs_segs q, h]

theorem segs_eq_nil {p : Path} : p.segs = [] ↔ p = .root := by
  constructor
  · intro h
    exact segs_injective (q := .root) h
  · intro h; rw [h]; rfl

theorem assocFind_eq_none {α β : Type} [DecidableEq α] {m : List (α × β)} {a : α}
    (h : a ∉ m.map Prod.fst) : assocFind m a = none := by
  induction m with
  | nil => rfl
  | cons e tl ih =>
    rw [assocFind]
    rw [List.map_cons] at h
    rw [if_neg (fun hc : a = e.1 => h (hc ▸ List.mem_cons_self _ _))]
    exact ih fun hc => h (List.mem_cons_of_mem _ hc)

theorem assocFind_append {α β : Type} [DecidableEq α] (m₁ m₂ : List (α × β)) (a : α) :
    assocFind (m₁ ++ m₂) a = (assocFind m₁ a).orElse (fun _ => assocFind m₂ a) := by
  induction m₁ with
  | nil => rfl
  | cons e tl ih =>
    rw [List.cons_append, assocFind, assocFind]
    by_cases ha : a = e.1
    · rw [if_pos ha, if_pos ha]; rfl
    · rw [if_neg ha, if_neg ha]; exact ih

theorem arrAList_ext : ∀ (l₁ l₂ : List (Nat × Node)),
    List.Pairwise (· < ·) (l₁.map Prod.fst) → List.Pairwise (· < ·) (l₂.map Prod.fst) →
    (∀ k, assocFind l₁ k = assocFind l₂ k) → l₁ = l₂ := by
  intro l₁
  induction l₁ with
  | nil =>
    intro l₂ _ _ hf
    cases l₂ with
    | nil => rfl
    | cons e tl =>
      have := hf e.1
      rw [assocFind, assocFind, if_pos rfl] at this
      cases this
  | cons e tl ih =>
    intro l₂ hp₁ hp₂ hf
    obtain ⟨a, x⟩ := e
    cases l₂ with
    | nil =>
      have := hf a
      rw [assocFind, assocFind, if_pos rfl] at this
      cases this
    | cons e₂ tl₂ =>
      obtain ⟨b, y⟩ := e₂
      have hmap₁ : ∀ c ∈ tl.map Prod.fst, a < c := (List.pairwise_cons.1 hp₁).1
      have hmap₂ : ∀ c ∈ tl₂.map Prod.fst, b < c := (List.pairwise_cons.1 hp₂).1
      have hab : a = b := by
        by_contra hne
        have h₁ := hf a
        rw [assocFind, if_pos rfl, assocFind, if_neg hne] at h₁
        have h₂ := hf b
        rw [assocFind, if_neg (fun hc => hne hc.symm), assocFind, if_pos rfl] at h₂
        have hma : a ∈ tl₂.map Prod.fst := by
          have := assocFind_mem h₁.symm
          exact List.mem_map.2 ⟨(a, x), this, rfl⟩
        have hmb : b ∈ tl.map Prod.fst := by
          have := assocFind_mem h₂
          exact List.mem_map.2 ⟨(b, y), this, rfl⟩
        exact absurd (hmap₁ b hmb) (by have := hmap₂ a hma; omega)
      subst hab
      have hxy : x = y := by
        have := hf a
        rw [assocFind, if_pos rfl, assocFind, if_pos rfl] at this
        injection this
      subst hxy
      have htl : tl = tl₂ := by
        refine ih tl₂ (List.pairwise_cons.1 hp₁).2 (List.pairwise_cons.1 hp₂).2 ?_
        intro k
        by_cases hk : k = a
        · subst hk
          rw [assocFind_eq_none (fun hc => absurd (hmap₁ k hc) (lt_irrefl k)),
            assocFind_eq_none (fun hc => absurd (hmap₂ k hc) (lt_irrefl k))]
        · have := hf k
          rw [assocFind, if_neg hk, assocFind, if_neg hk] at this
          exact this
      rw [htl]

theorem objAList_ext : ∀ (l₁ l₂ : List (List Char × Node)),
    List.Pairwise (fun a b => strLt a b = true) (l₁.map Prod.fst) →
    List.Pairwise (fun a b => strLt a b = true) (l₂.map Prod.fst) →
    (∀ k, assocFind l₁ k = assocFind l₂ k) → l₁ = l₂ := by
  intro l₁
  induction l₁ with
  | nil =>
    intro l₂ _ _ hf
    cases l₂ with
    | nil => rfl
    | cons e tl =>
      have := hf e.1
      rw [assocFind, assocFind, if_pos rfl] at this
      cases this
  | cons e tl ih =>
    intro l₂ hp₁ hp₂ hf
    obtain ⟨a, x⟩ := e
    cases l₂ with
    | nil =>
      have := hf a
      rw [assocFind, assocFind, if_pos rfl] at this
      cases this
    | cons e₂ tl₂ =>
      obtain ⟨b, y⟩ := e₂
      have hmap₁ : ∀ c ∈ tl.map Prod.fst, strLt a c = true := (List.pairwise_cons.1 hp₁).1
      have hmap₂ : ∀ c ∈ tl₂.map Prod.fst, strLt b c = true := (List.pairwise_cons.1 hp₂).1
      have hab : a = b := by
        by_contra hne
        have h₁ := hf a
        rw [assocFind, if_pos rfl, assocFind, if_neg hne] at h₁
        have h₂ := hf b
        rw [assocFind, if_neg (fun hc => hne hc.symm), assocFind, if_pos rfl] at h₂
        have hma : a ∈ tl₂.map Prod.fst := by
          have := assocFind_mem h₁.symm
          exact List.mem_map.2 ⟨(a, x), this, rfl⟩
        have hmb : b ∈ tl.map Prod.fst := by
          have := assocFind_mem h₂
          exact List.mem_map.2 ⟨(b, y), this, rfl⟩
        have hba := hmap₁ b hmb
        have hab' := hmap₂ a hma
        rw [strLt_asymm hba] at hab'
        cases hab'
      subst hab
      have hxy : x = y := by
        have := hf a
        rw [assocFind, if_pos rfl, assocFind, if_pos rfl] at this
        injection this
      subst hxy
      have haa : strLt a a = false := by
        cases hsa : strLt a a
        · rfl
        · rw [strLt_asymm hsa] at hsa; cases hsa
      have htl : tl = tl₂ := by
        refine ih tl₂ (List.pairwise_cons.1 hp₁).2 (List.pairwise_cons.1 hp₂).2 ?_
        intro k
        by_cases hk : k = a
        · subst hk
          rw [assocFind_eq_none (fun hc => by rw [hmap₁ k hc] at haa; cases haa),
            assocFind_eq_none (fun hc => by rw [hmap₂ k hc] at haa; cases haa)]
        · have := hf k
          rw [assocFind, if_neg hk, assocFind, if_neg hk] at this
          exact this
      rw [htl]

theorem arrInsert_find : ∀ (es : List (Nat × Node)),
    List.Pairwise (· < ·) (es.map Prod.fst) →
    ∀ (i : Nat) (p : List Segment) (v : List Char) (k : Nat),
    assocFind (arrInsert es i p v).1 k =
      if k = i then
        some (match assocFind es i with
          | none => Node.createSegs p v
          | some c => (insertSegs c p v).1)
      else assocFind es k := by
  intro es
  induction es with
  | nil =>
    intro _ i p v k
    by_cases hk : k = i
    · simp [arrInsert, assocFind, hk]
    · simp [arrInsert, assocFind, hk]
  | cons e tl ih =>
    intro hs i p v k
    obtain ⟨j, c⟩ := e
    rw [List.map_cons] at hs
    have htl := (List.pairwise_cons.1 hs).2
    have hjlt := (List.pairwise_cons.1 hs).1
    rw [arrInsert]
    by_cases h1 : i = j
    · subst h1
      rw [if_pos rfl]
      have hfind : assocFind ((i, c) :: tl) i = some c := by
        rw [assocFind, if_pos rfl]
      rw [hfind]
      by_cases hk : k = i
      · rw [assocFind, if_pos hk, if_pos hk]
      · rw [assocFind, if_neg hk, if_neg hk, assocFind, if_neg hk]
    · rw [if_neg h1]
      by_cases h2 : i < j
      · rw [if_pos h2]
        show assocFind ((i, Node.createSegs p v) :: (j, c) :: tl) k = _
        have hfind : assocFind ((j, c) :: tl) i = none := by
          rw [assocFind, if_neg h1]
          refine assocFind_eq_none ?_
          intro hc
          have := hjlt i hc
          omega
        rw [hfind, assocFind]
      · rw [if_neg h2]
        by_cases hk3 : k = j
        · have hki : ¬ k = i := fun hc => h1 (by rw [← hc, hk3])
          rw [assocFind, if_pos hk3, if_neg hki, assocFind, if_pos hk3]
        · rw [assocFind, if_neg hk3, ih htl]
          have h4 : assocFind ((j, c) :: tl) i = assocFind tl i := by
            rw [assocFind, if_neg h1]
          have h5 : assocFind ((j, c) :: tl) k = assocFind tl k := by
            rw [assocFind, if_neg hk3]
          rw [h4, h5]

theorem objInsert_find : ∀ (es : List (List Char × Node)),
    List.Pairwise (fun a b => strLt a b = true) (es.map Prod.fst) →
    ∀ (i : List Char) (p : List Segment) (v : List Char) (k : List Char),
    assocFind (objInsert es i p v).1 k =
      if k = i then
        some (match assocFind es i with
          | none => Node.createSegs p v
          | some c => (insertSegs c p v).1)
      else assocFind es k := by
  intro es
  induction es with
  | nil =>
    intro _ i p v k
    by_cases hk : k = i
    · simp [objInsert, assocFind, hk]
    · simp [objInsert, assocFind, hk]
  | cons e tl ih =>
    intro hs i p v k
    obtain ⟨j, c⟩ := e
    rw [List.map_cons] at hs
    have htl := (List.pairwise_cons.1 hs).2
    have hjlt := (List.pairwise_cons.1 hs).1
    rw [objInsert]
    by_cases h1 : i = j
    · subst h1
      rw [if_pos rfl]
      have hfind : assocFind ((i, c) :: tl) i = some c := by
        rw [assocFind, if_pos rfl]
      rw [hfind]
      by_cases hk : k = i
      · rw [assocFind, if_pos hk, if_pos hk]
      · rw [assocFind, if_neg hk, if_neg hk, assocFind, if_neg hk]
    · rw [if_neg h1]
      by_cases h2 : strLt i j
      · rw [if_pos h2]
        show assocFind ((i, Node.createSegs p v) :: (j, c) :: tl) k = _
        have hfind : assocFind ((j, c) :: tl) i = none := by
          rw [assocFind, if_neg h1]
          refine assocFind_eq_none ?_
          intro hc
          have hji := hjlt i hc
          rw [strLt_asymm hji] at h2
          cases h2
        rw [hfind, assocFind]
      · rw [if_neg h2]
        by_cases hk3 : k = j
        · have hki : ¬ k = i := fun hc => h1 (by rw [← hc, hk3])
          rw [assocFind, if_pos hk3, if_neg hki, assocFind, if_pos hk3]
        · rw [assocFind, if_neg hk3, ih htl]
          have h4 : assocFind ((j, c) :: tl) i = assocFind tl i := by
            rw [assocFind, if_neg h1]
          have h5 : assocFind ((j, c) :: tl) k = assocFind tl k := by
            rw [assocFind, if_neg hk3]
          rw [h4, h5]

theorem compat_symm : ∀ {p q : List Segment}, compat p q = true → compat q p = true := by
  intro p
  induction p with
  | nil =>
    intro q h
    cases q with
    | nil => exact h
    | cons b bs => rw [compat] at h; cases h
  | cons a as ih =>
    intro q h
    cases q with
    | nil => rw [compat] at h; cases h
    | cons b bs =>
      rw [compat, Bool.and_eq_true, decide_eq_true_eq] at h
      rw [compat, Bool.and_eq_true, decide_eq_true_eq]
      obtain ⟨hk, hif⟩ := h
      refine ⟨hk.symm, ?_⟩
      by_cases hab : b = a
      · subst hab
        rw [if_pos rfl] at hif
        rw [if_pos rfl]
        exact ih hif
      · rw [if_neg hab]

theorem obsL_self : ∀ (p : List Segment), obsL p p = some NodeKind.value := by
  intro p
  induction p with
  | nil => rfl
  | cons s p ih => rw [obsL, if_pos rfl, ih]

theorem obsL_value_eq : ∀ (p r : List Segment),
    obsL p r = some NodeKind.value → r = p := by
  intro p
  induction p with
  | nil =>
    intro r h
    cases r with
    | nil => rfl
    | cons r₀ rr => rw [obsL] at h; cases h
  | cons s p ih =>
    intro r h
    cases r with
    | nil =>
      rw [obsL] at h
      injection h with h1
      cases s <;> simp [segKind] at h1
    | cons r₀ rr =>
      rw [obsL] at h
      by_cases hr : r₀ = s
      · rw [if_pos hr] at h
        rw [hr, ih rr h]
      · rw [if_neg hr] at h; cases h

theorem compat_agree : ∀ (p q : List Segment), compat p q = true →
    ∀ r k₁ k₂, obsL p r = some k₁ → obsL q r = some k₂ → k₁ = k₂ := by
  intro p
  induction p with
  | nil =>
    intro q hc r k₁ k₂ h₁ h₂
    cases q with
    | nil =>
      cases r with
      | nil =>
        rw [obsL] at h₁ h₂
        injection h₁ with e₁
        injection h₂ with e₂
        rw [← e₁, ← e₂]
      | cons r₀ rr => rw [obsL] at h₁; cases h₁
    | cons b bs => rw [compat] at hc; cases hc
  | cons a as ih =>
    intro q hc r k₁ k₂ h₁ h₂
    cases q with
    | nil => rw [compat] at hc; cases hc
    | cons b bs =>
      rw [compat, Bool.and_eq_true, decide_eq_true_eq] at hc
      obtain ⟨hk, hif⟩ := hc
      cases r with
      | nil =>
        rw [obsL] at h₁ h₂
        injection h₁ with e₁
        injection h₂ with e₂
        rw [← e₁, ← e₂, hk]
      | cons r₀ rr =>
        rw [obsL] at h₁ h₂
        by_cases hra : r₀ = a
        · rw [if_pos hra] at h₁
          by_cases hrb : r₀ = b
          · rw [if_pos hrb] at h₂
            rw [if_pos (hra.symm.trans hrb)] at hif
            exact ih bs hif rr k₁ k₂ h₁ h₂
          · rw [if_neg hrb] at h₂; cases h₂
        · rw [if_neg hra] at h₁; cases h₁

theorem compat_of_agree : ∀ (p q : List Segment),
    (∀ r k₁ k₂, obsL p r = some k₁ → obsL q r = some k₂ → k₁ = k₂) →
    compat p q = true := by
  intro p
  induction p with
  | nil =>
    intro q h
    cases q with
    | nil => rfl
    | cons b bs =>
      have hv := h [] NodeKind.value (segKind b) (by rw [obsL]) (by rw [obsL])
      cases b <;> simp [segKind] at hv
  | cons a as ih =>
    intro q h
    cases q with
    | nil =>
      have hv := h [] (segKind a) NodeKind.value (by rw [obsL]) (by rw [obsL])
      cases a <;> simp [segKind] at hv
    | cons b bs =>
      rw [compat, Bool.and_eq_true, decide_eq_true_eq]
      have hk : segKind a = segKind b :=
        h [] (segKind a) (segKind b) (by rw [obsL]) (by rw [obsL])
      refine ⟨hk, ?_⟩
      by_cases hab : a = b
      · rw [if_pos hab]
        refine ih bs ?_
        intro r k₁ k₂ h₁ h₂
        refine h (a :: r) k₁ k₂ ?_ ?_
        · rw [obsL, if_pos rfl]; exact h₁
        · rw [obsL, if_pos hab]; exact h₂
      · rw [if_neg hab]

theorem append_ne_self (x : Path) (s : Segment) : Path.append x s ≠ x := by
  intro hc
  have h : (Path.append x s).segs.length = x.segs.length :=
    congrArg (fun p : Path => p.segs.length) hc
  rw [Path.segs, List.length_append, List.length_singleton] at h
  omega

theorem obsP_root (q : Path) :
    obsP .root q = if Path.root = q then some NodeKind.value else none := rfl

theorem obsP_append (pp : Path) (ps : Segment) (q : Path) :
    obsP (.append pp ps) q =
      if Path.append pp ps = q then some NodeKind.value
      else if pp = q then some (segKind ps) else obsP pp q := rfl

theorem obsP_self (p : Path) : obsP p p = some NodeKind.value := by
  cases p with
  | root => rw [obsP_root, if_pos rfl]
  | append pp ps => rw [obsP_append, if_pos rfl]

theorem obsP_le_length : ∀ (p q : Path) (k : NodeKind),
    obsP p q = some k → q.segs.length ≤ p.segs.length := by
  intro p
  induction p with
  | root =>
    intro q k h
    rw [obsP_root] at h
    by_cases hq : Path.root = q
    · subst hq; exact le_refl _
    · rw [if_neg hq] at h; exact Option.noConfusion h
  | append pp ps ih =>
    intro q k h
    rw [obsP_append] at h
    by_cases hq : Path.append pp ps = q
    · subst hq; exact le_refl _
    · rw [if_neg hq] at h
      by_cases hq2 : pp = q
      · subst hq2
        rw [Path.segs, List.length_append, List.length_singleton]
        omega
      · rw [if_neg hq2] at h
        have := ih q k h
        rw [Path.segs, List.length_append, List.length_singleton]
        omega

theorem obsStrictP_length : ∀ (p q : Path) (k : NodeKind),
    obsStrictP p q = some k → q.segs.length < p.segs.length := by
  intro p
  induction p with
  | root =>
    intro q k h
    rw [obsStrictP] at h
    exact Option.noConfusion h
  | append pp ps ih =>
    intro q k h
    rw [obsStrictP] at h
    by_cases hq : pp = q
    · subst hq
      rw [Path.segs, List.length_append, List.length_singleton]
      omega
    · rw [if_neg hq] at h
      have := ih q k h
      rw [Path.segs, List.length_append, List.length_singleton]
      omega

theorem obsStrictP_self (p : Path) : obsStrictP p p = none := by
  cases h : obsStrictP p p with
  | none => rfl
  | some k => exact absurd (obsStrictP_length p p k h) (lt_irrefl _)

theorem obsP_eq_strict : ∀ (p q : Path), p ≠ q → obsP p q = obsStrictP p q := by
  intro p
  induction p with
  | root =>
    intro q h
    rw [obsP_root, if_neg h, obsStrictP]
  | append pp ps ih =>
    intro q h
    rw [obsP_append, if_neg h, obsStrictP]
    by_cases hq : pp = q
    · rw [if_pos hq, if_pos hq]
    · rw [if_neg hq, if_neg hq]
      exact ih q hq


theorem obsL_append : ∀ (l : List Segment) (s : Segment) (r : List Segment),
    obsL (l ++ [s]) r =
      if r = l ++ [s] then some NodeKind.value
      else if r = l then some (segKind s) else obsL l r := by
  intro l
  induction l with
  | nil =>
    intro s r
    rw [List.nil_append]
    cases r with
    | nil =>
      rw [if_neg (show ¬(([] : List Segment) = [s]) from fun hc => List.noConfusion hc),
        if_pos rfl]
      exact rfl
    | cons r₀ rr =>
      show (if r₀ = s then obsL [] rr else none) = _
      by_cases hr : r₀ = s
      · subst hr
        rw [if_pos rfl]
        cases rr with
        | nil =>
          rw [if_pos rfl]
          exact rfl
        | cons r₁ rr₂ =>
          rw [if_neg (show ¬(r₀ :: r₁ :: rr₂ = [r₀]) from by simp),
            if_neg (show ¬(r₀ :: r₁ :: rr₂ = ([] : List Segment)) from by simp)]
          exact rfl
      · rw [if_neg hr,
          if_neg (show ¬(r₀ :: rr = [s]) from
            fun hc => hr (by injection hc with h1 h2)),
          if_neg (show ¬(r₀ :: rr = ([] : List Segment)) from fun hc => List.noConfusion hc)]
        exact rfl
  | cons a as ih =>
    intro s r
    rw [List.cons_append]
    cases r with
    | nil =>
      rw [if_neg (show ¬(([] : List Segment) = a :: (as ++ [s])) from
          fun hc => List.noConfusion hc),
        if_neg (show ¬(([] : List Segment) = a :: as) from fun hc => List.noConfusion hc)]
      exact rfl
    | cons r₀ rr =>
      show (if r₀ = a then obsL (as ++ [s]) rr else none) = _
      by_cases hr : r₀ = a
      · subst hr
        rw [if_pos rfl, ih s rr]
        have e₃ : obsL (r₀ :: as) (r₀ :: rr) = obsL as rr := by
          rw [obsL, if_pos rfl]
        simp only [List.cons.injEq, eq_self_iff_true, true_and]
        by_cases h1 : rr = as ++ [s]
        · rw [if_pos h1, if_pos h1]
        · rw [if_neg h1, if_neg h1]
          by_cases h2 : rr = as
          · rw [if_pos h2, if_pos h2]
          · rw [if_neg h2, if_neg h2, e₃]
      · have e₄ : obsL (a :: as) (r₀ :: rr) = none := by
          rw [obsL, if_neg hr]
        rw [if_neg hr,
          if_neg (show ¬(r₀ :: rr = a :: (as ++ [s])) from
            fun hc => hr (by injection hc with h1 h2)),
          if_neg (show ¬(r₀ :: rr = a :: as) from
            fun hc => hr (by injection hc with h1 h2)), e₄]

theorem segs_ofSegs : ∀ (l : List Segment), (Path.ofSegs l).segs = l := by
  intro l
  induction l using List.reverseRecOn with
  | nil => rfl
  | append_singleton xs x ih => rw [ofSegs_append, Path.segs, ih]

theorem obsP_obsL : ∀ (p q : Path), obsP p q = obsL p.segs q.segs := by
  intro p
  induction p with
  | root =>
    intro q
    rw [obsP_root]
    by_cases hq : Path.root = q
    · subst hq
      rw [if_pos rfl]
      exact rfl
    · rw [if_neg hq]
      cases hqs : q.segs with
      | nil => exact absurd (segs_eq_nil.1 hqs).symm hq
      | cons r₀ rr => exact rfl
  | append pp ps ih =>
    intro q
    rw [obsP_append, Path.segs, obsL_append, ih]
    have h₁ : (Path.append pp ps = q) ↔ (q.segs = pp.segs ++ [ps]) := by
      constructor
      · intro h; rw [← h, Path.segs]
      · intro h
        exact segs_injective (p := Path.append pp ps) (q := q) (by rw [Path.segs, h])
    have h₂ : (pp = q) ↔ (q.segs = pp.segs) :=
      ⟨fun h => by rw [h], fun h => segs_injective h.symm⟩
    by_cases hc1 : Path.append pp ps = q
    · rw [if_pos hc1, if_pos (h₁.1 hc1)]
    · rw [if_neg hc1, if_neg (fun hc => hc1 (h₁.2 hc))]
      by_cases hc2 : pp = q
      · rw [if_pos hc2, if_pos (h₂.1 hc2)]
      · rw [if_neg hc2, if_neg (fun hc => hc2 (h₂.2 hc))]

theorem obsP_step : ∀ (dp gp : Path) (gs : Segment),
    obsP dp (Path.append gp gs) ≠ none → obsP dp gp = some (segKind gs) := by
  intro dp
  induction dp with
  | root =>
    intro gp gs h
    exfalso
    apply h
    rw [obsP_root, if_neg (fun hc => Path.noConfusion hc)]
  | append pp ps ih =>
    intro gp gs h
    obtain ⟨k, hk⟩ : ∃ k, obsP (Path.append pp ps) (Path.append gp gs) = some k := by
      cases hobs : obsP (Path.append pp ps) (Path.append gp gs) with
      | none => exact absurd hobs h
      | some k => exact ⟨k, rfl⟩
    have hlen := obsP_le_length _ _ k hk
    by_cases hdp : Path.append pp ps = Path.append gp gs
    · injection hdp with e₁ e₂
      subst e₁; subst e₂
      rw [obsP_append, if_neg (append_ne_self pp ps), if_pos rfl]
    · have hdpgp : Path.append pp ps ≠ gp := by
        intro hc
        rw [hc, Path.segs, List.length_append, List.length_singleton] at hlen
        omega
      rw [obsP_append, if_neg hdpgp]
      rw [obsP_append, if_neg hdp] at hk
      by_cases hpp : pp = Path.append gp gs
      · rw [if_neg (by rw [hpp]; exact append_ne_self gp gs), hpp, obsP_append,
          if_neg (append_ne_self gp gs), if_pos rfl]
      · rw [if_neg hpp] at hk
        have hih := ih gp gs (by rw [hk]; exact fun hc => Option.noConfusion hc)
        by_cases hppgp : pp = gp
        · exfalso
          have hl₂ := obsP_le_length pp (Path.append gp gs) k hk
          rw [hppgp] at hl₂
          rw [Path.segs, List.length_append, List.length_singleton] at hl₂
          omega
        · rw [if_neg hppgp]
          exact hih


theorem assocFind_append_left {α β : Type} [DecidableEq α] {m₁ : List (α × β)}
    (m₂ : List (α × β)) {a : α} {b : β} (h : assocFind m₁ a = some b) :
    assocFind (m₁ ++ m₂) a = some b := by
  induction m₁ with
  | nil => rw [assocFind] at h; exact Option.noConfusion h
  | cons e tl ih =>
    obtain ⟨x, y⟩ := e
    rw [assocFind] at h
    rw [List.cons_append, assocFind]
    by_cases ha : a = x
    · rw [if_pos ha] at h
      rw [if_pos ha]
      exact h
    · rw [if_neg ha] at h
      rw [if_neg ha]
      exact ih h

theorem assocFind_append_right {α β : Type} [DecidableEq α] {m₁ : List (α × β)}
    (m₂ : List (α × β)) {a : α} (h : assocFind m₁ a = none) :
    assocFind (m₁ ++ m₂) a = assocFind m₂ a := by
  induction m₁ with
  | nil => rw [List.nil_append]
  | cons e tl ih =>
    obtain ⟨x, y⟩ := e
    rw [assocFind] at h
    by_cases ha : a = x
    · rw [if_pos ha] at h; exact Option.noConfusion h
    · rw [if_neg ha] at h
      rw [List.cons_append, assocFind, if_neg ha]
      exact ih h

theorem typesWalk_inv : ∀ (p : Path) (m₁ : List (Path × NodeKind)) (dp : Path)
    (done : List Directive),
    obsP dp p ≠ none →
    (∀ q k, assocFind m₁ q = some k ↔
      ((∃ d' ∈ done, obsP d'.path q = some k) ∨
        (obsP dp q = some k ∧ obsStrictP p q = none))) →
    ∀ m₂, typesWalk m₁ p = .ok m₂ →
    ∀ q k, assocFind m₂ q = some k ↔
      ((∃ d' ∈ done, obsP d'.path q = some k) ∨ obsP dp q = some k) := by
  intro p
  induction p with
  | root =>
    intro m₁ dp done hpre hinv m₂ hok q k
    rw [typesWalk] at hok
    injection hok with hm
    rw [← hm, hinv q k]
    simp [obsStrictP]
  | append gp gs ih =>
    intro m₁ dp done hpre hinv m₂ hok q k
    have hobs : obsP dp gp = some (segKind gs) := obsP_step dp gp gs hpre
    have hpre₂ : obsP dp gp ≠ none := by
      rw [hobs]; exact fun hc => Option.noConfusion hc
    rw [typesWalk] at hok
    cases hfind : assocFind m₁ gp with
    | none =>
      simp only [hfind] at hok
      refine ih (m₁ ++ [(gp, segKind gs)]) dp done hpre₂ ?_ m₂ hok q k
      intro q' k'
      constructor
      · intro hf
        cases hf₁ : assocFind m₁ q' with
        | some k₀ =>
          rw [assocFind_append_left _ hf₁] at hf
          injection hf with hk
          rw [← hk]
          rcases (hinv q' k₀).1 hf₁ with hold | ⟨ho, hs⟩
          · exact Or.inl hold
          · refine Or.inr ⟨ho, ?_⟩
            rw [obsStrictP] at hs
            by_cases hq : gp = q'
            · rw [if_pos hq] at hs; exact Option.noConfusion hs
            · rw [if_neg hq] at hs; exact hs
        | none =>
          rw [assocFind_append_right _ hf₁] at hf
          by_cases hq : q' = gp
          · subst hq
            rw [assocFind, if_pos rfl] at hf
            injection hf with hk
            refine Or.inr ⟨?_, obsStrictP_self _⟩
            rw [hobs, hk]
          · rw [assocFind, if_neg hq, assocFind] at hf
            exact Option.noConfusion hf
      · intro hr
        rcases hr with hold | ⟨ho, hs⟩
        · exact assocFind_append_left _ ((hinv q' k').2 (Or.inl hold))
        · by_cases hq : q' = gp
          · subst hq
            rw [hobs] at ho
            injection ho with hk
            rw [assocFind_append_right _ hfind, assocFind, if_pos rfl, ← hk]
          · have happ : obsStrictP (Path.append gp gs) q' = none := by
              rw [obsStrictP, if_neg (fun hc => hq hc.symm)]
              exact hs
            exact assocFind_append_left _ ((hinv q' k').2 (Or.inr ⟨ho, happ⟩))
    | some occ =>
      simp only [hfind] at hok
      by_cases hocc : occ = segKind gs
      · subst hocc
        rw [if_pos rfl] at hok
        refine ih m₁ dp done hpre₂ ?_ m₂ hok q k
        intro q' k'
        constructor
        · intro hf
          rcases (hinv q' k').1 hf with hold | ⟨ho, hs⟩
          · exact Or.inl hold
          · refine Or.inr ⟨ho, ?_⟩
            rw [obsStrictP] at hs
            by_cases hq : gp = q'
            · rw [if_pos hq] at hs; exact Option.noConfusion hs
            · rw [if_neg hq] at hs; exact hs
        · intro hr
          rcases hr with hold | ⟨ho, hs⟩
          · exact (hinv q' k').2 (Or.inl hold)
          · by_cases hq : q' = gp
            · subst hq
              rw [hobs] at ho
              injection ho with hk
              rw [hfind, ← hk]
            · refine (hinv q' k').2 (Or.inr ⟨ho, ?_⟩)
              rw [obsStrictP, if_neg (fun hc => hq hc.symm)]
              exact hs
      · rw [if_neg hocc] at hok
        exact Except.noConfusion hok

theorem typesOne_inv (m : List (Path × NodeKind)) (done : List Directive) (d : Directive)
    (hinv : ∀ q k, assocFind m q = some k ↔ ∃ d' ∈ done, obsP d'.path q = some k)
    (m₂ : List (Path × NodeKind)) (h : typesOne m d = .ok m₂) :
    ∀ q k, assocFind m₂ q = some k ↔ ∃ d' ∈ done ++ [d], obsP d'.path q = some k := by
  rw [typesOne] at h
  cases hfind : assocFind m d.path with
  | some occ =>
    simp only [hfind] at h
    exact Except.noConfusion h
  | none =>
    simp only [hfind] at h
    have hpre₂ : obsP d.path d.path ≠ none := by
      rw [obsP_self]
      exact fun hc => Option.noConfusion hc
    have hinv₂ : ∀ q k, assocFind (m ++ [(d.path, NodeKind.value)]) q = some k ↔
        ((∃ d' ∈ done, obsP d'.path q = some k) ∨
          (obsP d.path q = some k ∧ obsStrictP d.path q = none)) := by
      intro q k
      constructor
      · intro hf
        cases hf₁ : assocFind m q with
        | some k₀ =>
          rw [assocFind_append_left _ hf₁] at hf
          injection hf with hk
          rw [← hk]
          exact Or.inl ((hinv q k₀).1 hf₁)
        | none =>
          rw [assocFind_append_right _ hf₁] at hf
          by_cases hq : q = d.path
          · subst hq
            rw [assocFind, if_pos rfl] at hf
            injection hf with hk
            refine Or.inr ⟨?_, obsStrictP_self _⟩
            rw [obsP_self, hk]
          · rw [assocFind, if_neg hq, assocFind] at hf
            exact Option.noConfusion hf
      · intro hr
        rcases hr with hold | ⟨ho, hs⟩
        · exact assocFind_append_left _ ((hinv q k).2 hold)
        · by_cases hq : q = d.path
          · subst hq
            rw [obsP_self] at ho
            injection ho with hk
            rw [assocFind_append_right _ hfind, assocFind, if_pos rfl, ← hk]
          · exfalso
            rw [obsP_eq_strict d.path q (fun hc => hq hc.symm), hs] at ho
            exact Option.noConfusion ho
    have hw := typesWalk_inv d.path (m ++ [(d.path, NodeKind.value)]) d.path done hpre₂
      hinv₂ m₂ h
    intro q k
    rw [hw q k]
    constructor
    · rintro (⟨d', hd', ho⟩ | ho)
      · exact ⟨d', List.mem_append_left _ hd', ho⟩
      · exact ⟨d, List.mem_append_right _ (List.mem_singleton.2 rfl), ho⟩
    · rintro ⟨d', hd', ho⟩
      rcases List.mem_append.1 hd' with hl | hr₂
      · exact Or.inl ⟨d', hl, ho⟩
      · rw [List.mem_singleton] at hr₂
        subst hr₂
        exact Or.inr ho

theorem nodeTypesGo_inv : ∀ (ds : List Directive) (m : List (Path × NodeKind))
    (done : List Directive),
    (∀ q k, assocFind m q = some k ↔ ∃ d' ∈ done, obsP d'.path q = some k) →
    nodeTypesGo m ds = .ok () →
    ∃ mf, ∀ q k, assocFind mf q = some k ↔ ∃ d' ∈ done ++ ds, obsP d'.path q = some k := by
  intro ds
  induction ds with
  | nil =>
    intro m done hinv _
    refine ⟨m, ?_⟩
    rw [List.append_nil]
    exact hinv
  | cons d rest ih =>
    intro m done hinv h
    rw [nodeTypesGo] at h
    cases ht : typesOne m d with
    | error e =>
      simp only [ht] at h
      exact Except.noConfusion h
    | ok m' =>
      simp only [ht] at h
      obtain ⟨mf, hmf⟩ := ih m' (done ++ [d]) (typesOne_inv m done d hinv m' ht) h
      refine ⟨mf, ?_⟩
      intro q k
      have heq : (done ++ [d]) ++ rest = done ++ d :: rest := by simp
      rw [hmf q k, heq]

theorem check_node_types_agree (ds : List Directive) (h : check_node_types ds = .ok ()) :
    ∀ d₁ ∈ ds, ∀ d₂ ∈ ds, ∀ q k₁ k₂,
      obsP d₁.path q = some k₁ → obsP d₂.path q = some k₂ → k₁ = k₂ := by
  rw [check_node_types] at h
  have hbase : ∀ q k, assocFind ([] : List (Path × NodeKind)) q = some k ↔
      ∃ d' ∈ ([] : List Directive), obsP d'.path q = some k := by
    intro q k
    constructor
    · intro hf; rw [assocFind] at hf; exact Option.noConfusion hf
    · rintro ⟨d', hd', _⟩; cases hd'
  obtain ⟨mf, hmf⟩ := nodeTypesGo_inv ds [] [] hbase h
  intro d₁ h₁ d₂ h₂ q k₁ k₂ ho₁ ho₂
  have e₁ := (hmf q k₁).2 ⟨d₁, by rw [List.nil_append]; exact h₁, ho₁⟩
  have e₂ := (hmf q k₂).2 ⟨d₂, by rw [List.nil_append]; exact h₂, ho₂⟩
  rw [e₁] at e₂
  injection e₂ with hk

theorem validate_ok_parts (ds : List Directive) (h : validate ds = some (Except.ok ())) :
    check_path_uniqueness ds = .ok () ∧ check_node_types ds = .ok () := by
  rw [validate] at h
  cases h₁ : check_key_consistency ds with
  | none =>
    simp only [h₁] at h
    exact Option.noConfusion h
  | some r₁ =>
    simp only [h₁] at h
    cases r₁ with
    | error e => simp at h
    | ok u =>
      cases u
      cases h₂ : check_path_uniqueness ds with
      | error e => simp only [h₂] at h; simp at h
      | ok u =>
        cases u
        simp only [h₂] at h
        cases h₃ : check_node_types ds with
        | error e => simp only [h₃] at h; simp at h
        | ok u =>
          cases u
          exact ⟨rfl, rfl⟩

theorem validate_pairwise_compat (ds : List Directive)
    (hv : validate ds = some (Except.ok ())) :
    List.Pairwise (fun d₁ d₂ : Directive =>
      compat d₁.path.segs d₂.path.segs = true ∧ d₁.path ≠ d₂.path) ds := by
  obtain ⟨hu, ht⟩ := validate_ok_parts ds hv
  have hagree := check_node_types_agree ds ht
  have hne : List.Pairwise (fun d₁ d₂ : Directive => d₁.path ≠ d₂.path) ds :=
    (uniquenessGo_pairwise ds [] hu).1
  refine hne.imp_of_mem ?_
  intro d₁ d₂ h₁ h₂ hne₂
  refine ⟨?_, hne₂⟩
  refine compat_of_agree _ _ ?_
  intro r k₁ k₂ ho₁ ho₂
  have e₁ : obsP d₁.path (Path.ofSegs r) = some k₁ := by
    rw [obsP_obsL, segs_ofSegs]; exact ho₁
  have e₂ : obsP d₂.path (Path.ofSegs r) = some k₂ := by
    rw [obsP_obsL, segs_ofSegs]; exact ho₂
  exact hagree d₁ h₁ d₂ h₂ (Path.ofSegs r) k₁ k₂ e₁ e₂


theorem createSegs_insert_comm : ∀ (p q : List Segment) (v₁ v₂ : List Char),
    compat p q = true → p ≠ q →
    (insertSegs (Node.createSegs p v₁) q v₂).1
      = (insertSegs (Node.createSegs q v₂) p v₁).1 := by
  intro p
  induction p with
  | nil =>
    intro q v₁ v₂ hc hne
    cases q with
    | nil => exact absurd rfl hne
    | cons b bs => rw [compat] at hc; cases hc
  | cons a as ih =>
    intro q v₁ v₂ hc hne
    cases q with
    | nil => rw [compat] at hc; cases hc
    | cons b bs =>
      rw [compat, Bool.and_eq_true, decide_eq_true_eq] at hc
      obtain ⟨hk, hif⟩ := hc
      cases a with
      | index i =>
        cases b with
        | key k₂ => simp [segKind] at hk
        | index j =>
          by_cases hij : i = j
          · subst hij
            rw [if_pos rfl] at hif
            have hnab : as ≠ bs := fun hc₂ => hne (by rw [hc₂])
            have hstep : (arrInsert [(i, Node.createSegs as v₁)] i bs v₂).1
                = [(i, (insertSegs (Node.createSegs as v₁) bs v₂).1)] := by
              rw [arrInsert, if_pos rfl]
            have hstep₂ : (arrInsert [(i, Node.createSegs bs v₂)] i as v₁).1
                = [(i, (insertSegs (Node.createSegs bs v₂) as v₁).1)] := by
              rw [arrInsert, if_pos rfl]
            show Node.array (arrInsert [(i, Node.createSegs as v₁)] i bs v₂).1
              = Node.array (arrInsert [(i, Node.createSegs bs v₂)] i as v₁).1
            rw [hstep, hstep₂, ih bs v₁ v₂ hif hnab]
          · rcases Nat.lt_or_ge i j with hlt | hge
            · have h₁ : (arrInsert [(i, Node.createSegs as v₁)] j bs v₂).1
                  = [(i, Node.createSegs as v₁), (j, Node.createSegs bs v₂)] := by
                rw [arrInsert, if_neg (fun hc₂ => hij hc₂.symm), if_neg (by omega), arrInsert]
              have h₂ : (arrInsert [(j, Node.createSegs bs v₂)] i as v₁).1
                  = [(i, Node.createSegs as v₁), (j, Node.createSegs bs v₂)] := by
                rw [arrInsert, if_neg hij, if_pos hlt]
              show Node.array (arrInsert [(i, Node.createSegs as v₁)] j bs v₂).1
                = Node.array (arrInsert [(j, Node.createSegs bs v₂)] i as v₁).1
              rw [h₁, h₂]
            · have hlt₂ : j < i := by omega
              have h₁ : (arrInsert [(i, Node.createSegs as v₁)] j bs v₂).1
                  = [(j, Node.createSegs bs v₂), (i, Node.createSegs as v₁)] := by
                rw [arrInsert, if_neg (fun hc₂ => hij hc₂.symm), if_pos hlt₂]
              have h₂ : (arrInsert [(j, Node.createSegs bs v₂)] i as v₁).1
                  = [(j, Node.createSegs bs v₂), (i, Node.createSegs as v₁)] := by
                rw [arrInsert, if_neg hij, if_neg (by omega), arrInsert]
              show Node.array (arrInsert [(i, Node.createSegs as v₁)] j bs v₂).1
                = Node.array (arrInsert [(j, Node.createSegs bs v₂)] i as v₁).1
              rw [h₁, h₂]
      | key k₁ =>
        cases b with
        | index j => simp [segKind] at hk
        | key k₂ =>
          by_cases hij : k₁ = k₂
          · subst hij
            rw [if_pos rfl] at hif
            have hnab : as ≠ bs := fun hc₂ => hne (by rw [hc₂])
            have hstep : (objInsert [(k₁, Node.createSegs as v₁)] k₁ bs v₂).1
                = [(k₁, (insertSegs (Node.createSegs as v₁) bs v₂).1)] := by
              rw [objInsert, if_pos rfl]
            have hstep₂ : (objInsert [(k₁, Node.createSegs bs v₂)] k₁ as v₁).1
                = [(k₁, (insertSegs (Node.createSegs bs v₂) as v₁).1)] := by
              rw [objInsert, if_pos rfl]
            show Node.object (objInsert [(k₁, Node.createSegs as v₁)] k₁ bs v₂).1
              = Node.object (objInsert [(k₁, Node.createSegs bs v₂)] k₁ as v₁).1
            rw [hstep, hstep₂, ih bs v₁ v₂ hif hnab]
          · rcases strLt_total hij with hlt | hlt
            · have h₁ : (objInsert [(k₁, Node.createSegs as v₁)] k₂ bs v₂).1
                  = [(k₁, Node.createSegs as v₁), (k₂, Node.createSegs bs v₂)] := by
                rw [objInsert, if_neg (fun hc₂ => hij hc₂.symm),
                  if_neg (show ¬(strLt k₂ k₁ = true) from fun hc₂ => by
                    rw [strLt_asymm hlt] at hc₂; exact Bool.noConfusion hc₂), objInsert]
              have h₂ : (objInsert [(k₂, Node.createSegs bs v₂)] k₁ as v₁).1
                  = [(k₁, Node.createSegs as v₁), (k₂, Node.createSegs bs v₂)] := by
                rw [objInsert, if_neg hij, if_pos hlt]
              show Node.object (objInsert [(k₁, Node.createSegs as v₁)] k₂ bs v₂).1
                = Node.object (objInsert [(k₂, Node.createSegs bs v₂)] k₁ as v₁).1
              rw [h₁, h₂]
            · have h₁ : (objInsert [(k₁, Node.createSegs as v₁)] k₂ bs v₂).1
                  = [(k₂, Node.createSegs bs v₂), (k₁, Node.createSegs as v₁)] := by
                rw [objInsert, if_neg (fun hc₂ => hij hc₂.symm), if_pos hlt]
              have h₂ : (objInsert [(k₂, Node.createSegs bs v₂)] k₁ as v₁).1
                  = [(k₂, Node.createSegs bs v₂), (k₁, Node.createSegs as v₁)] := by
                rw [objInsert, if_neg hij,
                  if_neg (show ¬(strLt k₁ k₂ = true) from fun hc₂ => by
                    rw [strLt_asymm hlt] at hc₂; exact Bool.noConfusion hc₂), objInsert]
              show Node.object (objInsert [(k₁, Node.createSegs as v₁)] k₂ bs v₂).1
                = Node.object (objInsert [(k₂, Node.createSegs bs v₂)] k₁ as v₁).1
              rw [h₁, h₂]

theorem arrInsert_SA (es : List (Nat × Node)) (i : Nat) (rest : List Segment)
    (v : List Char) (h : SA es) : SA (arrInsert es i rest v).1 := by
  have h₁ : nodeSorted (Node.array es) = true := by
    rw [nodeSorted]
    exact sortedArr_iff.2 h
  have h₂ := insertSegs_sorted (Node.array es) (Segment.index i :: rest) v h₁
  have h₃ : (insertSegs (Node.array es) (Segment.index i :: rest) v).1
      = Node.array (arrInsert es i rest v).1 := rfl
  rw [h₃, nodeSorted] at h₂
  exact sortedArr_iff.1 h₂

theorem objInsert_SO (es : List (List Char × Node)) (k : List Char) (rest : List Segment)
    (v : List Char) (h : SO es) : SO (objInsert es k rest v).1 := by
  have h₁ : nodeSorted (Node.object es) = true := by
    rw [nodeSorted]
    exact sortedObj_iff.2 h
  have h₂ := insertSegs_sorted (Node.object es) (Segment.key k :: rest) v h₁
  have h₃ : (insertSegs (Node.object es) (Segment.key k :: rest) v).1
      = Node.object (objInsert es k rest v).1 := rfl
  rw [h₃, nodeSorted] at h₂
  exact sortedObj_iff.1 h₂


theorem insert_insert_comm_n : ∀ n t, sizeOf t ≤ n → nodeSorted t = true →
    ∀ p q v₁ v₂, compat p q = true → p ≠ q →
    (insertSegs (insertSegs t p v₁).1 q v₂).1
      = (insertSegs (insertSegs t q v₂).1 p v₁).1 := by
  intro n
  induction n with
  | zero =>
    intro t ht
    cases t <;> simp at ht
  | succ n ih =>
    intro t ht hs p q v₁ v₂ hc hne
    cases p with
    | nil =>
      cases q with
      | nil => exact absurd rfl hne
      | cons b bs => rw [compat] at hc; cases hc
    | cons a as =>
      cases q with
      | nil => rw [compat] at hc; cases hc
      | cons b bs =>
        rw [compat, Bool.and_eq_true, decide_eq_true_eq] at hc
        obtain ⟨hk, hif⟩ := hc
        cases t with
        | value s => exact rfl
        | array es =>
          cases a with
          | key k₁ =>
            cases b with
            | key k₂ => exact rfl
            | index j => simp [segKind] at hk
          | index i =>
            cases b with
            | key k₂ => simp [segKind] at hk
            | index j =>
              rw [nodeSorted] at hs
              have hSA : SA es := sortedArr_iff.1 hs
              have hpw := hSA.1
              have hSAX := arrInsert_SA es i as v₁ hSA
              have hSAY := arrInsert_SA es j bs v₂ hSA
              show Node.array (arrInsert (arrInsert es i as v₁).1 j bs v₂).1
                = Node.array (arrInsert (arrInsert es j bs v₂).1 i as v₁).1
              refine congrArg Node.array
                (arrAList_ext _ _ (arrInsert_SA _ j bs v₂ hSAX).1
                  (arrInsert_SA _ i as v₁ hSAY).1 ?_)
              intro k
              by_cases hij : i = j
              · subst hij
                have hcab : compat as bs = true := by
                  rw [if_pos rfl] at hif; exact hif
                have hnab : as ≠ bs := fun hc₂ => hne (by rw [hc₂])
                cases hfi : assocFind es i with
                | none =>
                  have h₁ : assocFind (arrInsert es i as v₁).1 i
                      = some (Node.createSegs as v₁) := by
                    rw [arrInsert_find es hpw i as v₁ i, if_pos rfl, hfi]
                  have h₂ : assocFind (arrInsert es i bs v₂).1 i
                      = some (Node.createSegs bs v₂) := by
                    rw [arrInsert_find es hpw i bs v₂ i, if_pos rfl, hfi]
                  rw [arrInsert_find _ hSAX.1 i bs v₂ k, arrInsert_find _ hSAY.1 i as v₁ k,
                    h₁, h₂, arrInsert_find es hpw i as v₁ k, arrInsert_find es hpw i bs v₂ k]
                  by_cases hkk : k = i
                  · rw [if_pos hkk, if_pos hkk]
                    show some ((insertSegs (Node.createSegs as v₁) bs v₂).1)
                      = some ((insertSegs (Node.createSegs bs v₂) as v₁).1)
                    rw [createSegs_insert_comm as bs v₁ v₂ hcab hnab]
                  · rw [if_neg hkk, if_neg hkk, if_neg hkk, if_neg hkk]
                | some c =>
                  have hmem := assocFind_mem hfi
                  have hcs : nodeSorted c = true := hSA.2 (i, c) hmem
                  have hcsz : sizeOf c ≤ n := by
                    have h1 : sizeOf (i, c) < sizeOf es := List.sizeOf_lt_of_mem hmem
                    have h2 : sizeOf (Node.array es) ≤ n + 1 := ht
                    have h3 : sizeOf es < sizeOf (Node.array es) := by
                      rw [Node.array.sizeOf_spec]; omega
                    have h4 : sizeOf c < sizeOf (i, c) := by
                      rw [Prod.mk.sizeOf_spec]; omega
                    omega
                  have h₁ : assocFind (arrInsert es i as v₁).1 i
                      = some ((insertSegs c as v₁).1) := by
                    rw [arrInsert_find es hpw i as v₁ i, if_pos rfl, hfi]
                  have h₂ : assocFind (arrInsert es i bs v₂).1 i
                      = some ((insertSegs c bs v₂).1) := by
                    rw [arrInsert_find es hpw i bs v₂ i, if_pos rfl, hfi]
                  rw [arrInsert_find _ hSAX.1 i bs v₂ k, arrInsert_find _ hSAY.1 i as v₁ k,
                    h₁, h₂, arrInsert_find es hpw i as v₁ k, arrInsert_find es hpw i bs v₂ k]
                  by_cases hkk : k = i
                  · rw [if_pos hkk, if_pos hkk]
                    show some ((insertSegs (insertSegs c as v₁).1 bs v₂).1)
                      = some ((insertSegs (insertSegs c bs v₂).1 as v₁).1)
                    rw [ih c hcsz hcs as bs v₁ v₂ hcab hnab]
                  · rw [if_neg hkk, if_neg hkk, if_neg hkk, if_neg hkk]
              · have e₁ : assocFind (arrInsert es i as v₁).1 j = assocFind es j := by
                  rw [arrInsert_find es hpw i as v₁ j, if_neg (fun hc₂ => hij hc₂.symm)]
                have e₂ : assocFind (arrInsert es j bs v₂).1 i = assocFind es i := by
                  rw [arrInsert_find es hpw j bs v₂ i, if_neg hij]
                rw [arrInsert_find _ hSAX.1 j bs v₂ k, arrInsert_find _ hSAY.1 i as v₁ k,
                  e₁, e₂, arrInsert_find es hpw i as v₁ k, arrInsert_find es hpw j bs v₂ k]
                by_cases hk1 : k = j
                · have hki : ¬ k = i := fun hc₂ => hij (by rw [← hc₂, hk1])
                  rw [if_pos hk1, if_neg hki, if_pos hk1]
                · by_cases hk2 : k = i
                  · rw [if_neg hk1, if_pos hk2, if_pos hk2]
                  · rw [if_neg hk1, if_neg hk2, if_neg hk2, if_neg hk1]
        | object es =>
          cases a with
          | index i₁ =>
            cases b with
            | index j₂ => exact rfl
            | key k₂ => simp [segKind] at hk
          | key k₁ =>
            cases b with
            | index j₂ => simp [segKind] at hk
            | key k₂ =>
              rw [nodeSorted] at hs
              have hSO : SO es := sortedObj_iff.1 hs
              have hpw := hSO.1
              have hSOX := objInsert_SO es k₁ as v₁ hSO
              have hSOY := objInsert_SO es k₂ bs v₂ hSO
              show Node.object (objInsert (objInsert es k₁ as v₁).1 k₂ bs v₂).1
                = Node.object (objInsert (objInsert es k₂ bs v₂).1 k₁ as v₁).1
              refine congrArg Node.object
                (objAList_ext _ _ (objInsert_SO _ k₂ bs v₂ hSOX).1
                  (objInsert_SO _ k₁ as v₁ hSOY).1 ?_)
              intro k
              by_cases hij : k₁ = k₂
              · subst hij
                have hcab : compat as bs = true := by
                  rw [if_pos rfl] at hif; exact hif
                have hnab : as ≠ bs := fun hc₂ => hne (by rw [hc₂])
                cases hfi : assocFind es k₁ with
                | none =>
                  have h₁ : assocFind (objInsert es k₁ as v₁).1 k₁
                      = some (Node.createSegs as v₁) := by
                    rw [objInsert_find es hpw k₁ as v₁ k₁, if_pos rfl, hfi]
                  have h₂ : assocFind (objInsert es k₁ bs v₂).1 k₁
                      = some (Node.createSegs bs v₂) := by
                    rw [objInsert_find es hpw k₁ bs v₂ k₁, if_pos rfl, hfi]
                  rw [objInsert_find _ hSOX.1 k₁ bs v₂ k, objInsert_find _ hSOY.1 k₁ as v₁ k,
                    h₁, h₂, objInsert_find es hpw k₁ as v₁ k, objInsert_find es hpw k₁ bs v₂ k]
                  by_cases hkk : k = k₁
                  · rw [if_pos hkk, if_pos hkk]
                    show some ((insertSegs (Node.createSegs as v₁) bs v₂).1)
                      = some ((insertSegs (Node.createSegs bs v₂) as v₁).1)
                    rw [createSegs_insert_comm as bs v₁ v₂ hcab hnab]
                  · rw [if_neg hkk, if_neg hkk, if_neg hkk, if_neg hkk]
                | some c =>
                  have hmem := assocFind_mem hfi
                  have hcs : nodeSorted c = true := hSO.2 (k₁, c) hmem
                  have hcsz : sizeOf c ≤ n := by
                    have h1 : sizeOf (k₁, c) < sizeOf es := List.sizeOf_lt_of_mem hmem
                    have h2 : sizeOf (Node.object es) ≤ n + 1 := ht
                    have h3 : sizeOf es < sizeOf (Node.object es) := by
                      rw [Node.object.sizeOf_spec]; omega
                    have h4 : sizeOf c < sizeOf (k₁, c) := by
                      rw [Prod.mk.sizeOf_spec]; omega
                    omega
                  have h₁ : assocFind (objInsert es k₁ as v₁).1 k₁
                      = some ((insertSegs c as v₁).1) := by
                    rw [objInsert_find es hpw k₁ as v₁ k₁, if_pos rfl, hfi]
                  have h₂ : assocFind (objInsert es k₁ bs v₂).1 k₁
                      = some ((insertSegs c bs v₂).1) := by
                    rw [objInsert_find es hpw k₁ bs v₂ k₁, if_pos rfl, hfi]
                  rw [objInsert_find _ hSOX.1 k₁ bs v₂ k, objInsert_find _ hSOY.1 k₁ as v₁ k,
                    h₁, h₂, objInsert_find es hpw k₁ as v₁ k, objInsert_find es hpw k₁ bs v₂ k]
                  by_cases hkk : k = k₁
                  · rw [if_pos hkk, if_pos hkk]
                    show some ((insertSegs (insertSegs c as v₁).1 bs v₂).1)
                      = some ((insertSegs (insertSegs c bs v₂).1 as v₁).1)
                    rw [ih c hcsz hcs as bs v₁ v₂ hcab hnab]
                  · rw [if_neg hkk, if_neg hkk, if_neg hkk, if_neg hkk]
              · have e₁ : assocFind (objInsert es k₁ as v₁).1 k₂ = assocFind es k₂ := by
                  rw [objInsert_find es hpw k₁ as v₁ k₂, if_neg (fun hc₂ => hij hc₂.symm)]
                have e₂ : assocFind (objInsert es k₂ bs v₂).1 k₁ = assocFind es k₁ := by
                  rw [objInsert_find es hpw k₂ bs v₂ k₁, if_neg hij]
                rw [objInsert_find _ hSOX.1 k₂ bs v₂ k, objInsert_find _ hSOY.1 k₁ as v₁ k,
                  e₁, e₂, objInsert_find es hpw k₁ as v₁ k, objInsert_find es hpw k₂ bs v₂ k]
                by_cases hk1 : k = k₂
                · have hki : ¬ k = k₁ := fun hc₂ => hij (by rw [← hc₂, hk1])
                  rw [if_pos hk1, if_neg hki, if_pos hk1]
                · by_cases hk2 : k = k₁
                  · rw [if_neg hk1, if_pos hk2, if_pos hk2]
                  · rw [if_neg hk1, if_neg hk2, if_neg hk2, if_neg hk1]


theorem foldl_buildStep_some : ∀ (rest : List Directive) (t : Node),
    List.foldl buildStep (some t) rest
      = some (List.foldl (fun t d => (insertSegs t d.path.segs d.value).1) t rest) := by
  intro rest
  induction rest with
  | nil => intro t; rfl
  | cons d tl ih =>
    intro t
    rw [List.foldl_cons, List.foldl_cons]
    show List.foldl buildStep (some ((insertSegs t d.path.segs d.value).1)) tl = _
    exact ih _

theorem build_tree_eq_foldl (ds : List Directive) :
    build_tree ds = List.foldl buildStep none ds := by
  cases ds with
  | nil => rfl
  | cons first rest =>
    rw [build_tree, List.foldl_cons,
      show buildStep none first = some (Node.createSegs first.path.segs first.value) from rfl,
      foldl_buildStep_some]

theorem buildStep_sorted (acc : Option Node) (d : Directive)
    (h : ∀ t, acc = some t → nodeSorted t = true) :
    ∀ t, buildStep acc d = some t → nodeSorted t = true := by
  intro t ht
  cases acc with
  | none =>
    have ht' : some (Node.createSegs d.path.segs d.value) = some t := ht
    injection ht' with h'
    rw [← h']
    exact createSegs_sorted _ _
  | some t₀ =>
    have ht' : some ((insertSegs t₀ d.path.segs d.value).1) = some t := ht
    injection ht' with h'
    rw [← h']
    exact insertSegs_sorted t₀ _ _ (h t₀ rfl)

theorem buildStep_comm (acc : Option Node)
    (h : ∀ t, acc = some t → nodeSorted t = true)
    (d₁ d₂ : Directive) (hcp : compat d₁.path.segs d₂.path.segs = true)
    (hne : d₁.path ≠ d₂.path) :
    buildStep (buildStep acc d₁) d₂ = buildStep (buildStep acc d₂) d₁ := by
  have hnes : d₁.path.segs ≠ d₂.path.segs := fun hc => hne (segs_injective hc)
  cases acc with
  | none =>
    show some ((insertSegs (Node.createSegs d₁.path.segs d₁.value) d₂.path.segs d₂.value).1)
      = some ((insertSegs (Node.createSegs d₂.path.segs d₂.value) d₁.path.segs d₁.value).1)
    rw [createSegs_insert_comm _ _ _ _ hcp hnes]
  | some t =>
    show some ((insertSegs (insertSegs t d₁.path.segs d₁.value).1 d₂.path.segs d₂.value).1)
      = some ((insertSegs (insertSegs t d₂.path.segs d₂.value).1 d₁.path.segs d₁.value).1)
    rw [insert_insert_comm_n (sizeOf t) t (le_refl _) (h t rfl) _ _ _ _ hcp hnes]

theorem foldl_buildStep_perm : ∀ {ds₁ ds₂ : List Directive}, List.Perm ds₁ ds₂ →
    ∀ acc, (∀ t, acc = some t → nodeSorted t = true) →
    List.Pairwise (fun d₁ d₂ : Directive =>
      compat d₁.path.segs d₂.path.segs = true ∧ d₁.path ≠ d₂.path) ds₁ →
    List.foldl buildStep acc ds₁ = List.foldl buildStep acc ds₂ := by
  intro ds₁ ds₂ hp
  induction hp with
  | nil => intro acc _ _; rfl
  | cons x p ih =>
    intro acc hacc hpw
    rw [List.foldl_cons, List.foldl_cons]
    exact ih (buildStep acc x) (buildStep_sorted acc x hacc) (List.pairwise_cons.1 hpw).2
  | swap x y l =>
    intro acc hacc hpw
    rw [List.foldl_cons, List.foldl_cons, List.foldl_cons, List.foldl_cons]
    have hr := (List.pairwise_cons.1 hpw).1 x (List.mem_cons_self _ _)
    rw [buildStep_comm acc hacc y x hr.1 hr.2]
  | trans h₁ h₂ ih₁ ih₂ =>
    intro acc hacc hpw
    rw [ih₁ acc hacc hpw]
    refine ih₂ acc hacc ?_
    refine (List.Perm.pairwise_iff ?_ h₁).1 hpw
    intro d₁ d₂ hd
    exact ⟨compat_symm hd.1, hd.2.symm⟩

/-- C10: for a batch the validator accepts, building the tree from any
permutation of the directives yields a byte-identical serialization. -/
theorem c10_permutation_invariance (ds ds₂ : List Directive)
    (hv : validate ds = some (Except.ok ())) (hp : List.Perm ds ds₂) :
    (build_tree ds).map serialize = (build_tree ds₂).map serialize := by
  have hpw := validate_pairwise_compat ds hv
  have heq : build_tree ds = build_tree ds₂ := by
    rw [build_tree_eq_foldl, build_tree_eq_foldl]
    exact foldl_buildStep_perm hp none (fun t ht => Option.noConfusion ht) hpw
  rw [heq]

theorem c10_permutation_invariance_witness :
    (build_tree [⟨Path.append Path.root (Segment.key ['a']), ['1']⟩,
        ⟨Path.append Path.root (Segment.key ['b']), ['2']⟩]).map serialize
      = (build_tree [⟨Path.append Path.root (Segment.key ['b']), ['2']⟩,
        ⟨Path.append Path.root (Segment.key ['a']), ['1']⟩]).map serialize :=
  c10_permutation_invariance _ _ (by rfl)
    (List.Perm.swap (⟨Path.append Path.root (Segment.key ['b']), ['2']⟩ : Directive)
      (⟨Path.append Path.root (Segment.key ['a']), ['1']⟩ : Directive) [])


theorem obsT_nil : ∀ (t : Node), obsT t [] ≠ none := by
  intro t
  cases t with
  | value s => intro hc; rw [obsT] at hc; exact Option.noConfusion hc
  | array es => intro hc; rw [obsT] at hc; exact Option.noConfusion hc
  | object es => intro hc; rw [obsT] at hc; exact Option.noConfusion hc

theorem obsTArr_find_none : ∀ {es : List (Nat × Node)} {i : Nat},
    assocFind es i = none → ∀ r, obsTArr es i r = none := by
  intro es
  induction es with
  | nil => intro i _ r; rw [obsTArr]
  | cons e tl ih =>
    intro i h r
    obtain ⟨j, c⟩ := e
    rw [assocFind] at h
    rw [obsTArr]
    by_cases hij : i = j
    · rw [if_pos hij] at h; exact Option.noConfusion h
    · rw [if_neg hij] at h
      rw [if_neg hij]
      exact ih h r

theorem obsTArr_find_some : ∀ {es : List (Nat × Node)} {i : Nat} {c : Node},
    assocFind es i = some c → ∀ r, obsTArr es i r = obsT c r := by
  intro es
  induction es with
  | nil => intro i c h r; rw [assocFind] at h; exact Option.noConfusion h
  | cons e tl ih =>
    intro i c h r
    obtain ⟨j, c₀⟩ := e
    rw [assocFind] at h
    rw [obsTArr]
    by_cases hij : i = j
    · rw [if_pos hij] at h
      injection h with h'
      rw [if_pos hij, h']
    · rw [if_neg hij] at h
      rw [if_neg hij]
      exact ih h r

theorem obsTObj_find_none : ∀ {es : List (List Char × Node)} {k : List Char},
    assocFind es k = none → ∀ r, obsTObj es k r = none := by
  intro es
  induction es with
  | nil => intro k _ r; rw [obsTObj]
  | cons e tl ih =>
    intro k h r
    obtain ⟨j, c⟩ := e
    rw [assocFind] at h
    rw [obsTObj]
    by_cases hij : k = j
    · rw [if_pos hij] at h; exact Option.noConfusion h
    · rw [if_neg hij] at h
      rw [if_neg hij]
      exact ih h r

theorem obsTObj_find_some : ∀ {es : List (List Char × Node)} {k : List Char} {c : Node},
    assocFind es k = some c → ∀ r, obsTObj es k r = obsT c r := by
  intro es
  induction es with
  | nil => intro k c h r; rw [assocFind] at h; exact Option.noConfusion h
  | cons e tl ih =>
    intro k c h r
    obtain ⟨j, c₀⟩ := e
    rw [assocFind] at h
    rw [obsTObj]
    by_cases hij : k = j
    · rw [if_pos hij] at h
      injection h with h'
      rw [if_pos hij, h']
    · rw [if_neg hij] at h
      rw [if_neg hij]
      exact ih h r

theorem obsT_create : ∀ (p : List Segment) (v : List Char) (q : List Segment),
    obsT (Node.createSegs p v) q = obsL p q := by
  intro p
  induction p with
  | nil =>
    intro v q
    cases q with
    | nil => rfl
    | cons s r => rfl
  | cons s rest ih =>
    intro v q
    cases s with
    | index i =>
      cases q with
      | nil => rfl
      | cons q₀ r =>
        cases q₀ with
        | index j =>
          rw [Node.createSegs, obsT, obsTArr, obsL]
          by_cases hji : j = i
          · rw [if_pos hji, if_pos (show Segment.index j = Segment.index i from by rw [hji]),
              ih]
          · rw [if_neg hji, if_neg (show ¬(Segment.index j = Segment.index i) from
              fun hc => hji (by injection hc)), obsTArr]
        | key k => rfl
    | key k =>
      cases q with
      | nil => rfl
      | cons q₀ r =>
        cases q₀ with
        | key k₂ =>
          rw [Node.createSegs, obsT, obsTObj, obsL]
          by_cases hji : k₂ = k
          · rw [if_pos hji, if_pos (show Segment.key k₂ = Segment.key k from by rw [hji]),
              ih]
          · rw [if_neg hji, if_neg (show ¬(Segment.key k₂ = Segment.key k) from
              fun hc => hji (by injection hc)), obsTObj]
        | index j => rfl


theorem obsT_insert_n : ∀ n t, sizeOf t ≤ n → nodeSorted t = true →
    ∀ p v q K, obsT (insertSegs t p v).1 q = some K →
    obsT t q = some K ∨ obsL p q = some K := by
  intro n
  induction n with
  | zero => intro t ht; cases t <;> simp at ht
  | succ n ih =>
    intro t ht hs p v q K h
    cases p with
    | nil =>
      rw [show (insertSegs t [] v).1 = t from by cases t <;> rfl] at h
      exact Or.inl h
    | cons s rest =>
      cases t with
      | value sv => exact Or.inl h
      | array es =>
        cases s with
        | key k => exact Or.inl h
        | index i =>
          rw [nodeSorted] at hs
          have hSA := sortedArr_iff.1 hs
          have h₂ : obsT (Node.array (arrInsert es i rest v).1) q = some K := h
          cases q with
          | nil =>
            rw [obsT] at h₂
            refine Or.inl ?_
            rw [obsT]
            exact h₂
          | cons q₀ r =>
            cases q₀ with
            | key k₂ =>
              rw [obsT] at h₂
              exact Option.noConfusion h₂
            | index j =>
              rw [obsT] at h₂
              by_cases hji : j = i
              · subst hji
                cases hfi : assocFind es j with
                | none =>
                  have hfX : assocFind (arrInsert es j rest v).1 j
                      = some (Node.createSegs rest v) := by
                    rw [arrInsert_find es hSA.1 j rest v j, if_pos rfl, hfi]
                  rw [obsTArr_find_some hfX r, obsT_create] at h₂
                  refine Or.inr ?_
                  rw [obsL, if_pos rfl]
                  exact h₂
                | some c =>
                  have hfX : assocFind (arrInsert es j rest v).1 j
                      = some ((insertSegs c rest v).1) := by
                    rw [arrInsert_find es hSA.1 j rest v j, if_pos rfl, hfi]
                  rw [obsTArr_find_some hfX r] at h₂
                  have hmem := assocFind_mem hfi
                  have hcs : nodeSorted c = true := hSA.2 (j, c) hmem
                  have hcsz : sizeOf c ≤ n := by
                    have h1 : sizeOf (j, c) < sizeOf es := List.sizeOf_lt_of_mem hmem
                    have h2b : sizeOf (Node.array es) ≤ n + 1 := ht
                    have h3 : sizeOf es < sizeOf (Node.array es) := by
                      rw [Node.array.sizeOf_spec]; omega
                    have h4 : sizeOf c < sizeOf (j, c) := by
                      rw [Prod.mk.sizeOf_spec]; omega
                    omega
                  rcases ih c hcsz hcs rest v r K h₂ with hl | hr
                  · refine Or.inl ?_
                    rw [obsT, obsTArr_find_some hfi r]
                    exact hl
                  · refine Or.inr ?_
                    rw [obsL, if_pos rfl]
                    exact hr
              · have hfX : assocFind (arrInsert es i rest v).1 j = assocFind es j := by
                  rw [arrInsert_find es hSA.1 i rest v j, if_neg hji]
                refine Or.inl ?_
                rw [obsT]
                cases hfj : assocFind es j with
                | none =>
                  rw [obsTArr_find_none (show assocFind (arrInsert es i rest v).1 j = none
                    from by rw [hfX, hfj]) r] at h₂
                  exact Option.noConfusion h₂
                | some c =>
                  rw [obsTArr_find_some (show assocFind (arrInsert es i rest v).1 j = some c
                    from by rw [hfX, hfj]) r] at h₂
                  rw [obsTArr_find_some hfj r]
                  exact h₂
      | object es =>
        cases s with
        | index i => exact Or.inl h
        | key k =>
          rw [nodeSorted] at hs
          have hSO := sortedObj_iff.1 hs
          have h₂ : obsT (Node.object (objInsert es k rest v).1) q = some K := h
          cases q with
          | nil =>
            rw [obsT] at h₂
            refine Or.inl ?_
            rw [obsT]
            exact h₂
          | cons q₀ r =>
            cases q₀ with
            | index j =>
              rw [obsT] at h₂
              exact Option.noConfusion h₂
            | key k₂ =>
              rw [obsT] at h₂
              by_cases hji : k₂ = k
              · subst hji
                cases hfi : assocFind es k₂ with
                | none =>
                  have hfX : assocFind (objInsert es k₂ rest v).1 k₂
                      = some (Node.createSegs rest v) := by
                    rw [objInsert_find es hSO.1 k₂ rest v k₂, if_pos rfl, hfi]
                  rw [obsTObj_find_some hfX r, obsT_create] at h₂
                  refine Or.inr ?_
                  rw [obsL, if_pos rfl]
                  exact h₂
                | some c =>
                  have hfX : assocFind (objInsert es k₂ rest v).1 k₂
                      = some ((insertSegs c rest v).1) := by
                    rw [objInsert_find es hSO.1 k₂ rest v k₂, if_pos rfl, hfi]
                  rw [obsTObj_find_some hfX r] at h₂
                  have hmem := assocFind_mem hfi
                  have hcs : nodeSorted c = true := hSO.2 (k₂, c) hmem
                  have hcsz : sizeOf c ≤ n := by
                    have h1 : sizeOf (k₂, c) < sizeOf es := List.sizeOf_lt_of_mem hmem
                    have h2b : sizeOf (Node.object es) ≤ n + 1 := ht
                    have h3 : sizeOf es < sizeOf (Node.object es) := by
                      rw [Node.object.sizeOf_spec]; omega
                    have h4 : sizeOf c < sizeOf (k₂, c) := by
                      rw [Prod.mk.sizeOf_spec]; omega
                    omega
                  rcases ih c hcsz hcs rest v r K h₂ with hl | hr
                  · refine Or.inl ?_
                    rw [obsT, obsTObj_find_some hfi r]
                    exact hl
                  · refine Or.inr ?_
                    rw [obsL, if_pos rfl]
                    exact hr
              · have hfX : assocFind (objInsert es k rest v).1 k₂ = assocFind es k₂ := by
                  rw [objInsert_find es hSO.1 k rest v k₂, if_neg hji]
                refine Or.inl ?_
                rw [obsT]
                cases hfj : assocFind es k₂ with
                | none =>
                  rw [obsTObj_find_none (show assocFind (objInsert es k rest v).1 k₂ = none
                    from by rw [hfX, hfj]) r] at h₂
                  exact Option.noConfusion h₂
                | some c =>
                  rw [obsTObj_find_some (show assocFind (objInsert es k rest v).1 k₂ = some c
                    from by rw [hfX, hfj]) r] at h₂
                  rw [obsTObj_find_some hfj r]
                  exact h₂


theorem arrInsert_snd_none : ∀ {es : List (Nat × Node)} {i : Nat},
    assocFind es i = none → ∀ rest v, (arrInsert es i rest v).2 = true := by
  intro es
  induction es with
  | nil => intro i _ rest v; rfl
  | cons e tl ih =>
    intro i h rest v
    obtain ⟨j, c⟩ := e
    rw [assocFind] at h
    by_cases hij : i = j
    · rw [if_pos hij] at h; exact Option.noConfusion h
    · rw [if_neg hij] at h
      by_cases hlt : i < j
      · rw [arrInsert, if_neg hij, if_pos hlt]
      · rw [arrInsert, if_neg hij, if_neg hlt]
        exact ih h rest v

theorem arrInsert_snd_some : ∀ {es : List (Nat × Node)},
    List.Pairwise (· < ·) (es.map Prod.fst) → ∀ {i : Nat} {c : Node},
    assocFind es i = some c → ∀ rest v,
    (arrInsert es i rest v).2 = (insertSegs c rest v).2 := by
  intro es
  induction es with
  | nil => intro _ i c h rest v; rw [assocFind] at h; exact Option.noConfusion h
  | cons e tl ih =>
    intro hpw i c h rest v
    obtain ⟨j, c₀⟩ := e
    rw [List.map_cons] at hpw
    have htl := (List.pairwise_cons.1 hpw).2
    have hjlt := (List.pairwise_cons.1 hpw).1
    rw [assocFind] at h
    by_cases hij : i = j
    · rw [if_pos hij] at h
      injection h with h'
      rw [arrInsert, if_pos hij, h']
    · rw [if_neg hij] at h
      by_cases hlt : i < j
      · exfalso
        have hmem : i ∈ tl.map Prod.fst := by
          have := assocFind_mem h
          exact List.mem_map.2 ⟨(i, c), this, rfl⟩
        have := hjlt i hmem
        omega
      · rw [arrInsert, if_neg hij, if_neg hlt]
        exact ih htl h rest v

theorem objInsert_snd_none : ∀ {es : List (List Char × Node)} {k : List Char},
    assocFind es k = none → ∀ rest v, (objInsert es k rest v).2 = true := by
  intro es
  induction es with
  | nil => intro k _ rest v; rfl
  | cons e tl ih =>
    intro k h rest v
    obtain ⟨j, c⟩ := e
    rw [assocFind] at h
    by_cases hij : k = j
    · rw [if_pos hij] at h; exact Option.noConfusion h
    · rw [if_neg hij] at h
      by_cases hlt : strLt k j = true
      · rw [objInsert, if_neg hij, if_pos hlt]
      · rw [objInsert, if_neg hij, if_neg hlt]
        exact ih h rest v

theorem objInsert_snd_some : ∀ {es : List (List Char × Node)},
    List.Pairwise (fun a b => strLt a b = true) (es.map Prod.fst) →
    ∀ {k : List Char} {c : Node},
    assocFind es k = some c → ∀ rest v,
    (objInsert es k rest v).2 = (insertSegs c rest v).2 := by
  intro es
  induction es with
  | nil => intro _ k c h rest v; rw [assocFind] at h; exact Option.noConfusion h
  | cons e tl ih =>
    intro hpw k c h rest v
    obtain ⟨j, c₀⟩ := e
    rw [List.map_cons] at hpw
    have htl := (List.pairwise_cons.1 hpw).2
    have hjlt := (List.pairwise_cons.1 hpw).1
    rw [assocFind] at h
    by_cases hij : k = j
    · rw [if_pos hij] at h
      injection h with h'
      rw [objInsert, if_pos hij, h']
    · rw [if_neg hij] at h
      by_cases hlt : strLt k j = true
      · exfalso
        have hmem : k ∈ tl.map Prod.fst := by
          have := assocFind_mem h
          exact List.mem_map.2 ⟨(k, c), this, rfl⟩
        have hjk := hjlt k hmem
        rw [strLt_asymm hjk] at hlt
        exact Bool.noConfusion hlt
      · rw [objInsert, if_neg hij, if_neg hlt]
        exact ih htl h rest v

theorem insert_succeeds_n : ∀ n t, sizeOf t ≤ n → nodeSorted t = true →
    ∀ p v, p ≠ [] →
    (∀ q k₁ k₂, obsT t q = some k₁ → obsL p q = some k₂ → k₁ = k₂) →
    obsT t p = none →
    (insertSegs t p v).2 = true := by
  intro n
  induction n with
  | zero => intro t ht; cases t <;> simp at ht
  | succ n ih =>
    intro t ht hs p v hpne hagree hend
    cases p with
    | nil => exact absurd rfl hpne
    | cons s rest =>
      cases t with
      | value sv =>
        have hv := hagree [] NodeKind.value (segKind s) rfl (by rw [obsL])
        cases s <;> simp [segKind] at hv
      | array es =>
        cases s with
        | key k =>
          have hv := hagree [] NodeKind.array (segKind (Segment.key k)) rfl (by rw [obsL])
          simp [segKind] at hv
        | index i =>
          rw [nodeSorted] at hs
          have hSA := sortedArr_iff.1 hs
          show (arrInsert es i rest v).2 = true
          cases hfi : assocFind es i with
          | none => exact arrInsert_snd_none hfi rest v
          | some c =>
            rw [arrInsert_snd_some hSA.1 hfi rest v]
            have hend₂ : obsT c rest = none := by
              have h0 : obsT (Node.array es) (Segment.index i :: rest) = obsT c rest := by
                rw [obsT, obsTArr_find_some hfi rest]
              rw [h0] at hend
              exact hend
            have hrne : rest ≠ [] := by
              intro hc
              rw [hc] at hend₂
              exact obsT_nil c hend₂
            have hmem := assocFind_mem hfi
            have hcs : nodeSorted c = true := hSA.2 (i, c) hmem
            have hcsz : sizeOf c ≤ n := by
              have h1 : sizeOf (i, c) < sizeOf es := List.sizeOf_lt_of_mem hmem
              have h2b : sizeOf (Node.array es) ≤ n + 1 := ht
              have h3 : sizeOf es < sizeOf (Node.array es) := by
                rw [Node.array.sizeOf_spec]; omega
              have h4 : sizeOf c < sizeOf (i, c) := by
                rw [Prod.mk.sizeOf_spec]; omega
              omega
            refine ih c hcsz hcs rest v hrne ?_ hend₂
            intro q k₁ k₂ h₁ h₂
            refine hagree (Segment.index i :: q) k₁ k₂ ?_ ?_
            · rw [obsT, obsTArr_find_some hfi q]
              exact h₁
            · rw [obsL, if_pos rfl]
              exact h₂
      | object es =>
        cases s with
        | index i =>
          have hv := hagree [] NodeKind.object (segKind (Segment.index i)) rfl (by rw [obsL])
          simp [segKind] at hv
        | key k =>
          rw [nodeSorted] at hs
          have hSO := sortedObj_iff.1 hs
          show (objInsert es k rest v).2 = true
          cases hfi : assocFind es k with
          | none => exact objInsert_snd_none hfi rest v
          | some c =>
            rw [objInsert_snd_some hSO.1 hfi rest v]
            have hend₂ : obsT c rest = none := by
              have h0 : obsT (Node.object es) (Segment.key k :: rest) = obsT c rest := by
                rw [obsT, obsTObj_find_some hfi rest]
              rw [h0] at hend
              exact hend
            have hrne : rest ≠ [] := by
              intro hc
              rw [hc] at hend₂
              exact obsT_nil c hend₂
            have hmem := assocFind_mem hfi
            have hcs : nodeSorted c = true := hSO.2 (k, c) hmem
            have hcsz : sizeOf c ≤ n := by
              have h1 : sizeOf (k, c) < sizeOf es := List.sizeOf_lt_of_mem hmem
              have h2b : sizeOf (Node.object es) ≤ n + 1 := ht
              have h3 : sizeOf es < sizeOf (Node.object es) := by
                rw [Node.object.sizeOf_spec]; omega
              have h4 : sizeOf c < sizeOf (k, c) := by
                rw [Prod.mk.sizeOf_spec]; omega
              omega
            refine ih c hcsz hcs rest v hrne ?_ hend₂
            intro q k₁ k₂ h₁ h₂
            refine hagree (Segment.key k :: q) k₁ k₂ ?_ ?_
            · rw [obsT, obsTObj_find_some hfi q]
              exact h₁
            · rw [obsL, if_pos rfl]
              exact h₂


theorem createSegs_hasVal : ∀ (p : List Segment) (v : List Char),
    hasVal (Node.createSegs p v) p v = true := by
  intro p
  induction p with
  | nil => intro v; rw [Node.createSegs, hasVal]; simp
  | cons s rest ih =>
    intro v
    cases s with
    | index i =>
      rw [Node.createSegs, hasVal, hasValArr, if_pos rfl]
      exact ih v
    | key k =>
      rw [Node.createSegs, hasVal, hasValObj, if_pos rfl]
      exact ih v

theorem hasValArr_mem : ∀ {es : List (Nat × Node)} {i : Nat} {r : List Segment}
    {v : List Char}, hasValArr es i r v = true → i ∈ es.map Prod.fst := by
  intro es
  induction es with
  | nil => intro i r v h; rw [hasValArr] at h; exact Bool.noConfusion h
  | cons e tl ih =>
    intro i r v h
    obtain ⟨j, c⟩ := e
    rw [hasValArr] at h
    rw [List.map_cons]
    by_cases hij : i = j
    · rw [hij]; exact List.mem_cons_self _ _
    · rw [if_neg hij] at h
      exact List.mem_cons_of_mem _ (ih h)

theorem hasValObj_mem : ∀ {es : List (List Char × Node)} {k : List Char} {r : List Segment}
    {v : List Char}, hasValObj es k r v = true → k ∈ es.map Prod.fst := by
  intro es
  induction es with
  | nil => intro k r v h; rw [hasValObj] at h; exact Bool.noConfusion h
  | cons e tl ih =>
    intro k r v h
    obtain ⟨j, c⟩ := e
    rw [hasValObj] at h
    rw [List.map_cons]
    by_cases hij : k = j
    · rw [hij]; exact List.mem_cons_self _ _
    · rw [if_neg hij] at h
      exact List.mem_cons_of_mem _ (ih h)

theorem arrInsert_hasVal_aux : ∀ (es : List (Nat × Node)),
    (∀ e ∈ es, ∀ p v, (insertSegs e.2 p v).2 = true →
      hasVal (insertSegs e.2 p v).1 p v = true) →
    ∀ i rest v, (arrInsert es i rest v).2 = true →
    hasValArr (arrInsert es i rest v).1 i rest v = true := by
  intro es
  induction es with
  | nil =>
    intro _ i rest v _
    show hasValArr [(i, Node.createSegs rest v)] i rest v = true
    rw [hasValArr, if_pos rfl]
    exact createSegs_hasVal rest v
  | cons e tl ihes =>
    intro hmem i rest v hsucc
    obtain ⟨j, c⟩ := e
    by_cases hij : i = j
    · have h1 : (arrInsert ((j, c) :: tl) i rest v).1
          = (j, (insertSegs c rest v).1) :: tl := by
        rw [arrInsert, if_pos hij]
      have h2 : (arrInsert ((j, c) :: tl) i rest v).2 = (insertSegs c rest v).2 := by
        rw [arrInsert, if_pos hij]
      rw [h2] at hsucc
      rw [h1, hasValArr, if_pos hij]
      exact hmem (j, c) (List.mem_cons_self _ _) rest v hsucc
    · by_cases hlt : i < j
      · have h1 : (arrInsert ((j, c) :: tl) i rest v).1
            = (i, Node.createSegs rest v) :: (j, c) :: tl := by
          rw [arrInsert, if_neg hij, if_pos hlt]
        rw [h1, hasValArr, if_pos rfl]
        exact createSegs_hasVal rest v
      · have h1 : (arrInsert ((j, c) :: tl) i rest v).1
            = (j, c) :: (arrInsert tl i rest v).1 := by
          rw [arrInsert, if_neg hij, if_neg hlt]
        have h2 : (arrInsert ((j, c) :: tl) i rest v).2 = (arrInsert tl i rest v).2 := by
          rw [arrInsert, if_neg hij, if_neg hlt]
        rw [h2] at hsucc
        rw [h1, hasValArr, if_neg hij]
        exact ihes (fun e he p v h => hmem e (List.mem_cons_of_mem _ he) p v h) i rest v hsucc

theorem objInsert_hasVal_aux : ∀ (es : List (List Char × Node)),
    (∀ e ∈ es, ∀ p v, (insertSegs e.2 p v).2 = true →
      hasVal (insertSegs e.2 p v).1 p v = true) →
    ∀ k rest v, (objInsert es k rest v).2 = true →
    hasValObj (objInsert es k rest v).1 k rest v = true := by
  intro es
  induction es with
  | nil =>
    intro _ k rest v _
    show hasValObj [(k, Node.createSegs rest v)] k rest v = true
    rw [hasValObj, if_pos rfl]
    exact createSegs_hasVal rest v
  | cons e tl ihes =>
    intro hmem k rest v hsucc
    obtain ⟨j, c⟩ := e
    by_cases hij : k = j
    · have h1 : (objInsert ((j, c) :: tl) k rest v).1
          = (j, (insertSegs c rest v).1) :: tl := by
        rw [objInsert, if_pos hij]
      have h2 : (objInsert ((j, c) :: tl) k rest v).2 = (insertSegs c rest v).2 := by
        rw [objInsert, if_pos hij]
      rw [h2] at hsucc
      rw [h1, hasValObj, if_pos hij]
      exact hmem (j, c) (List.mem_cons_self _ _) rest v hsucc
    · by_cases hlt : strLt k j = true
      · have h1 : (objInsert ((j, c) :: tl) k rest v).1
            = (k, Node.createSegs rest v) :: (j, c) :: tl := by
          rw [objInsert, if_neg hij, if_pos hlt]
        rw [h1, hasValObj, if_pos rfl]
        exact createSegs_hasVal rest v
      · have h1 : (objInsert ((j, c) :: tl) k rest v).1
            = (j, c) :: (objInsert tl k rest v).1 := by
          rw [objInsert, if_neg hij, if_neg hlt]
        have h2 : (objInsert ((j, c) :: tl) k rest v).2 = (objInsert tl k rest v).2 := by
          rw [objInsert, if_neg hij, if_neg hlt]
        rw [h2] at hsucc
        rw [h1, hasValObj, if_neg hij]
        exact ihes (fun e he p v h => hmem e (List.mem_cons_of_mem _ he) p v h) k rest v hsucc

theorem insert_hasVal_n : ∀ n t, sizeOf t ≤ n → ∀ p v,
    (insertSegs t p v).2 = true → hasVal (insertSegs t p v).1 p v = true := by
  intro n
  induction n with
  | zero => intro t ht; cases t <;> simp at ht
  | succ n ih =>
    intro t ht p v hsucc
    cases p with
    | nil =>
      exfalso
      have h' : false = true := by
        rw [show (insertSegs t [] v).2 = false from by cases t <;> rfl] at hsucc
        exact hsucc
      exact Bool.noConfusion h'
    | cons s rest =>
      cases t with
      | value sv =>
        exact absurd (show (false : Bool) = true from hsucc) (by simp)
      | array es =>
        cases s with
        | key k => exact absurd (show (false : Bool) = true from hsucc) (by simp)
        | index i =>
          show hasValArr (arrInsert es i rest v).1 i rest v = true
          refine arrInsert_hasVal_aux es ?_ i rest v hsucc
          intro e he p' v' h'
          have hesz : sizeOf e.2 ≤ n := by
            have h1 : sizeOf e < sizeOf es := List.sizeOf_lt_of_mem he
            have h2b : sizeOf (Node.array es) ≤ n + 1 := ht
            have h3 : sizeOf es < sizeOf (Node.array es) := by
              rw [Node.array.sizeOf_spec]; omega
            obtain ⟨j, c⟩ := e
            show sizeOf c ≤ n
            have h4 : sizeOf c < sizeOf (j, c) := by
              rw [Prod.mk.sizeOf_spec]; omega
            omega
          exact ih e.2 hesz p' v' h'
      | object es =>
        cases s with
        | index i => exact absurd (show (false : Bool) = true from hsucc) (by simp)
        | key k =>
          show hasValObj (objInsert es k rest v).1 k rest v = true
          refine objInsert_hasVal_aux es ?_ k rest v hsucc
          intro e he p' v' h'
          have hesz : sizeOf e.2 ≤ n := by
            have h1 : sizeOf e < sizeOf es := List.sizeOf_lt_of_mem he
            have h2b : sizeOf (Node.object es) ≤ n + 1 := ht
            have h3 : sizeOf es < sizeOf (Node.object es) := by
              rw [Node.object.sizeOf_spec]; omega
            obtain ⟨j, c⟩ := e
            show sizeOf c ≤ n
            have h4 : sizeOf c < sizeOf (j, c) := by
              rw [Prod.mk.sizeOf_spec]; omega
            omega
          exact ih e.2 hesz p' v' h'


theorem arrInsert_pres_aux : ∀ (es : List (Nat × Node)),
    List.Pairwise (· < ·) (es.map Prod.fst) →
    (∀ e ∈ es, ∀ p v p' v', hasVal e.2 p v = true →
      hasVal (insertSegs e.2 p' v').1 p v = true) →
    ∀ i r v i' r' v', hasValArr es i r v = true →
    hasValArr (arrInsert es i' r' v').1 i r v = true := by
  intro es
  induction es with
  | nil =>
    intro _ _ i r v i' r' v' h
    rw [hasValArr] at h
    exact Bool.noConfusion h
  | cons e tl ihes =>
    intro hpw hmem i r v i' r' v' h
    obtain ⟨j, c⟩ := e
    rw [List.map_cons] at hpw
    have htl := (List.pairwise_cons.1 hpw).2
    have hjlt := (List.pairwise_cons.1 hpw).1
    rw [hasValArr] at h
    by_cases hij' : i' = j
    · have h1 : (arrInsert ((j, c) :: tl) i' r' v').1
          = (j, (insertSegs c r' v').1) :: tl := by
        rw [arrInsert, if_pos hij']
      rw [h1, hasValArr]
      by_cases hij : i = j
      · rw [if_pos hij] at h
        rw [if_pos hij]
        exact hmem (j, c) (List.mem_cons_self _ _) r v r' v' h
      · rw [if_neg hij] at h
        rw [if_neg hij]
        exact h
    · by_cases hlt : i' < j
      · have h1 : (arrInsert ((j, c) :: tl) i' r' v').1
            = (i', Node.createSegs r' v') :: (j, c) :: tl := by
          rw [arrInsert, if_neg hij', if_pos hlt]
        rw [h1, hasValArr]
        by_cases hii' : i = i'
        · exfalso
          rw [if_neg (by rw [hii']; exact hij')] at h
          have hmem₂ := hasValArr_mem h
          have := hjlt i hmem₂
          omega
        · rw [if_neg hii']
          rw [hasValArr]
          exact h
      · have h1 : (arrInsert ((j, c) :: tl) i' r' v').1
            = (j, c) :: (arrInsert tl i' r' v').1 := by
          rw [arrInsert, if_neg hij', if_neg hlt]
        rw [h1, hasValArr]
        by_cases hij : i = j
        · rw [if_pos hij] at h
          rw [if_pos hij]
          exact h
        · rw [if_neg hij] at h
          rw [if_neg hij]
          exact ihes htl (fun e he p v p' v' hh =>
            hmem e (List.mem_cons_of_mem _ he) p v p' v' hh) i r v i' r' v' h

theorem objInsert_pres_aux : ∀ (es : List (List Char × Node)),
    List.Pairwise (fun a b => strLt a b = true) (es.map Prod.fst) →
    (∀ e ∈ es, ∀ p v p' v', hasVal e.2 p v = true →
      hasVal (insertSegs e.2 p' v').1 p v = true) →
    ∀ k r v k' r' v', hasValObj es k r v = true →
    hasValObj (objInsert es k' r' v').1 k r v = true := by
  intro es
  induction es with
  | nil =>
    intro _ _ k r v k' r' v' h
    rw [hasValObj] at h
    exact Bool.noConfusion h
  | cons e tl ihes =>
    intro hpw hmem k r v k' r' v' h
    obtain ⟨j, c⟩ := e
    rw [List.map_cons] at hpw
    have htl := (List.pairwise_cons.1 hpw).2
    have hjlt := (List.pairwise_cons.1 hpw).1
    rw [hasValObj] at h
    by_cases hij' : k' = j
    · have h1 : (objInsert ((j, c) :: tl) k' r' v').1
          = (j, (insertSegs c r' v').1) :: tl := by
        rw [objInsert, if_pos hij']
      rw [h1, hasValObj]
      by_cases hij : k = j
      · rw [if_pos hij] at h
        rw [if_pos hij]
        exact hmem (j, c) (List.mem_cons_self _ _) r v r' v' h
      · rw [if_neg hij] at h
        rw [if_neg hij]
        exact h
    · by_cases hlt : strLt k' j = true
      · have h1 : (objInsert ((j, c) :: tl) k' r' v').1
            = (k', Node.createSegs r' v') :: (j, c) :: tl := by
          rw [objInsert, if_neg hij', if_pos hlt]
        rw [h1, hasValObj]
        by_cases hkk' : k = k'
        · exfalso
          rw [if_neg (by rw [hkk']; exact hij')] at h
          have hmem₂ := hasValObj_mem h
          have hjk := hjlt k hmem₂
          rw [hkk'] at hjk
          rw [strLt_asymm hjk] at hlt
          exact Bool.noConfusion hlt
        · rw [if_neg hkk']
          rw [hasValObj]
          exact h
      · have h1 : (objInsert ((j, c) :: tl) k' r' v').1
            = (j, c) :: (objInsert tl k' r' v').1 := by
          rw [objInsert, if_neg hij', if_neg hlt]
        rw [h1, hasValObj]
        by_cases hij : k = j
        · rw [if_pos hij] at h
          rw [if_pos hij]
          exact h
        · rw [if_neg hij] at h
          rw [if_neg hij]
          exact ihes htl (fun e he p v p' v' hh =>
            hmem e (List.mem_cons_of_mem _ he) p v p' v' hh) k r v k' r' v' h

theorem insert_pres_hasVal_n : ∀ n t, sizeOf t ≤ n → nodeSorted t = true →
    ∀ p v p' v', hasVal t p v = true →
    hasVal (insertSegs t p' v').1 p v = true := by
  intro n
  induction n with
  | zero => intro t ht; cases t <;> simp at ht
  | succ n ih =>
    intro t ht hs p v p' v' h
    cases p' with
    | nil =>
      rw [show (insertSegs t [] v').1 = t from by cases t <;> rfl]
      exact h
    | cons s' rest' =>
      cases t with
      | value sv => exact h
      | array es =>
        cases s' with
        | key k => exact h
        | index i' =>
          rw [nodeSorted] at hs
          have hSA := sortedArr_iff.1 hs
          cases p with
          | nil =>
            rw [hasVal] at h
            exact Bool.noConfusion h
          | cons s rest =>
            cases s with
            | key k =>
              rw [hasVal] at h
              exact Bool.noConfusion h
            | index i =>
              rw [hasVal] at h
              show hasValArr (arrInsert es i' rest' v').1 i rest v = true
              refine arrInsert_pres_aux es hSA.1 ?_ i rest v i' rest' v' h
              intro e he p₀ v₀ p₀' v₀' h₀
              have hes : nodeSorted e.2 = true := hSA.2 e he
              have hesz : sizeOf e.2 ≤ n := by
                have h1 : sizeOf e < sizeOf es := List.sizeOf_lt_of_mem he
                have h2b : sizeOf (Node.array es) ≤ n + 1 := ht
                have h3 : sizeOf es < sizeOf (Node.array es) := by
                  rw [Node.array.sizeOf_spec]; omega
                obtain ⟨j, c⟩ := e
                show sizeOf c ≤ n
                have h4 : sizeOf c < sizeOf (j, c) := by
                  rw [Prod.mk.sizeOf_spec]; omega
                omega
              exact ih e.2 hesz hes p₀ v₀ p₀' v₀' h₀
      | object es =>
        cases s' with
        | index i => exact h
        | key k' =>
          rw [nodeSorted] at hs
          have hSO := sortedObj_iff.1 hs
          cases p with
          | nil =>
            rw [hasVal] at h
            exact Bool.noConfusion h
          | cons s rest =>
            cases s with
            | index i =>
              rw [hasVal] at h
              exact Bool.noConfusion h
            | key k =>
              rw [hasVal] at h
              show hasValObj (objInsert es k' rest' v').1 k rest v = true
              refine objInsert_pres_aux es hSO.1 ?_ k rest v k' rest' v' h
              intro e he p₀ v₀ p₀' v₀' h₀
              have hes : nodeSorted e.2 = true := hSO.2 e he
              have hesz : sizeOf e.2 ≤ n := by
                have h1 : sizeOf e < sizeOf es := List.sizeOf_lt_of_mem he
                have h2b : sizeOf (Node.object es) ≤ n + 1 := ht
                have h3 : sizeOf es < sizeOf (Node.object es) := by
                  rw [Node.object.sizeOf_spec]; omega
                obtain ⟨j, c⟩ := e
                show sizeOf c ≤ n
                have h4 : sizeOf c < sizeOf (j, c) := by
                  rw [Prod.mk.sizeOf_spec]; omega
                omega
              exact ih e.2 hesz hes p₀ v₀ p₀' v₀' h₀


theorem serializeArr_hasVal_aux : ∀ (es : List (Nat × Node)),
    (∀ e ∈ es, ∀ p v, hasVal e.2 p v = true → ∃ l r, serialize e.2 = l ++ v ++ r) →
    ∀ i r v, hasValArr es i r v = true →
    ∃ l rr, serializeArr es = l ++ v ++ rr := by
  intro es
  induction es with
  | nil =>
    intro _ i r v h
    rw [hasValArr] at h
    exact Bool.noConfusion h
  | cons hd tl ih =>
    intro hmem i r v h
    obtain ⟨j, c⟩ := hd
    rw [hasValArr] at h
    cases tl with
    | nil =>
      by_cases hij : i = j
      · rw [if_pos hij] at h
        obtain ⟨l, rr, hser⟩ := hmem (j, c) (List.mem_cons_self _ _) r v h
        refine ⟨l, rr, ?_⟩
        rw [serializeArr]
        exact hser
      · rw [if_neg hij, hasValArr] at h
        exact Bool.noConfusion h
    | cons e tl₂ =>
      by_cases hij : i = j
      · rw [if_pos hij] at h
        obtain ⟨l, rr, hser⟩ := hmem (j, c) (List.mem_cons_self _ _) r v h
        refine ⟨l, rr ++ ',' :: serializeArr (e :: tl₂), ?_⟩
        rw [serializeArr, hser]
        simp [List.append_assoc]
      · rw [if_neg hij] at h
        obtain ⟨l, rr, hser⟩ :=
          ih (fun e₀ he₀ p v hh => hmem e₀ (List.mem_cons_of_mem _ he₀) p v hh) i r v h
        refine ⟨serialize c ++ ',' :: l, rr, ?_⟩
        rw [serializeArr, hser]
        simp [List.append_assoc]

theorem serializeObj_hasVal_aux : ∀ (es : List (List Char × Node)),
    (∀ e ∈ es, ∀ p v, hasVal e.2 p v = true → ∃ l r, serialize e.2 = l ++ v ++ r) →
    ∀ k r v, hasValObj es k r v = true →
    ∃ l rr, serializeObj es = l ++ v ++ rr := by
  intro es
  induction es with
  | nil =>
    intro _ k r v h
    rw [hasValObj] at h
    exact Bool.noConfusion h
  | cons hd tl ih =>
    intro hmem k r v h
    obtain ⟨j, c⟩ := hd
    rw [hasValObj] at h
    cases tl with
    | nil =>
      by_cases hij : k = j
      · rw [if_pos hij] at h
        obtain ⟨l, rr, hser⟩ := hmem (j, c) (List.mem_cons_self _ _) r v h
        refine ⟨'"' :: j ++ '"' :: ':' :: l, rr, ?_⟩
        rw [serializeObj, hser]
        simp [List.append_assoc]
      · rw [if_neg hij, hasValObj] at h
        exact Bool.noConfusion h
    | cons e tl₂ =>
      by_cases hij : k = j
      · rw [if_pos hij] at h
        obtain ⟨l, rr, hser⟩ := hmem (j, c) (List.mem_cons_self _ _) r v h
        refine ⟨'"' :: j ++ '"' :: ':' :: l, rr ++ ',' :: serializeObj (e :: tl₂), ?_⟩
        rw [serializeObj, hser]
        simp [List.append_assoc]
      · rw [if_neg hij] at h
        obtain ⟨l, rr, hser⟩ :=
          ih (fun e₀ he₀ p v hh => hmem e₀ (List.mem_cons_of_mem _ he₀) p v hh) k r v h
        refine ⟨('"' :: j ++ '"' :: ':' :: serialize c) ++ ',' :: l, rr, ?_⟩
        rw [serializeObj, hser]
        simp [List.append_assoc]

theorem serialize_hasVal_n : ∀ n t, sizeOf t ≤ n → ∀ p v, hasVal t p v = true →
    ∃ l r, serialize t = l ++ v ++ r := by
  intro n
  induction n with
  | zero => intro t ht; cases t <;> simp at ht
  | succ n ih =>
    intro t ht p v h
    cases t with
    | value s =>
      cases p with
      | nil =>
        rw [hasVal] at h
        have hsv : s = v := of_decide_eq_true h
        refine ⟨[], [], ?_⟩
        rw [serialize, hsv]
        simp
      | cons s₀ r =>
        rw [hasVal] at h
        exact Bool.noConfusion h
    | array es =>
      cases p with
      | nil => rw [hasVal] at h; exact Bool.noConfusion h
      | cons s₀ r =>
        cases s₀ with
        | key k => rw [hasVal] at h; exact Bool.noConfusion h
        | index i =>
          rw [hasVal] at h
          have hsub : ∀ e ∈ es, ∀ p v, hasVal e.2 p v = true →
              ∃ l r, serialize e.2 = l ++ v ++ r := by
            intro e he p₀ v₀ h₀
            have hesz : sizeOf e.2 ≤ n := by
              have h1 : sizeOf e < sizeOf es := List.sizeOf_lt_of_mem he
              have h2b : sizeOf (Node.array es) ≤ n + 1 := ht
              have h3 : sizeOf es < sizeOf (Node.array es) := by
                rw [Node.array.sizeOf_spec]; omega
              obtain ⟨j, c⟩ := e
              show sizeOf c ≤ n
              have h4 : sizeOf c < sizeOf (j, c) := by
                rw [Prod.mk.sizeOf_spec]; omega
              omega
            exact ih e.2 hesz p₀ v₀ h₀
          obtain ⟨l, rr, hser⟩ := serializeArr_hasVal_aux es hsub i r v h
          refine ⟨'[' :: l, rr ++ [']'], ?_⟩
          rw [serialize, hser]
          simp [List.append_assoc]
    | object es =>
      cases p with
      | nil => rw [hasVal] at h; exact Bool.noConfusion h
      | cons s₀ r =>
        cases s₀ with
        | index i => rw [hasVal] at h; exact Bool.noConfusion h
        | key k =>
          rw [hasVal] at h
          have hsub : ∀ e ∈ es, ∀ p v, hasVal e.2 p v = true →
              ∃ l r, serialize e.2 = l ++ v ++ r := by
            intro e he p₀ v₀ h₀
            have hesz : sizeOf e.2 ≤ n := by
              have h1 : sizeOf e < sizeOf es := List.sizeOf_lt_of_mem he
              have h2b : sizeOf (Node.object es) ≤ n + 1 := ht
              have h3 : sizeOf es < sizeOf (Node.object es) := by
                rw [Node.object.sizeOf_spec]; omega
              obtain ⟨j, c⟩ := e
              show sizeOf c ≤ n
              have h4 : sizeOf c < sizeOf (j, c) := by
                rw [Prod.mk.sizeOf_spec]; omega
              omega
            exact ih e.2 hesz p₀ v₀ h₀
          obtain ⟨l, rr, hser⟩ := serializeObj_hasVal_aux es hsub k r v h
          refine ⟨'\x7b' :: l, rr ++ ['\x7d'], ?_⟩
          rw [serialize, hser]
          simp [List.append_assoc]


theorem build_fold_inv : ∀ (rest : List Directive) (t : Node) (done : List Directive),
    done ≠ [] →
    nodeSorted t = true →
    (∀ q K, obsT t q = some K → ∃ d' ∈ done, obsL d'.path.segs q = some K) →
    (∀ d' ∈ done, hasVal t d'.path.segs d'.value = true) →
    (∀ d' ∈ done, ∀ d ∈ rest, compat d'.path.segs d.path.segs = true ∧ d'.path ≠ d.path) →
    List.Pairwise (fun d₁ d₂ : Directive =>
      compat d₁.path.segs d₂.path.segs = true ∧ d₁.path ≠ d₂.path) rest →
    (List.foldl (fun (p : Node × Bool) d =>
        ((insertSegs p.1 d.path.segs d.value).1,
          p.2 && (insertSegs p.1 d.path.segs d.value).2)) (t, true) rest).2 = true ∧
    ∀ d' ∈ done ++ rest,
      hasVal (List.foldl (fun (t : Node) d => (insertSegs t d.path.segs d.value).1) t rest)
        d'.path.segs d'.value = true := by
  intro rest
  induction rest with
  | nil =>
    intro t done _ _ _ hhv _ _
    refine ⟨rfl, ?_⟩
    intro d' hd'
    rw [List.append_nil] at hd'
    exact hhv d' hd'
  | cons d tl ihr =>
    intro t done hdne hsort hrepr hhv hcomp hpw
    obtain ⟨d₀, hd₀⟩ : ∃ d₀, d₀ ∈ done := by
      cases done with
      | nil => exact absurd rfl hdne
      | cons x xs => exact ⟨x, List.mem_cons_self _ _⟩
    have hcd := hcomp d₀ hd₀ d (List.mem_cons_self _ _)
    have hpne : d.path.segs ≠ [] := by
      intro hc
      cases hsegs : d₀.path.segs with
      | nil =>
        refine hcd.2 (segs_injective ?_)
        rw [hsegs, hc]
      | cons s ss =>
        have hcb := hcd.1
        rw [hsegs, hc, compat] at hcb
        exact Bool.noConfusion hcb
    have hagree : ∀ q k₁ k₂, obsT t q = some k₁ → obsL d.path.segs q = some k₂ →
        k₁ = k₂ := by
      intro q k₁ k₂ h₁ h₂
      obtain ⟨d', hd', ho⟩ := hrepr q k₁ h₁
      exact compat_agree d'.path.segs d.path.segs
        (hcomp d' hd' d (List.mem_cons_self _ _)).1 q k₁ k₂ ho h₂
    have hend : obsT t d.path.segs = none := by
      cases hobs : obsT t d.path.segs with
      | none => rfl
      | some K =>
        exfalso
        obtain ⟨d', hd', ho⟩ := hrepr d.path.segs K hobs
        have hcd' := hcomp d' hd' d (List.mem_cons_self _ _)
        have hK : K = NodeKind.value :=
          compat_agree d'.path.segs d.path.segs hcd'.1 d.path.segs K NodeKind.value ho
            (obsL_self _)
        rw [hK] at ho
        have hsg := obsL_value_eq d'.path.segs d.path.segs ho
        exact hcd'.2 ((segs_injective hsg).symm)
    have hsucc : (insertSegs t d.path.segs d.value).2 = true :=
      insert_succeeds_n (sizeOf t) t (le_refl _) hsort d.path.segs d.value hpne hagree hend
    rw [List.foldl_cons, List.foldl_cons]
    simp only [Bool.true_and]
    rw [hsucc]
    have hres := ihr (insertSegs t d.path.segs d.value).1 (done ++ [d])
      (fun hc => List.noConfusion ((List.append_eq_nil.1 hc).2))
      (insertSegs_sorted t _ _ hsort)
      (by
        intro q K h
        rcases obsT_insert_n (sizeOf t) t (le_refl _) hsort d.path.segs d.value q K h
          with hl | hr
        · obtain ⟨d', hd', ho⟩ := hrepr q K hl
          exact ⟨d', List.mem_append_left _ hd', ho⟩
        · exact ⟨d, List.mem_append_right _ (List.mem_singleton.2 rfl), hr⟩)
      (by
        intro d' hd'
        rcases List.mem_append.1 hd' with hl | hr
        · exact insert_pres_hasVal_n (sizeOf t) t (le_refl _) hsort _ _ _ _ (hhv d' hl)
        · rw [List.mem_singleton] at hr
          subst hr
          exact insert_hasVal_n (sizeOf t) t (le_refl _) _ _ hsucc)
      (by
        intro d' hd' d₂ hd₂
        rcases List.mem_append.1 hd' with hl | hr
        · exact hcomp d' hl d₂ (List.mem_cons_of_mem _ hd₂)
        · rw [List.mem_singleton] at hr
          subst hr
          exact (List.pairwise_cons.1 hpw).1 d₂ hd₂)
      (List.pairwise_cons.1 hpw).2
    refine ⟨hres.1, ?_⟩
    intro d' hd'
    refine hres.2 d' ?_
    have heq : done ++ d :: tl = (done ++ [d]) ++ tl := by simp
    rw [heq] at hd'
    exact hd'

/-- C9: on a batch the validator accepts, no insertion during the build
ever takes the failure branch of `Node::insert` (the conjunction of the
booleans the source discards is true). -/
theorem c9_insert_never_fails (ds : List Directive)
    (hv : validate ds = some (Except.ok ())) :
    (buildTreeChecked ds).2 = true := by
  cases ds with
  | nil => rfl
  | cons first rest =>
    have hpw := validate_pairwise_compat (first :: rest) hv
    have hcons := List.pairwise_cons.1 hpw
    show (List.foldl (fun (p : Node × Bool) d =>
        ((insertSegs p.1 d.path.segs d.value).1,
          p.2 && (insertSegs p.1 d.path.segs d.value).2))
      (Node.createSegs first.path.segs first.value, true) rest).2 = true
    exact (build_fold_inv rest (Node.createSegs first.path.segs first.value) [first]
      (fun hc => List.noConfusion hc)
      (createSegs_sorted _ _)
      (fun q K h => ⟨first, List.mem_singleton.2 rfl, by
        rw [obsT_create] at h; exact h⟩)
      (fun d' hd' => by
        rw [List.mem_singleton] at hd'
        subst hd'
        exact createSegs_hasVal _ _)
      (fun d' hd' d hd => by
        rw [List.mem_singleton] at hd'
        subst hd'
        exact hcons.1 d hd)
      hcons.2).1

/-- C7: a directive parsed with the raw `:` operator has its captured
value text appear verbatim (as a contiguous substring) in the serialized
output of a validated batch containing it. -/
theorem c7_raw_value_preserved (s : List Char) (ast : DirectiveAst) (pos : Nat)
    (rest : List Char) (hparse : parse_directive 1 s = Except.ok (ast, pos, rest))
    (hop : ast.operator = OperatorAst.colon)
    (ds : List Directive) (hmem : Directive.ofAst ast ∈ ds)
    (hv : validate ds = some (Except.ok ())) (t : Node) (hb : build_tree ds = some t) :
    ∃ l r, serialize t = l ++ ast.value ++ r := by
  cases ds with
  | nil => cases hmem
  | cons first rest₂ =>
    have hpw := validate_pairwise_compat _ hv
    have hcons := List.pairwise_cons.1 hpw
    have hres := build_fold_inv rest₂ (Node.createSegs first.path.segs first.value) [first]
      (fun hc => List.noConfusion hc)
      (createSegs_sorted _ _)
      (fun q K h => ⟨first, List.mem_singleton.2 rfl, by
        rw [obsT_create] at h; exact h⟩)
      (fun d' hd' => by
        rw [List.mem_singleton] at hd'
        subst hd'
        exact createSegs_hasVal _ _)
      (fun d' hd' d hd => by
        rw [List.mem_singleton] at hd'
        subst hd'
        exact hcons.1 d hd)
      hcons.2
    have hteq : t = List.foldl (fun (t : Node) d => (insertSegs t d.path.segs d.value).1)
        (Node.createSegs first.path.segs first.value) rest₂ := by
      rw [build_tree] at hb
      injection hb with h'
      exact h'.symm
    have hval : hasVal t (Directive.ofAst ast).path.segs (Directive.ofAst ast).value
        = true := by
      rw [hteq]
      refine hres.2 (Directive.ofAst ast) ?_
      rw [List.singleton_append]
      exact hmem
    have hvv : (Directive.ofAst ast).value = ast.value := by
      show (if ast.operator = OperatorAst.colon then ast.value
        else '"' :: escape_string ast.value ++ ['"']) = ast.value
      rw [if_pos hop]
    rw [hvv] at hval
    exact serialize_hasVal_n (sizeOf t) t (le_refl _) _ _ hval


theorem c9_insert_never_fails_witness :
    validate [⟨Path.append Path.root (Segment.index 0), ['1']⟩,
        ⟨Path.append Path.root (Segment.index 1), ['2']⟩] = some (Except.ok ()) ∧
    (buildTreeChecked [⟨Path.append Path.root (Segment.index 0), ['1']⟩,
        ⟨Path.append Path.root (Segment.index 1), ['2']⟩]).2 = true :=
  ⟨by rfl, c9_insert_never_fails
    [⟨Path.append Path.root (Segment.index 0), ['1']⟩,
      ⟨Path.append Path.root (Segment.index 1), ['2']⟩] (by rfl)⟩

theorem c7_raw_value_preserved_witness :
    ∃ l r, serialize (Node.object [(['a'], Node.value ['1'])]) = l ++ ['1'] ++ r :=
  c7_raw_value_preserved ['a', ':', '1']
    ⟨[SegmentAst.bareKey ['a']], OperatorAst.colon, ['1']⟩ 0 [] (by rfl) rfl
    [Directive.ofAst ⟨[SegmentAst.bareKey ['a']], OperatorAst.colon, ['1']⟩]
    (List.mem_singleton.2 rfl) (by rfl)
    (Node.object [(['a'], Node.value ['1'])]) (by rfl)


end Mkjson
